import Mathlib

/-!
Verification development for the range-to-binary-DAG compiler of
`process.py` (function `emit_bitdag` and its helpers).

The Python object graph is shallowly embedded as an arena: every `Node`
ever created lives at a fixed index of `St.arena`, and a Python reference
to a node is its arena index.  Index `0` is the root sentinel created
first by `emit_bitdag`.  A `children` slot holds `none` for Python `None`
and `some j` for a pointer to arena node `j` (`some 0` is a pointer to
the root).  Python `is`-identity of nodes is therefore index equality.
The mutable `nodes` list of `emit_bitdag` is `St.live` (ids in creation
order).  Fallible Python code (assert failures, `parents[0]` on an empty
list, comparing an unassigned `addr` with `>`) is modelled with
`Except Err`.
-/

set_option maxRecDepth 8000

namespace Eurip

/-- Mirror of `class Node` in process.py.  `children` always has 16 slots,
`parents` are non-owning back references (arena ids), `addr` is the byte
offset assigned by `assign_addrs` (`none` before assignment). -/
structure Node where
  children : List (Option Nat)
  parents : List Nat
  addr : Option Nat
deriving DecidableEq, Repr

instance : Inhabited Node :=
  ⟨⟨List.replicate 16 none, [], none⟩⟩

/-- The whole mutable state of one `emit_bitdag` run: the arena of all
nodes ever created together with the `nodes` list (ids in order). -/
structure St where
  arena : List Node
  live : List Nat
deriving DecidableEq, Repr

/-- Dereference an arena id (total; ids produced by the code are always
in range). -/
def getN (st : St) (i : Nat) : Node :=
  st.arena.getD i default

/-- Overwrite one arena cell (mirrors mutating one Python node). -/
def setN (st : St) (i : Nat) (n : Node) : St :=
  ⟨st.arena.set i n, st.live⟩

/-- `new_node(parent)`: append a fresh all-empty node to the arena and to
the `nodes` list; `parents` starts as `[parent]` when a parent is given. -/
def newNode (st : St) (parent : Option Nat) : St × Nat :=
  (⟨st.arena ++ [⟨List.replicate 16 none, parent.toList, none⟩], st.live ++ [st.arena.length]⟩,
   st.arena.length)

/-- The state right after `root = new_node()` in `emit_bitdag`. -/
def initSt : St :=
  ⟨[⟨List.replicate 16 none, [], none⟩], [0]⟩

/-- The ways a run of the Python code dies. -/
inductive Err where
  /-- one of the two `assert`s at the top of `set_range` -/
  | assertRange
  /-- `node.parents[0]` with an empty parent list (IndexError) -/
  | indexError
  /-- `assert total_size < 1 << 17` in `assign_addrs` -/
  | assertOverflow
  /-- `assert node.children != [root] * 16` -/
  | assertInvariant
  /-- an `assert` inside `test` -/
  | assertTest
  /-- `child.addr > 0` with `addr` still `None` (TypeError) -/
  | typeError
deriving DecidableEq, Repr

/-- `make_nibbles(x)`: the `width/4` nibbles of `x`, most significant
first.  Python's `>>` on ints is floor division and `& 0xf` is `emod 16`,
also for negative `x` (the validator walks `start - 1`, which is `-1`
when `start = 0`). -/
def make_nibbles (width : Nat) (x : Int) : List Nat :=
  (List.range (width / 4)).map fun i =>
    ((Int.fdiv x (2 ^ (width - 4 - 4 * i))).emod 16).toNat

/-- The second `set_range` precondition: `bin(start ^ end).rstrip('1')`
is `'0b'` or `'0b0'`, i.e. `start ^^^ end` is `2 ^ k - 1` for some `k`
(no set bit above a zero bit).  `(x + 1) &&& x = 0` says exactly that. -/
def trailing_ones (x : Nat) : Bool :=
  (x + 1) &&& x == 0

/-- The nibble-pair loop of `set_range`, walking from `node`. -/
def set_range_go (st : St) (node : Nat) : List (Nat × Nat) → Except Err St
  | [] => .ok st
  | (a, b) :: rest =>
    if a = b then
      match (getN st node).children.getD a none with
      | none =>
        let p := newNode st (some node)
        let st' := setN p.1 node
          { getN p.1 node with children := (getN p.1 node).children.set a (some p.2) }
        set_range_go st' p.2 rest
      | some c => set_range_go st c rest
    else
      if a = 0 ∧ b = 15 then
        match (getN st node).parents with
        | [] => .error .indexError
        | p :: _ =>
          .ok (setN st p
            { getN st p with children :=
                (getN st p).children.map fun c => if c = some node then some 0 else c })
      else
        let cs := (List.range' a (b + 1 - a)).foldl
          (fun cs n => cs.set n (some 0)) (getN st node).children
        .ok (setN st node { getN st node with children := cs })

/-- `set_range(start, end)`: the two preconditions, then the walk from
the root. -/
def set_range (width : Nat) (st : St) (s e : Nat) : Except Err St :=
  if s ≤ e then
    if trailing_ones (s ^^^ e) then
      set_range_go st 0 ((make_nibbles width s).zip (make_nibbles width e))
    else .error .assertRange
  else .error .assertRange

/-- The `for start, end in ranges: set_range(start, end)` loop, starting
from the fresh root-only state. -/
def build (width : Nat) (ranges : List (Nat × Nat)) : Except Err St :=
  ranges.foldlM (fun st r => set_range width st r.1 r.2) initSt

/-- Accumulator of one `dedupe` pass: the evolving state, the
`node_map` as an association list (children snapshot at insertion ↦
canonical id; Python's dict hashes on the tuple of children identities,
modelled collision-free), the indices collected in `deduped`, and the
(duplicate id, canonical id) pairs in merge order. -/
structure PassAcc where
  st : St
  map : List (List (Option Nat) × Nat)
  merged : List Nat
  pairs : List (Nat × Nat)
deriving DecidableEq, Repr

/-- First-match association-list lookup (dict keys are unique, so first
match is the dict semantics). -/
def lookupKey (m : List (List (Option Nat) × Nat)) (k : List (Option Nat)) : Option Nat :=
  match m with
  | [] => none
  | kv :: rest => if kv.1 = k then some kv.2 else lookupKey rest k

/-- `p.children = [c if c is not node else canonical for c in p.children]`. -/
def rewireParent (dup canonical : Nat) (st : St) (p : Nat) : St :=
  setN st p
    { getN st p with children :=
        (getN st p).children.map fun c => if c = some dup then some canonical else c }

/-- One iteration of the `for n, node in enumerate(nodes)` body of a
`dedupe` pass. -/
def passStep (acc : PassAcc) (x : Nat × Nat) : PassAcc :=
  let node := getN acc.st x.2
  match lookupKey acc.map node.children with
  | none => { acc with map := acc.map ++ [(node.children, x.2)] }
  | some canonical =>
    let st1 := node.parents.foldl (rewireParent x.2 canonical) acc.st
    let st2 := setN st1 canonical
      { getN st1 canonical with parents := (getN st1 canonical).parents ++ node.parents }
    { acc with st := st2, merged := acc.merged ++ [x.1], pairs := acc.pairs ++ [(x.2, canonical)] }

/-- One full pass over `enumerate(nodes)`. -/
def dedupePass (st : St) : PassAcc :=
  st.live.enum.foldl passStep ⟨st, [], [], []⟩

/-- One pass plus the `nodes[:] = [...]` filtering; the boolean is the
pass's `changed` flag. -/
def passResult (st : St) : St × Bool :=
  let acc := dedupePass st
  (⟨acc.st.arena, (st.live.enum.filter (fun p => !acc.merged.contains p.1)).map Prod.snd⟩,
   !acc.merged.isEmpty)

/-- The `while changed` loop, with explicit fuel (each changed pass
retires at least one node, so `nodes` length is enough fuel; proved in
`dedupe_isFix`). -/
def dedupeIter : Nat → St → St
  | 0, st => st
  | fuel + 1, st =>
    let p := passResult st
    if p.2 then dedupeIter fuel p.1 else p.1

/-- `dedupe()`. -/
def dedupe (st : St) : St :=
  dedupeIter st.live.length st

/-- `Node.size`: `4 + sum(2 if (c and c.parents) else 0 for c in children)`. -/
def size (st : St) (nid : Nat) : Nat :=
  4 + ((getN st nid).children.map fun c =>
    match c with
    | some j => if (getN st j).parents = [] then 0 else 2
    | none => 0).sum

/-- The assignment loop of `assign_addrs`: each node gets the running
total, which then grows by the node's size. -/
def assignGo (st : St) (cur : Nat) : List Nat → St × Nat
  | [] => (st, cur)
  | nid :: rest =>
    let st' := setN st nid { getN st nid with addr := some cur }
    assignGo st' (cur + size st' nid) rest

/-- `assign_addrs()`: assign running totals, then
`assert total_size < 1 << 17`. -/
def assign_addrs (st : St) : Except Err St :=
  let p := assignGo st 0 st.live
  if p.2 < 2 ^ 17 then .ok p.1 else .error .assertOverflow

/-- Sum of the sizes of the live nodes (the final running total;
`size` does not depend on any `addr`, so reading it before or after
assignment is the same — see `assignGo_spec`). -/
def totalSize (st : St) : Nat :=
  (st.live.map (size st)).sum

/-- `assert node.children != [root] * 16` for every live node.  After
reduction value-equality to the root coincides with pointer identity, so
the comparison is modelled at pointer (id) level. -/
def validateNodes (st : St) : Except Err Unit :=
  if st.live.all (fun nid => decide ((getN st nid).children ≠ List.replicate 16 (some 0)))
  then .ok () else .error .assertInvariant

/-- The walk of `test`: consume nibbles; an empty slot answers `false`,
a pointer to the root answers `true`, otherwise descend; `none` when the
nibbles run out with no verdict (then `test` returns without asserting). -/
def walkGo (st : St) : Nat → List Nat → Option Bool
  | _, [] => none
  | nid, a :: rest =>
    match (getN st nid).children.getD a none with
    | none => some false
    | some c => if c = 0 then some true else walkGo st c rest

/-- Walk a full address from the root. -/
def walk (st : St) (width : Nat) (x : Int) : Option Bool :=
  walkGo st 0 (make_nibbles width x)

/-- `test(x, expected)`: fatal only when the walk reaches a verdict that
contradicts `expected`. -/
def runTest (st : St) (width : Nat) (x : Int) (expected : Bool) : Except Err Unit :=
  match walk st width x with
  | some b => if b = expected then .ok () else .error .assertTest
  | none => .ok ()

/-- The test points the validator generates for range number `n`,
in test order: `start - 1` (guarded), `start`, the midpoint, `end`,
`end + 1` (guarded). -/
def pointsFor (ranges : List (Nat × Nat)) (n : Nat) : List (Int × Bool) :=
  match ranges.get? n with
  | none => []
  | some r =>
    (if n == 0 || (match ranges.get? (n - 1) with
                   | some pr => decide ((pr.2 : Int) < (r.1 : Int) - 1)
                   | none => false)
     then [((r.1 : Int) - 1, false)] else [])
    ++ [((r.1 : Int), true), ((((r.1 + r.2) / 2 : Nat) : Int), true), ((r.2 : Int), true)]
    ++ (if decide (n < ranges.length - 1) && (match ranges.get? (n + 1) with
                                              | some nx => decide (r.2 + 1 < nx.1)
                                              | none => false)
        then [((r.2 : Int) + 1, false)] else [])

/-- The validator loop over all ranges. -/
def runTests (st : St) (width : Nat) (ranges : List (Nat × Nat)) : Except Err Unit :=
  (List.range ranges.length).foldlM
    (fun _ n => (pointsFor ranges n).foldlM (fun _ p => runTest st width p.1 p.2) ()) ()

/-- Slot indices whose child is a real node with a positive assigned
address (the bits of `has_child`). -/
def hasSlots (st : St) (nid : Nat) : List Nat :=
  ((getN st nid).children.enum.filter fun q =>
    match q.2 with
    | some j => decide (0 < ((getN st j).addr).getD 0)
    | none => false).map Prod.fst

/-- Slot indices whose child has address 0, i.e. is the root
(`set_child`). -/
def zeroSlots (st : St) (nid : Nat) : List Nat :=
  ((getN st nid).children.enum.filter fun q =>
    match q.2 with
    | some j => (getN st j).addr == some 0
    | none => false).map Prod.fst

/-- `sum(1 << n for n in slots)`. -/
def bitsOf (l : List Nat) : Nat :=
  (l.map (2 ^ ·)).sum

/-- The per-child 16-bit payload words: each positive child address
right-shifted by one, in slot order. -/
def childWords (st : St) (nid : Nat) : List Nat :=
  (getN st nid).children.filterMap fun c =>
    match c with
    | some j =>
      match (getN st j).addr with
      | some a => if 0 < a then some (a / 2) else none
      | none => none
    | none => none

/-- A 16-bit little-endian word as two bytes. -/
def word16 (v : Nat) : List Nat :=
  [v % 256, v / 256 % 256]

/-- `Node.binary()`: `struct.pack('<HH%dH', has_child, zero_children,
*child_addrs)`.  Comparing an unassigned address is a TypeError. -/
def binary (st : St) (nid : Nat) : Except Err (List Nat) :=
  if (getN st nid).children.all (fun c =>
      match c with
      | some j => ((getN st j).addr).isSome
      | none => true)
  then .ok (word16 (bitsOf (hasSlots st nid)) ++ word16 (bitsOf (zeroSlots st nid))
            ++ ((childWords st nid).map word16).flatten)
  else .error .typeError

/-- The final `for node in nodes: outfile.write(node.binary())`. -/
def emitBlob (st : St) : Except Err (List Nat) :=
  st.live.foldlM (fun acc nid => (binary st nid).map (acc ++ ·)) []

/-- `emit_bitdag(ranges, outfile, width)`: build the trie, dedupe,
assign addresses (overflow assert), check the structural invariant, run
the self-checks, and emit the blob.  The result carries the final state
and the bytes written. -/
def emit_bitdag (ranges : List (Nat × Nat)) (width : Nat) : Except Err (St × List Nat) := do
  let st1 ← build width ranges
  let st2 := dedupe st1
  let st3 ← assign_addrs st2
  let _ ← validateNodes st3
  let _ ← runTests st3 width ranges
  let blob ← emitBlob st3
  pure (st3, blob)

/-- Membership of `x` in the input ranges (the spec-side notion the
validator compares against). -/
def memSpec (ranges : List (Nat × Nat)) (x : Int) : Bool :=
  ranges.any fun r => decide ((r.1 : Int) ≤ x ∧ x ≤ (r.2 : Int))

/-- The membership the compiled artifact yields for `x` (walking the
final structure from the root), `none` when the run failed or the walk
gives no verdict. -/
def pipelineMem (ranges : List (Nat × Nat)) (width : Nat) (x : Int) : Option Bool :=
  match emit_bitdag ranges width with
  | .ok p => walk p.1 width x
  | .error _ => none

/-- A well-formed child slot: empty, the root, or a live node that still
has a parent.  This is the shape every slot of a live node has in any
state the pipeline actually reaches. -/
def slotOk (st : St) : Option Nat → Prop
  | none => True
  | some j => j = 0 ∨ (j ∈ st.live ∧ (getN st j).parents ≠ [])

instance (st : St) (c : Option Nat) : Decidable (slotOk st c) :=
  match c with
  | none => isTrue trivial
  | some _ => inferInstanceAs (Decidable (_ ∨ _))

/-- The structural invariants of a reachable pre-assignment state used by
the encoding-size theorems: the `nodes` list has no duplicate ids, stays
inside the arena and starts with the root, the root has no parents (it
is never the target of a merge), and every slot of a live node is well
formed. -/
def StOk (st : St) : Prop :=
  st.live.Nodup ∧ st.live.head? = some 0 ∧ (getN st 0).parents = [] ∧
    (∀ nid ∈ st.live, nid < st.arena.length) ∧
    ∀ nid ∈ st.live, ∀ c ∈ (getN st nid).children, slotOk st c

instance (st : St) : Decidable (StOk st) :=
  inferInstanceAs (Decidable (_ ∧ _))

/-- The constructed (pre-dedupe) state for the two single-address ranges
`0x00` and `0x20` at width 8: the two leaves (ids 2 and 4) have
pointer-identical (all-empty) children; the two interior nodes (ids 1
and 3) point at them from slot 0 and are structurally but not
pointer-identically equal. -/
def stEx : St :=
  match build 8 [(0, 0), (32, 32)] with
  | .ok s => s
  | .error _ => initSt

/-- The reduced state for the single range `(16, 31)` at width 8: the
root plus the garbage interior node eliminated by the full-subtree
special case. -/
def stW : St :=
  match build 8 [(16, 31)] with
  | .ok s => dedupe s
  | .error _ => initSt

/-- The state `stW` after address assignment. -/
def stW' : St :=
  match assign_addrs stW with
  | .ok s => s
  | .error _ => initSt

/-- The successful pipeline output for the single range `(16, 31)` at
width 8: final state and emitted blob. -/
def emitW : St × List Nat :=
  match emit_bitdag [(16, 31)] 8 with
  | .ok p => p
  | .error _ => (initSt, [])

/-- An aligned (power-of-two sized, size-aligned) address range, the shape
`ipaddress.collapse_addresses` emits: the start is divisible by the size
and the size is a power of two. -/
def alignedRange (r : Nat × Nat) : Prop :=
  ∃ k, 2 ^ k ∣ r.1 ∧ r.2 + 1 = r.1 + 2 ^ k

/-- Membership of an address in one of the ranges. -/
def inRanges (R : List (Nat × Nat)) (x : Nat) : Prop :=
  ∃ r ∈ R, r.1 ≤ x ∧ x ≤ r.2

/-- No two ranges of `R` are buddies (adjacent with an aligned union):
`collapse_addresses` would have merged such a pair into their supernet. -/
def noBuddy (R : List (Nat × Nat)) : Prop :=
  ∀ r ∈ R, ∀ r' ∈ R, ¬(r.2 + 1 = r'.1 ∧ alignedRange (r.1, r'.2))

/-- The nibble of `x` consumed at a depth-`d` node (the `(d+1)`-st nibble,
most significant first, of an `N`-nibble address). -/
def nib (N d x : Nat) : Nat := x / 16 ^ (N - d - 1) % 16

/-- The index of the depth-`d` block containing `x` (the number formed by
the first `d` nibbles of `x`). -/
def blkOf (N d x : Nat) : Nat := x / 16 ^ (N - d)

/-- First address of the depth-`d` block with index `v`. -/
def blockLo (N d v : Nat) : Nat := v * 16 ^ (N - d)

/-- The suffix of `x`'s nibble list from depth `d` on. -/
def nibsFrom (N d x : Nat) : List Nat :=
  (List.range (N - d)).map (fun i => nib N (d + i) x)


/-- The value of child slot `i` of node `n` (`none` beyond the 16 slots). -/
def slotV (st : St) (n i : Nat) : Option Nat :=
  (getN st n).children.getD i none

/-- Node `m` is referenced: some live node has a child slot holding it. -/
def refBy (st : St) (m : Nat) : Prop :=
  ∃ n ∈ st.live, ∃ i, slotV st n i = some m

/-- Range `rr` lies inside the depth/index block `dv`. -/
def subOf (N : Nat) (dv : Nat × Nat) (rr : Nat × Nat) : Prop :=
  blockLo N dv.1 dv.2 ≤ rr.1 ∧ rr.2 < blockLo N dv.1 dv.2 + 16 ^ (N - dv.1)

/-- The depth/index block `dv` lies inside range `rr`. -/
def supOf (N : Nat) (dv : Nat × Nat) (rr : Nat × Nat) : Prop :=
  rr.1 ≤ blockLo N dv.1 dv.2 ∧ blockLo N dv.1 dv.2 + 16 ^ (N - dv.1) ≤ rr.2 + 1

/-- Construction-phase invariant of `set_range`/`build`.  `blk` is ghost
tree-position data (depth, block index) for every node id; `Ps` are the
ranges whose marks are already present in the slots (soundness facts),
`Pw` the ranges available as creation witnesses.  In the tree built by
`set_range` every non-root node has exactly one referencing slot, a
node's unique parent is recorded in `parents`, slots pointing at the
root sentinel mark fully covered sub-blocks, no referenced interior
node's block is contained in an already processed range (it would have
been special-cased away), garbage nodes are empty, and every node was
created by a range inside its block. -/
structure BInv (N : Nat) (Ps Pw : List (Nat × Nat)) (st : St)
    (blk : Nat → Nat × Nat) : Prop where
  head0 : st.live.head? = some 0
  nodup : st.live.Nodup
  bounds : ∀ n ∈ st.live, n < st.arena.length
  rootPar : (getN st 0).parents = []
  blk0 : blk 0 = (0, 0)
  chlen : ∀ n ∈ st.live, (getN st n).children.length = 16
  edge : ∀ n ∈ st.live, ∀ i m, slotV st n i = some m → m ≠ 0 →
    m ∈ st.live ∧ blk m = ((blk n).1 + 1, 16 * (blk n).2 + i) ∧ (blk n).1 + 1 ≤ N
  sound : ∀ n ∈ st.live, ∀ i, slotV st n i = some 0 →
    ∀ x, blockLo N ((blk n).1 + 1) (16 * (blk n).2 + i) ≤ x →
      x < blockLo N ((blk n).1 + 1) (16 * (blk n).2 + i) + 16 ^ (N - ((blk n).1 + 1)) →
      inRanges Ps x
  notCov : ∀ n ∈ st.live, n ≠ 0 → refBy st n → (blk n).1 < N →
    ¬∃ rr ∈ Ps, supOf N (blk n) rr
  unref : ∀ n ∈ st.live, n ≠ 0 → ¬refBy st n →
    (getN st n).children = List.replicate 16 none
  uniqRef : ∀ n ∈ st.live, n ≠ 0 →
    ∃ p, (getN st n).parents = [p] ∧
      ∀ q ∈ st.live, ∀ j, slotV st q j = some n → q = p
  wit : ∀ n ∈ st.live, n ≠ 0 → ∃ rr ∈ Pw, subOf N (blk n) rr
  leafNone : ∀ n ∈ st.live, (blk n).1 = N → (getN st n).children = List.replicate 16 none
  depthLe : ∀ n ∈ st.live, (blk n).1 ≤ N

/-- Height contribution of one children array: one more than the
largest height of a real (non-root, non-empty) child. -/
def childHt (f : Nat → Nat) (cs : List (Option Nat)) : Nat :=
  cs.foldr (fun c acc => match c with
    | some j => if j = 0 then acc else max (f j + 1) acc
    | none => acc) 0

/-- Fuel-bounded height of a node in the child graph (stable once the
fuel exceeds the node rank, see `htF_stable`). -/
def htF (st : St) : Nat → Nat → Nat
  | 0, _ => 0
  | fuel + 1, n => childHt (htF st fuel) (getN st n).children

/-- Ghost merge table of a pass: where an id has been merged to.  `M`
lists the (duplicate, canonical) pairs in merge order; an unmerged id
maps to itself. -/
def mtM (M : List (Nat × Nat)) (y : Nat) : Nat :=
  match M.find? (fun p => p.1 == y) with
  | some p => p.2
  | none => y

/-- No live node has all sixteen children pointing at the root: the
configuration whose structural-invariant assert in `validate` is fatal. -/
def noAllRoot (st : St) : Prop :=
  ∀ n ∈ st.live, (getN st n).children ≠ List.replicate 16 (some 0)

/-- The structural facts that hold at every `dedupe` pass boundary
(established by `build`, re-established after each pass): the root heads
a duplicate-free in-bounds node list; children arrays have 16 slots;
every real child edge lands in a live node that records the holder in
its `parents` list; unreferenced non-root nodes are all-empty; and some
rank function decreases along real child edges and peaks at the root
(the child graph is acyclic with every node below the root). -/
structure PInv (st : St) : Prop where
  head0 : st.live.head? = some 0
  nodup : st.live.Nodup
  bounds : ∀ n ∈ st.live, n < st.arena.length
  chlen : ∀ n ∈ st.live, (getN st n).children.length = 16
  pc : ∀ u ∈ st.live, ∀ i v, slotV st u i = some v → v ≠ 0 →
    v ∈ st.live ∧ u ∈ (getN st v).parents
  unref : ∀ u ∈ st.live, u ≠ 0 → ¬refBy st u →
    (getN st u).children = List.replicate 16 none
  rank : ∃ rk : Nat → Nat,
    (∀ u ∈ st.live, ∀ i v, slotV st u i = some v → v ≠ 0 → rk v < rk u) ∧
    (∀ u ∈ st.live, rk u ≤ rk 0)

/-- Invariant of one `dedupe` pass after processing the prefix `L1` of
the node list, over the boundary state `st0` with boundary rank `rk`.
`acc.pairs` is the ghost merge table: every current slot is the
`mtM acc.pairs` image of the boundary slot, duplicates are retired at
most once and never serve as canonicals, the `node_map` keys are
children snapshots taken at some earlier table prefix, a duplicate
merged into the root was unreferenced at the boundary, and merged pairs
have equal boundary height. -/
structure Mid (st0 : St) (rk : Nat → Nat) (L1 : List Nat) (acc : PassAcc) : Prop where
  live_eq : acc.st.live = st0.live
  len_eq : acc.st.arena.length = st0.arena.length
  dup_mem : ∀ p ∈ acc.pairs, p.1 ∈ L1 ∧ p.1 ≠ 0 ∧ p.2 ∈ L1
  dup_nodup : (acc.pairs.map Prod.fst).Nodup
  can_not_dup : ∀ p ∈ acc.pairs, p.2 ∉ acc.pairs.map Prod.fst
  slots : ∀ u ∈ st0.live, ∀ i,
    slotV acc.st u i = Option.map (mtM acc.pairs) (slotV st0 u i)
  chlen : ∀ u ∈ st0.live,
    (getN acc.st u).children.length = (getN st0 u).children.length
  par_grow : ∀ x q, q ∈ (getN st0 x).parents → q ∈ (getN acc.st x).parents
  dup_par : ∀ p ∈ acc.pairs, ∀ q, q ∈ (getN st0 p.1).parents →
    q ∈ (getN acc.st p.2).parents
  map_ids : acc.map.map Prod.snd =
    L1.filter (fun x => !((acc.pairs.map Prod.fst).contains x))
  map_keys : ∀ e ∈ acc.map, ∃ M2, M2 <+: acc.pairs ∧
    e.1 = (getN st0 e.2).children.map (Option.map (mtM M2))
  harmless : ∀ p ∈ acc.pairs, p.2 = 0 → ¬refBy st0 p.1
  hteq : ∀ p ∈ acc.pairs, p.2 ≠ 0 →
    htF st0 (rk 0 + 1) p.1 = htF st0 (rk 0 + 1) p.2
  dup_slots : ∀ p ∈ acc.pairs, p.2 ≠ 0 → ∀ i,
    (slotV st0 p.1 i = none ↔ slotV st0 p.2 i = none) ∧
    (slotV st0 p.1 i = some 0 ↔ slotV st0 p.2 i = some 0) ∧
    (∀ y, slotV st0 p.1 i = some y → y ≠ 0 →
      ∃ z, slotV st0 p.2 i = some z ∧ z ≠ 0 ∧
        mtM acc.pairs y = mtM acc.pairs z)
  merged_lt : ∀ k ∈ acc.merged, k < L1.length
  merged_iff : ∀ idx x, st0.live[idx]? = some x → idx < L1.length →
    (idx ∈ acc.merged ↔ x ∈ acc.pairs.map Prod.fst)

/-! ### Theorems -/

/-- The nibble-pair loop never raises the precondition assertion: its
only failure is the `parents[0]` IndexError of the full-subtree special
case. -/
theorem set_range_go_ne_assertRange (l : List (Nat × Nat)) :
    ∀ (st : St) (node : Nat), set_range_go st node l ≠ .error .assertRange := by
  induction l with
  | nil => intro st node; simp [set_range_go]
  | cons p rest ih =>
    intro st node
    obtain ⟨a, b⟩ := p
    simp only [set_range_go]
    split
    · split
      · exact ih _ _
      · exact ih _ _
    · split
      · split
        · simp
        · simp

      · simp

/-- C1.  The round-trip membership property fails on the code: for the
single-address (power-of-two-aligned, sorted, non-overlapping) input
range `(5, 5)` at width 32, the whole pipeline succeeds and writes a
blob, the address 5 lies inside the input ranges, yet walking the
compiled structure from the root yields no `true` verdict for 5 (the
walk falls off the end of the nibbles at an all-empty leaf, which the
claim's walk rules read as non-membership and the code's own `test`
silently accepts). -/
theorem C1_round_trip_membership_fails_on_single_address_range :
    (emit_bitdag [(5, 5)] 32).toOption.isSome = true ∧
      memSpec [(5, 5)] 5 = true ∧
      pipelineMem [(5, 5)] 32 5 = none :=
  ⟨rfl, rfl, rfl⟩

/-- C2.  On the single range covering the entire address space,
`emit_bitdag` does not complete: the first nibble pair is `(0, 15)`, the
full-subtree special case fires at the root itself, and `node.parents[0]`
raises IndexError because the root has no parents.  (Both the 32-bit and
the 128-bit widths are shown.) -/
theorem C2_full_space_range_crashes :
    emit_bitdag [(0, 2 ^ 32 - 1)] 32 = .error .indexError ∧
      emit_bitdag [(0, 2 ^ 128 - 1)] 128 = .error .indexError :=
  ⟨rfl, rfl⟩

/-- C9.  The precondition assertion of `set_range` fires exactly when
`start > end` or `start ^^^ end` is not a contiguous run of trailing one
bits; but "fails fatally exactly when malformed" is refuted by the
well-formed full-space range `(0, 2^32 - 1)`, on which `set_range` fails
fatally with the IndexError of the root special case instead. -/
theorem C9_set_range_precondition :
    (∀ (w : Nat) (st : St) (s e : Nat),
        set_range w st s e = .error .assertRange ↔
          (e < s ∨ trailing_ones (s ^^^ e) = false)) ∧
      set_range 32 initSt 0 (2 ^ 32 - 1) = .error .indexError ∧
      trailing_ones ((0 : Nat) ^^^ (2 ^ 32 - 1)) = true :=
  ⟨by
    intro w st s e
    unfold set_range
    split_ifs with hse ht
    · constructor
      · intro h; exact absurd h (set_range_go_ne_assertRange _ _ _)
      · rintro (h | h)
        · omega
        · rw [h] at ht; exact Bool.noConfusion ht
    · have hf : trailing_ones (s ^^^ e) = false := by
        cases h : trailing_ones (s ^^^ e)
        · rfl
        · exact absurd h ht
      exact iff_of_true rfl (Or.inr hf)
    · exact iff_of_true rfl (Or.inl (by omega)),
   rfl, rfl⟩

/-- C10 counterexample.  For the single range `(0, 3)` (which is the
last range and has no following range at all), the validator's test
points do not include `(4, false)`: the code's guard `n < len(ranges)-1`
skips the `end + 1` check for the last range, contradicting the claim
that it is tested whenever no adjacent following range exists. -/
theorem C10_counterexample_last_range_end_plus_one_not_tested :
    pointsFor [(0, 3)] 0 = [(-1, false), (0, true), (1, true), (3, true)] ∧
      ((4 : Int), false) ∉ pointsFor [(0, 3)] 0 :=
  ⟨rfl, by decide⟩

theorem mem_ite_singleton {α : Type} (g : Bool) (a x : α) :
    (x ∈ if g then [a] else ([] : List α)) ↔ (g = true ∧ x = a) := by
  cases g <;> simp

/-- C10 amended.  The validator tests `end + 1` (expected false) exactly
for the ranges that do have a following range and it is not directly
adjacent — the last range's `end + 1` is never tested — and it tests
`start - 1` (expected false) exactly for the first range and for every
later range whose preceding range is not directly adjacent. -/
theorem C10_amended_validator_test_points (ranges : List (Nat × Nat)) (n : Nat)
    (s e : Nat) (hget : ranges.get? n = some (s, e)) (hse : s ≤ e) :
    ((((e : Nat) : Int) + 1, false) ∈ pointsFor ranges n ↔
      (n < ranges.length - 1 ∧ ∃ nx, ranges.get? (n + 1) = some nx ∧ e + 1 < nx.1)) ∧
    ((((s : Nat) : Int) - 1, false) ∈ pointsFor ranges n ↔
      (n = 0 ∨ ∃ pr, ranges.get? (n - 1) = some pr ∧ (pr.2 : Int) < ((s : Nat) : Int) - 1)) := by
  have hg1 : (n == 0 || (match ranges.get? (n - 1) with
                | some pr => decide ((pr.2 : Int) < ((s : Nat) : Int) - 1)
                | none => false)) = true ↔
      (n = 0 ∨ ∃ pr, ranges.get? (n - 1) = some pr ∧ (pr.2 : Int) < ((s : Nat) : Int) - 1) := by
    cases hpr : ranges.get? (n - 1) <;> simp [hpr]
  have hg2 : (decide (n < ranges.length - 1) && (match ranges.get? (n + 1) with
                | some nx => decide (e + 1 < nx.1)
                | none => false)) = true ↔
      (n < ranges.length - 1 ∧ ∃ nx, ranges.get? (n + 1) = some nx ∧ e + 1 < nx.1) := by
    cases hnx : ranges.get? (n + 1) <;> simp [hnx]
  have key : ∀ x : Int × Bool, x ∈ pointsFor ranges n ↔
      (((n == 0 || (match ranges.get? (n - 1) with
            | some pr => decide ((pr.2 : Int) < ((s : Nat) : Int) - 1)
            | none => false)) = true ∧ x = (((s : Nat) : Int) - 1, false)) ∨
        (x = (((s : Nat) : Int), true) ∨ x = ((((s + e) / 2 : Nat) : Int), true) ∨
          x = (((e : Nat) : Int), true)) ∨
        ((decide (n < ranges.length - 1) && (match ranges.get? (n + 1) with
            | some nx => decide (e + 1 < nx.1)
            | none => false)) = true ∧ x = (((e : Nat) : Int) + 1, false))) := by
    intro x
    simp only [pointsFor, hget, List.mem_append, mem_ite_singleton, List.mem_cons,
      List.not_mem_nil, or_false]
    tauto
  constructor
  · rw [key, ← hg2]
    constructor
    · rintro (⟨h, heq⟩ | (h | h | h) | ⟨h, _⟩)
      · simp only [Prod.mk.injEq, and_true] at heq
        omega
      · simp [Prod.ext_iff] at h
      · simp [Prod.ext_iff] at h
      · simp [Prod.ext_iff] at h
      · exact h
    · intro h
      exact Or.inr (Or.inr ⟨h, rfl⟩)
  · rw [key, ← hg1]
    constructor
    · rintro (⟨h, _⟩ | (h | h | h) | ⟨h, heq⟩)
      · exact h
      · simp [Prod.ext_iff] at h
      · simp [Prod.ext_iff] at h
      · simp [Prod.ext_iff] at h
      · simp only [Prod.mk.injEq, and_true] at heq
        omega
    · intro h
      exact Or.inl ⟨h, rfl⟩

theorem lookupKey_append_none (m m' : List (List (Option Nat) × Nat)) (k : List (Option Nat)) :
    lookupKey (m ++ m') k = none ↔ lookupKey m k = none ∧ lookupKey m' k = none := by
  induction m with
  | nil => simp [lookupKey]
  | cons kv rest ih =>
    by_cases h : kv.1 = k
    · simp [lookupKey, h]
    · simp [lookupKey, h, ih]

theorem lookupKey_singleton_none (kv : List (Option Nat) × Nat) (k : List (Option Nat)) :
    lookupKey [kv] k = none ↔ kv.1 ≠ k := by
  by_cases h : kv.1 = k <;> simp [lookupKey, h]

/-- The `deduped` index list only ever grows along a pass. -/
theorem foldl_passStep_merged_prefix (l : List (Nat × Nat)) :
    ∀ acc : PassAcc, ∃ ext, (l.foldl passStep acc).merged = acc.merged ++ ext := by
  induction l with
  | nil => intro acc; exact ⟨[], by simp⟩
  | cons x l' ih =>
    intro acc
    rw [List.foldl_cons]
    cases h : lookupKey acc.map (getN acc.st x.2).children with
    | none =>
      obtain ⟨ext, hext⟩ := ih { acc with map := acc.map ++ [((getN acc.st x.2).children, x.2)] }
      exact ⟨ext, by rw [← hext]; congr 1; simp [passStep, h]⟩
    | some c =>
      obtain ⟨ext, hext⟩ := ih (passStep acc x)
      refine ⟨x.1 :: ext, ?_⟩
      rw [hext]
      have : (passStep acc x).merged = acc.merged ++ [x.1] := by simp [passStep, h]
      rw [this]
      simp

/-- A pass segment that records no merge leaves the state untouched,
found every key missing from the map, and saw pairwise distinct
children arrays. -/
theorem foldl_passStep_no_merge (l : List (Nat × Nat)) :
    ∀ acc : PassAcc, (l.foldl passStep acc).merged = acc.merged →
      (l.foldl passStep acc).st = acc.st ∧
        (∀ x ∈ l, lookupKey acc.map (getN acc.st x.2).children = none) ∧
        l.Pairwise (fun x y => (getN acc.st x.2).children ≠ (getN acc.st y.2).children) := by
  induction l with
  | nil => intro acc _; exact ⟨rfl, by simp, List.Pairwise.nil⟩
  | cons x l' ih =>
    intro acc h
    rw [List.foldl_cons] at h
    cases hl : lookupKey acc.map (getN acc.st x.2).children with
    | some c =>
      exfalso
      have hstep : (passStep acc x).merged = acc.merged ++ [x.1] := by simp [passStep, hl]
      obtain ⟨ext, hext⟩ := foldl_passStep_merged_prefix l' (passStep acc x)
      rw [hext, hstep] at h
      have := congrArg List.length h
      simp at this
    | none =>
      have hstep : passStep acc x =
          { acc with map := acc.map ++ [((getN acc.st x.2).children, x.2)] } := by
        simp [passStep, hl]
      rw [hstep] at h
      obtain ⟨hst, hlook, hpw⟩ :=
        ih { acc with map := acc.map ++ [((getN acc.st x.2).children, x.2)] } h
      refine ⟨by rw [List.foldl_cons, hstep]; exact hst, ?_, ?_⟩
      · intro y hy
        rcases List.mem_cons.mp hy with rfl | hy'
        · exact hl
        · exact ((lookupKey_append_none _ _ _).mp (hlook y hy')).1
      · refine List.Pairwise.cons (fun y hy' => ?_) hpw
        have := ((lookupKey_append_none _ _ _).mp (hlook y hy')).2
        exact (lookupKey_singleton_none _ _).mp this

/-- Conversely, when all keys are fresh and pairwise distinct, a pass
segment merges nothing and leaves the state untouched. -/
theorem foldl_passStep_of_distinct (l : List (Nat × Nat)) :
    ∀ acc : PassAcc, (∀ x ∈ l, lookupKey acc.map (getN acc.st x.2).children = none) →
      l.Pairwise (fun x y => (getN acc.st x.2).children ≠ (getN acc.st y.2).children) →
      (l.foldl passStep acc).merged = acc.merged ∧ (l.foldl passStep acc).st = acc.st := by
  induction l with
  | nil => intro acc _ _; exact ⟨rfl, rfl⟩
  | cons x l' ih =>
    intro acc hlook hpw
    have hl : lookupKey acc.map (getN acc.st x.2).children = none := hlook x (by simp)
    have hstep : passStep acc x =
        { acc with map := acc.map ++ [((getN acc.st x.2).children, x.2)] } := by
      simp [passStep, hl]
    rw [List.foldl_cons, hstep]
    rcases List.pairwise_cons.mp hpw with ⟨hhead, htail⟩
    refine ih _ (fun y hy => ?_) htail
    rw [lookupKey_append_none]
    exact ⟨hlook y (List.mem_cons_of_mem _ hy),
      (lookupKey_singleton_none _ _).mpr (hhead y hy)⟩

/-- Every index collected in `deduped` satisfies any property holding of
the enumeration indices fed to the pass. -/
theorem foldl_passStep_merged_bound (l : List (Nat × Nat)) (P : Nat → Prop) :
    ∀ acc : PassAcc, (∀ i ∈ acc.merged, P i) → (∀ x ∈ l, P x.1) →
      ∀ i ∈ (l.foldl passStep acc).merged, P i := by
  induction l with
  | nil => intro acc hacc _ i hi; exact hacc i hi
  | cons x l' ih =>
    intro acc hacc hl i hi
    rw [List.foldl_cons] at hi
    cases hstepi : lookupKey acc.map (getN acc.st x.2).children with
    | none =>
      have hstep : passStep acc x =
          { acc with map := acc.map ++ [((getN acc.st x.2).children, x.2)] } := by
        simp [passStep, hstepi]
      rw [hstep] at hi
      exact ih { acc with map := acc.map ++ [((getN acc.st x.2).children, x.2)] }
        hacc (fun y hy => hl y (List.mem_cons_of_mem _ hy)) i hi
    | some c =>
      have hstep : (passStep acc x).merged = acc.merged ++ [x.1] := by
        simp [passStep, hstepi]
      refine ih (passStep acc x) ?_ (fun y hy => hl y (List.mem_cons_of_mem _ hy)) i hi
      intro j hj
      rw [hstep] at hj
      rcases List.mem_append.mp hj with hj' | hj'
      · exact hacc j hj'
      · rw [List.mem_singleton.mp hj']
        exact hl x (by simp)

/-- The pass's fixpoint test: no merges happen iff the live nodes'
children arrays are pairwise distinct (as pointer arrays). -/
theorem dedupePass_merged_nil_iff (st : St) :
    (dedupePass st).merged = [] ↔
      st.live.Pairwise (fun a b => (getN st a).children ≠ (getN st b).children) := by
  have hmap : st.live.enum.map Prod.snd = st.live := List.enumFrom_map_snd 0 st.live
  constructor
  · intro h
    obtain ⟨_, _, hpw⟩ := foldl_passStep_no_merge st.live.enum ⟨st, [], [], []⟩ h
    have h2 : (st.live.enum.map Prod.snd).Pairwise
        (fun a b => (getN st a).children ≠ (getN st b).children) :=
      List.Pairwise.map Prod.snd (fun a b hab => hab) hpw
    rwa [hmap] at h2
  · intro h
    have h' : (st.live.enum.map Prod.snd).Pairwise
        (fun a b => (getN st a).children ≠ (getN st b).children) := by
      rwa [hmap]
    exact (foldl_passStep_of_distinct st.live.enum ⟨st, [], [], []⟩
      (fun x _ => rfl)
      (List.Pairwise.of_map Prod.snd (fun a b hab => hab) h')).1

theorem length_filter_lt_of_mem {α : Type} {l : List α} {p : α → Bool} {x : α}
    (hx : x ∈ l) (hpx : p x = false) : (l.filter p).length < l.length := by
  induction l with
  | nil => cases hx
  | cons a l' ih =>
    rcases List.mem_cons.mp hx with rfl | hx'
    · rw [List.filter_cons_of_neg (by simp [hpx])]
      exact Nat.lt_succ_of_le (List.length_filter_le _ _)
    · have := ih hx'
      rw [List.filter_cons]
      split
      · simp only [List.length_cons]
        omega
      · simp only [List.length_cons]
        omega

/-- A pass that merged something strictly shrinks the `nodes` list. -/
theorem passResult_changed_decrease (st : St) (h : (passResult st).2 = true) :
    (passResult st).1.live.length < st.live.length := by
  have hne : (dedupePass st).merged ≠ [] := by
    intro hnil
    simp [passResult, hnil] at h
  obtain ⟨i, hi⟩ := List.exists_mem_of_ne_nil _ hne
  have hbound : ∀ j ∈ (dedupePass st).merged, j < st.live.length := by
    intro j hj
    refine foldl_passStep_merged_bound st.live.enum (fun k => k < st.live.length)
      ⟨st, [], [], []⟩ (by simp) ?_ j hj
    exact List.forall_mem_enum.mpr fun k hk => hk
  have hilt : i < st.live.length := hbound i hi
  have hmem : (i, st.live[i]) ∈ st.live.enum := by
    rw [List.mk_mem_enum_iff_getElem?]
    exact List.getElem?_eq_getElem hilt
  have hpred : (!(dedupePass st).merged.contains i) = false := by
    simpa using hi
  calc (passResult st).1.live.length
      = ((st.live.enum.filter fun p => !(dedupePass st).merged.contains p.1).map
          Prod.snd).length := rfl
    _ = (st.live.enum.filter fun p => !(dedupePass st).merged.contains p.1).length :=
        List.length_map _ _
    _ < st.live.enum.length := length_filter_lt_of_mem hmem hpred
    _ = st.live.length := List.enumFrom_length

/-- An unchanged pass leaves the state literally equal. -/
theorem passResult_unchanged_eq (st : St) (h : (passResult st).2 = false) :
    passResult st = (st, false) := by
  have hnil : (dedupePass st).merged = [] := by
    by_cases hn : (dedupePass st).merged = []
    · exact hn
    · exfalso
      simp [passResult, List.isEmpty_iff, hn] at h
  have hst : (dedupePass st).st = st :=
    (foldl_passStep_no_merge st.live.enum ⟨st, [], [], []⟩ hnil).1
  have hfil : (st.live.enum.filter fun p => !(dedupePass st).merged.contains p.1)
      = st.live.enum := by
    rw [List.filter_eq_self]
    intro a _
    simp [hnil]
  show (⟨(dedupePass st).st.arena, _⟩, _) = (st, false)
  rw [hst, hfil, List.enum_eq_enumFrom, List.enumFrom_map_snd]
  simp [passResult, hnil]

/-- With fuel at least the length of the `nodes` list, the dedupe loop
reaches a true fixpoint: one further pass reports no change. -/
theorem dedupeIter_fix : ∀ (fuel : Nat) (st : St), st.live.length ≤ fuel →
    (passResult (dedupeIter fuel st)).2 = false := by
  intro fuel
  induction fuel with
  | zero =>
    intro st h
    have hnil : st.live = [] := List.length_eq_zero.mp (Nat.le_zero.mp h)
    show (passResult st).2 = false
    simp [passResult, dedupePass, hnil]
  | succ fuel ih =>
    intro st h
    show (passResult (dedupeIter (fuel + 1) st)).2 = false
    rw [dedupeIter]
    by_cases hc : (passResult st).2 = true
    · rw [if_pos hc]
      refine ih _ ?_
      have := passResult_changed_decrease st hc
      omega
    · rw [if_neg hc]
      have hfalse : (passResult st).2 = false := by
        cases hcc : (passResult st).2
        · rfl
        · exact absurd hcc hc
      rw [passResult_unchanged_eq st hfalse]
      exact hfalse

/-- A state at a pass fixpoint is untouched by further dedupe runs. -/
theorem dedupeIter_of_fix (st : St) (h : (passResult st).2 = false) :
    ∀ fuel, dedupeIter fuel st = st := by
  intro fuel
  cases fuel with
  | zero => rfl
  | succ fuel =>
    rw [dedupeIter]
    rw [if_neg (by rw [h]; exact Bool.false_ne_true)]
    rw [passResult_unchanged_eq st h]

/-- `dedupe` really reaches the fixpoint. -/
theorem dedupe_fix (st : St) : (passResult (dedupe st)).2 = false :=
  dedupeIter_fix st.live.length st le_rfl

/-- C4.  After `dedupe()` no two surviving nodes have pointer-identical
children arrays, one further pass over the reduced node set records zero
merges, and rerunning the whole deduplicator is the identity
(reduction is idempotent). -/
theorem C4_dedupe_idempotent_no_duplicates (st : St) :
    (dedupe st).live.Pairwise
        (fun a b => (getN (dedupe st) a).children ≠ (getN (dedupe st) b).children) ∧
      (dedupePass (dedupe st)).merged = [] ∧
      dedupe (dedupe st) = dedupe st := by
  have hfix := dedupe_fix st
  have hnil : (dedupePass (dedupe st)).merged = [] := by
    by_cases hn : (dedupePass (dedupe st)).merged = []
    · exact hn
    · exfalso
      simp [passResult, List.isEmpty_iff, hn] at hfix
  refine ⟨(dedupePass_merged_nil_iff _).mp hnil, hnil, ?_⟩
  exact dedupeIter_of_fix (dedupe st) hfix _

/-- C5.  Within a single dedupe pass, nodes are merged exactly on
pointer-identical children arrays: a pass records no merge iff the live
children arrays are pairwise distinct as pointer arrays.  Concretely, on
the trie built from the single-address ranges `0x00` and `0x20`
(width 8), the first pass merges only the two pointer-identical leaves
(ids 4 and 2) and does not merge the structurally-equal-but-not-
pointer-identical interior nodes (ids 3 and 1, whose children differ as
pointers before canonicalisation); those merge only in the second pass,
after their children have been rewritten to the shared leaf. -/
theorem C5_duplicates_are_pointer_identical :
    (∀ st : St, (dedupePass st).merged = [] ↔
      st.live.Pairwise (fun a b => (getN st a).children ≠ (getN st b).children)) ∧
      (dedupePass stEx).pairs = [(4, 2)] ∧
      (getN stEx 4).children = (getN stEx 2).children ∧
      (getN stEx 3).children ≠ (getN stEx 1).children ∧
      (dedupePass (passResult stEx).1).pairs = [(3, 1)] :=
  ⟨dedupePass_merged_nil_iff, rfl, rfl, by decide, rfl⟩

theorem getN_setN_ne (st : St) (m : Nat) (n' : Node) {j : Nat} (h : m ≠ j) :
    getN (setN st m n') j = getN st j := by
  simp only [getN, setN, List.getD_eq_getElem?_getD]
  rw [List.getElem?_set_ne h]

/-- Rewriting only the `addr` field of node `m` leaves every node's
`children` untouched. -/
theorem getN_setAddr_children (st : St) (m : Nat) (a : Option Nat) (j : Nat) :
    (getN (setN st m { getN st m with addr := a }) j).children = (getN st j).children := by
  by_cases h : m = j
  · subst h
    have hg : getN st m = (st.arena[m]?).getD default := by
      simp only [getN, List.getD_eq_getElem?_getD]
    simp only [getN, setN, List.getD_eq_getElem?_getD]
    rw [List.getElem?_set_self']
    cases hm : st.arena[m]? with
    | none => rfl
    | some x => rfl
  · rw [getN_setN_ne st m _ h]

/-- Likewise for `parents`. -/
theorem getN_setAddr_parents (st : St) (m : Nat) (a : Option Nat) (j : Nat) :
    (getN (setN st m { getN st m with addr := a }) j).parents = (getN st j).parents := by
  by_cases h : m = j
  · subst h
    have hg : getN st m = (st.arena[m]?).getD default := by
      simp only [getN, List.getD_eq_getElem?_getD]
    simp only [getN, setN, List.getD_eq_getElem?_getD]
    rw [List.getElem?_set_self']
    cases hm : st.arena[m]? with
    | none => rfl
    | some x => rfl
  · rw [getN_setN_ne st m _ h]

/-- `size` only reads `children` and `parents`, so any two states that
agree on those agree on every size. -/
theorem size_congr (st st' : St)
    (hc : ∀ j, (getN st' j).children = (getN st j).children)
    (hp : ∀ j, (getN st' j).parents = (getN st j).parents) (nid : Nat) :
    size st' nid = size st nid := by
  unfold size
  rw [hc]
  congr 1
  apply congrArg
  apply List.map_congr_left
  intro c _
  cases c with
  | none => rfl
  | some j =>
    show (if (getN st' j).parents = [] then 0 else 2)
      = (if (getN st j).parents = [] then 0 else 2)
    rw [hp]

theorem assignGo_children (l : List Nat) : ∀ (st : St) (cur : Nat) (j : Nat),
    (getN (assignGo st cur l).1 j).children = (getN st j).children := by
  induction l with
  | nil => intro st cur j; rfl
  | cons nid rest ih =>
    intro st cur j
    rw [assignGo]
    rw [ih]
    exact getN_setAddr_children st nid _ j

theorem assignGo_parents (l : List Nat) : ∀ (st : St) (cur : Nat) (j : Nat),
    (getN (assignGo st cur l).1 j).parents = (getN st j).parents := by
  induction l with
  | nil => intro st cur j; rfl
  | cons nid rest ih =>
    intro st cur j
    rw [assignGo]
    rw [ih]
    exact getN_setAddr_parents st nid _ j

theorem assignGo_live (l : List Nat) : ∀ (st : St) (cur : Nat),
    (assignGo st cur l).1.live = st.live := by
  induction l with
  | nil => intro st cur; rfl
  | cons nid rest ih => intro st cur; rw [assignGo, ih]; rfl

theorem size_setAddr (st : St) (m : Nat) (a : Option Nat) (nid : Nat) :
    size (setN st m { getN st m with addr := a }) nid = size st nid :=
  size_congr st _ (getN_setAddr_children st m a) (getN_setAddr_parents st m a) nid

/-- The final running total of the assignment loop is the starting value
plus the sum of the sizes (sizes never change during the loop since only
`addr` fields are written). -/
theorem assignGo_total (l : List Nat) : ∀ (st : St) (cur : Nat),
    (assignGo st cur l).2 = cur + (l.map (size st)).sum := by
  induction l with
  | nil => intro st cur; simp [assignGo]
  | cons nid rest ih =>
    intro st cur
    rw [assignGo]
    rw [ih]
    have hsz : size (setN st nid { getN st nid with addr := some cur }) nid = size st nid :=
      size_setAddr st nid _ nid
    have hmap : rest.map (size (setN st nid { getN st nid with addr := some cur }))
        = rest.map (size st) :=
      List.map_congr_left (fun x _ => size_setAddr st nid _ x)
    rw [hsz, hmap, List.map_cons, List.sum_cons]
    omega

theorem assignGo_untouched (l : List Nat) : ∀ (st : St) (cur : Nat) (j : Nat), j ∉ l →
    getN (assignGo st cur l).1 j = getN st j := by
  induction l with
  | nil => intro st cur j _; rfl
  | cons nid rest ih =>
    intro st cur j hj
    rw [assignGo, ih _ _ _ (fun hr => hj (List.mem_cons_of_mem _ hr))]
    exact getN_setN_ne st nid _ (fun he => hj (he ▸ List.mem_cons_self _ _))

theorem getN_setN_lt (st : St) (m : Nat) (n' : Node) (hm : m < st.arena.length) :
    getN (setN st m n') m = n' := by
  simp only [getN, setN, List.getD_eq_getElem?_getD]
  rw [List.getElem?_set_self']
  rw [List.getElem?_eq_getElem hm]
  rfl

theorem setN_arena_length (st : St) (m : Nat) (n' : Node) :
    (setN st m n').arena.length = st.arena.length :=
  List.length_set _ _ _

/-- Every node of a duplicate-free, in-arena assignment list receives
exactly the running total of the preceding nodes' sizes. -/
theorem assignGo_addr (l : List Nat) : ∀ (st : St) (cur : Nat), l.Nodup →
    (∀ x ∈ l, x < st.arena.length) →
    ∀ (k : Nat) (hk : k < l.length),
      (getN (assignGo st cur l).1 (l.get ⟨k, hk⟩)).addr =
        some (cur + ((l.take k).map (size st)).sum) := by
  induction l with
  | nil => intro st cur _ _ k hk; cases hk
  | cons nid rest ih =>
    intro st cur hnd hlt k hk
    have hnd' := List.nodup_cons.mp hnd
    cases k with
    | zero =>
      rw [assignGo]
      show (getN (assignGo (setN st nid { getN st nid with addr := some cur })
        (cur + size (setN st nid { getN st nid with addr := some cur }) nid) rest).1 nid).addr
          = some (cur + (([] : List Nat).map (size st)).sum)
      rw [assignGo_untouched rest _ _ nid hnd'.1]
      simp only [List.map_nil, List.sum_nil, Nat.add_zero]
      rw [getN_setN_lt st nid _ (hlt nid (List.mem_cons_self _ _))]
    | succ k =>
      rw [assignGo]
      have hlt' : ∀ x ∈ rest,
          x < (setN st nid { getN st nid with addr := some cur }).arena.length := by
        intro x hx
        rw [setN_arena_length]
        exact hlt x (List.mem_cons_of_mem _ hx)
      have := ih (setN st nid { getN st nid with addr := some cur })
        (cur + size (setN st nid { getN st nid with addr := some cur }) nid) hnd'.2 hlt' k
        (by simpa using Nat.lt_of_succ_lt_succ hk)
      rw [List.get_cons_succ, this]
      have hmap : (rest.take k).map (size (setN st nid { getN st nid with addr := some cur }))
          = (rest.take k).map (size st) :=
        List.map_congr_left (fun x _ => size_setAddr st nid _ x)
      rw [hmap, size_setAddr]
      simp only [List.take_succ_cons, List.map_cons, List.sum_cons]
      congr 1
      omega

theorem C10_witness :
    ([(0, 3), (8, 9)] : List (Nat × Nat)).get? 0 = some (0, 3) ∧ (0 : Nat) ≤ 3 ∧
      (((((3 : Nat) : Int) + 1, false) ∈ pointsFor [(0, 3), (8, 9)] 0 ↔
        (0 < ([(0, 3), (8, 9)] : List (Nat × Nat)).length - 1 ∧
          ∃ nx, ([(0, 3), (8, 9)] : List (Nat × Nat)).get? (0 + 1) = some nx ∧ 3 + 1 < nx.1)) ∧
      ((((0 : Nat) : Int) - 1, false) ∈ pointsFor [(0, 3), (8, 9)] 0 ↔
        (0 = 0 ∨ ∃ pr, ([(0, 3), (8, 9)] : List (Nat × Nat)).get? (0 - 1) = some pr ∧
          (pr.2 : Int) < ((0 : Nat) : Int) - 1))) :=
  ⟨rfl, by omega,
   C10_amended_validator_test_points [(0, 3), (8, 9)] 0 0 3 rfl (by omega)⟩

theorem sum_map_two_eq_countP {α : Type} (p : α → Bool) (l : List α) :
    (l.map fun c => if p c = true then 2 else 0).sum = 2 * l.countP p := by
  induction l with
  | nil => rfl
  | cons a l' ih =>
    rw [List.map_cons, List.sum_cons, ih, List.countP_cons]
    by_cases h : p a = true
    · simp [h]
      omega
    · simp [h]

/-- C3.  `assign_addrs` gives each live node, in list order, a byte
offset equal to the running total of the preceding nodes' sizes, and it
succeeds exactly when the final running total stays below `2^17`; a
node's size is `4 + 2k` with `k` the number of children slots pointing
at a real (non-root) node whose target still has at least one parent
(stated under the reachable-state facts that the root has no parents,
the live list has no duplicates and stays inside the arena); and when
the total reaches `2^17` the whole `emit_bitdag` run fails with the
overflow assertion, before anything is emitted. -/
theorem C3_assign_addrs_running_totals (st : St)
    (hnd : st.live.Nodup) (hroot : (getN st 0).parents = [])
    (hlt : ∀ x ∈ st.live, x < st.arena.length) :
    ((assign_addrs st).isOk = true ↔ totalSize st < 2 ^ 17) ∧
    (∀ st', assign_addrs st = .ok st' →
      ∀ (k : Nat) (hk : k < st.live.length),
        (getN st' (st.live.get ⟨k, hk⟩)).addr =
          some (((st.live.take k).map (size st)).sum)) ∧
    (∀ nid, size st nid = 4 + 2 * ((getN st nid).children.countP
        fun c => match c with
                 | some j => decide (j ≠ 0 ∧ (getN st j).parents ≠ [])
                 | none => false)) ∧
    (∀ (ranges : List (Nat × Nat)) (width : Nat) (st1 : St),
      build width ranges = .ok st1 → dedupe st1 = st → 2 ^ 17 ≤ totalSize st →
      emit_bitdag ranges width = .error .assertOverflow) := by
  have htot : (assignGo st 0 st.live).2 = totalSize st := by
    rw [assignGo_total]
    simp [totalSize]
  have hassign : assign_addrs st =
      if totalSize st < 2 ^ 17 then .ok (assignGo st 0 st.live).1
      else .error .assertOverflow := by
    rw [assign_addrs, htot]
  refine ⟨?_, ?_, ?_, ?_⟩
  · rw [hassign]
    split_ifs with h
    · exact iff_of_true rfl h
    · exact iff_of_false (by simp [Except.isOk, Except.toBool]) h
  · intro st' hok k hk
    rw [hassign] at hok
    split_ifs at hok with h
    cases hok
    have := assignGo_addr st.live st 0 hnd hlt k hk
    rwa [Nat.zero_add] at this
  · intro nid
    unfold size
    have hmap : (getN st nid).children.map
        (fun c => match c with
                  | some j => if (getN st j).parents = [] then 0 else 2
                  | none => 0)
        = (getN st nid).children.map
        (fun c => if (match c with
                      | some j => decide (j ≠ 0 ∧ (getN st j).parents ≠ [])
                      | none => false) = true then 2 else 0) := by
      apply List.map_congr_left
      intro c _
      cases c with
      | none => rfl
      | some j =>
        by_cases hj : j = 0
        · subst hj
          simp [hroot]
        · by_cases hp : (getN st j).parents = []
          · simp [hp, hj]
          · simp [hp, hj]
    rw [hmap, sum_map_two_eq_countP]
  · intro ranges width st1 hb hd hover
    have hfail : assign_addrs st = .error .assertOverflow := by
      rw [hassign, if_neg (by omega)]
    unfold emit_bitdag
    rw [hb]
    simp only [Bind.bind, Except.bind]
    rw [hd, hfail]

theorem except_bind_ok {ε α β : Type} (f : Except ε α) (g : α → Except ε β) (c : β)
    (h : (f >>= g) = .ok c) : ∃ b, f = .ok b ∧ g b = .ok c := by
  cases f with
  | error e => exact absurd h (by simp [Bind.bind, Except.bind])
  | ok b => exact ⟨b, rfl, h⟩

/-- A successful `set_range` only appends fresh (current-arena-length or
later) ids to the `nodes` list and never shrinks the arena. -/
theorem set_range_go_shape (l : List (Nat × Nat)) :
    ∀ (st : St) (node : Nat) (st' : St), set_range_go st node l = .ok st' →
      st.arena.length ≤ st'.arena.length ∧
        ∃ ext, st'.live = st.live ++ ext ∧ ∀ x ∈ ext, st.arena.length ≤ x := by
  induction l with
  | nil =>
    intro st node st' h
    cases h
    exact ⟨le_rfl, [], by simp, by simp⟩
  | cons p rest ih =>
    intro st node st' h
    obtain ⟨a, b⟩ := p
    rw [set_range_go] at h
    split at h
    · split at h
      · obtain ⟨hlen, ext, hlive, hext⟩ := ih _ _ _ h
        rw [setN_arena_length] at hlen
        have hnlen : (newNode st (some node)).1.arena.length = st.arena.length + 1 := by
          simp [newNode]
        rw [hnlen] at hlen
        have hlive' : st'.live = st.live ++ [st.arena.length] ++ ext := hlive
        have hext' : ∀ x ∈ ext, st.arena.length + 1 ≤ x := by
          intro x hx
          have := hext x hx
          rwa [setN_arena_length, hnlen] at this
        constructor
        · omega
        · refine ⟨st.arena.length :: ext, ?_, ?_⟩
          · rw [hlive']
            simp
          · intro x hx
            rcases List.mem_cons.mp hx with rfl | hx'
            · exact le_rfl
            · have := hext' x hx'
              omega
      · obtain ⟨hlen, ext, hlive, hext⟩ := ih _ _ _ h
        exact ⟨hlen, ext, hlive, hext⟩
    · split at h
      · split at h
        · exact absurd h (by simp)
        · cases h
          refine ⟨le_of_eq (setN_arena_length _ _ _).symm, [], by simp [setN], by simp⟩
      · cases h
        refine ⟨le_of_eq (setN_arena_length _ _ _).symm, [], by simp [setN], by simp⟩

theorem set_range_shape (width : Nat) (st : St) (s e : Nat) (st' : St)
    (h : set_range width st s e = .ok st') :
    st.arena.length ≤ st'.arena.length ∧
      ∃ ext, st'.live = st.live ++ ext ∧ ∀ x ∈ ext, st.arena.length ≤ x := by
  unfold set_range at h
  split_ifs at h
  exact set_range_go_shape _ _ _ _ h

/-- Along `build`, the `nodes` list is the root id 0 followed by
positive ids, and the arena never gets shorter than its initial one
node. -/
theorem build_shape (ranges : List (Nat × Nat)) :
    ∀ (width : Nat) (st st1 : St),
      (ranges.foldlM (fun st r => set_range width st r.1 r.2) st) = .ok st1 →
      ∀ ext0, st.live = 0 :: ext0 → (∀ x ∈ ext0, 1 ≤ x) → 1 ≤ st.arena.length →
      ∃ ext, st1.live = 0 :: ext ∧ (∀ x ∈ ext, 1 ≤ x) ∧ 1 ≤ st1.arena.length := by
  induction ranges with
  | nil =>
    intro width st st1 h ext0 hl hx ha
    cases h
    exact ⟨ext0, hl, hx, ha⟩
  | cons r rest ih =>
    intro width st st1 h ext0 hl hx ha
    rw [List.foldlM_cons] at h
    obtain ⟨stm, hm, hrest⟩ := except_bind_ok _ _ _ h
    obtain ⟨hlen, ext2, hlive, hext2⟩ := set_range_shape width st r.1 r.2 stm hm
    refine ih width stm st1 hrest (ext0 ++ ext2) ?_ ?_ ?_
    · rw [hlive, hl]
      rfl
    · intro x hxm
      rcases List.mem_append.mp hxm with h1 | h2
      · exact hx x h1
      · have := hext2 x h2
        omega
    · omega

theorem foldl_rewire_arena_length (ps : List Nat) (d c : Nat) :
    ∀ st : St, (ps.foldl (rewireParent d c) st).arena.length = st.arena.length := by
  induction ps with
  | nil => intro st; rfl
  | cons p ps ih =>
    intro st
    rw [List.foldl_cons, ih]
    exact setN_arena_length _ _ _

theorem passStep_arena_length (acc : PassAcc) (x : Nat × Nat) :
    (passStep acc x).st.arena.length = acc.st.arena.length := by
  cases hl : lookupKey acc.map (getN acc.st x.2).children with
  | none => simp [passStep, hl]
  | some c =>
    simp only [passStep, hl]
    rw [setN_arena_length, foldl_rewire_arena_length]

theorem foldl_passStep_arena_length (l : List (Nat × Nat)) :
    ∀ acc : PassAcc, (l.foldl passStep acc).st.arena.length = acc.st.arena.length := by
  induction l with
  | nil => intro acc; rfl
  | cons x l' ih =>
    intro acc
    rw [List.foldl_cons, ih, passStep_arena_length]

theorem passResult_arena_length (st : St) :
    (passResult st).1.arena.length = st.arena.length :=
  foldl_passStep_arena_length st.live.enum ⟨st, [], [], []⟩

theorem dedupeIter_arena_length : ∀ (fuel : Nat) (st : St),
    (dedupeIter fuel st).arena.length = st.arena.length := by
  intro fuel
  induction fuel with
  | zero => intro st; rfl
  | succ fuel ih =>
    intro st
    rw [dedupeIter]
    by_cases hc : (passResult st).2 = true
    · rw [if_pos hc, ih, passResult_arena_length]
    · rw [if_neg hc, passResult_arena_length]

/-- One pass keeps the root id 0 at the head of the `nodes` list (the
first node can never be a duplicate of an earlier one) and keeps the
remaining ids positive. -/
theorem passResult_live_shape (st : St) (ext : List Nat) (hl : st.live = 0 :: ext)
    (hext : ∀ x ∈ ext, 1 ≤ x) :
    ∃ ext', (passResult st).1.live = 0 :: ext' ∧ ∀ x ∈ ext', 1 ≤ x := by
  have hsplit : dedupePass st =
      (ext.enumFrom 1).foldl passStep (passStep ⟨st, [], [], []⟩ (0, 0)) := by
    rw [dedupePass, hl]
    rfl
  have hacc1 : (passStep ⟨st, [], [], []⟩ (0, 0)).merged = ([] : List Nat) := rfl
  have hmerged : ∀ i ∈ (dedupePass st).merged, 1 ≤ i := by
    intro i hi
    rw [hsplit] at hi
    refine foldl_passStep_merged_bound (ext.enumFrom 1) (fun k => 1 ≤ k) _ ?_ ?_ i hi
    · rw [hacc1]
      simp
    · intro x hx
      exact List.le_fst_of_mem_enumFrom hx
  have hcontains : ((dedupePass st).merged.contains 0) = false := by
    cases hc : (dedupePass st).merged.contains 0 with
    | false => rfl
    | true =>
      exfalso
      have h0 : (0 : Nat) ∈ (dedupePass st).merged := List.elem_iff.mp hc
      exact absurd (hmerged 0 h0) (by omega)
  refine ⟨((ext.enumFrom 1).filter fun p => !(dedupePass st).merged.contains p.1).map Prod.snd,
    ?_, ?_⟩
  · show ((st.live.enum.filter fun p => !(dedupePass st).merged.contains p.1).map Prod.snd) = _
    rw [hl, List.enum_cons]
    rw [List.filter_cons_of_pos (by rw [hcontains]; rfl)]
    rw [List.map_cons]
  · intro x hx
    obtain ⟨pr, hpr, hpx⟩ := List.mem_map.mp hx
    have hmem : pr ∈ ext.enumFrom 1 := List.mem_of_mem_filter hpr
    have hsnd : pr.2 ∈ ext := by
      have := List.mem_map_of_mem Prod.snd hmem
      rwa [List.enumFrom_map_snd] at this
    exact hpx ▸ hext _ hsnd

theorem dedupeIter_live_shape : ∀ (fuel : Nat) (st : St) (ext : List Nat),
    st.live = 0 :: ext → (∀ x ∈ ext, 1 ≤ x) →
    ∃ ext', (dedupeIter fuel st).live = 0 :: ext' ∧ ∀ x ∈ ext', 1 ≤ x := by
  intro fuel
  induction fuel with
  | zero => intro st ext hl hext; exact ⟨ext, hl, hext⟩
  | succ fuel ih =>
    intro st ext hl hext
    obtain ⟨ext', hl', hext'⟩ := passResult_live_shape st ext hl hext
    rw [dedupeIter]
    by_cases hc : (passResult st).2 = true
    · rw [if_pos hc]
      exact ih _ _ hl' hext'
    · rw [if_neg hc]
      exact ⟨ext', hl', hext'⟩

theorem foldlM_emit_suffix (st : St) (l : List Nat) : ∀ (acc b : List Nat),
    (l.foldlM (fun acc nid => (binary st nid).map (acc ++ ·)) acc) = .ok b →
    ∃ suffix, b = acc ++ suffix := by
  induction l with
  | nil =>
    intro acc b h
    cases h
    exact ⟨[], by simp⟩
  | cons nid rest ih =>
    intro acc b h
    rw [List.foldlM_cons] at h
    obtain ⟨acc1, h1, h2⟩ := except_bind_ok _ _ _ h
    cases hb : binary st nid with
    | error e =>
      rw [hb] at h1
      exact absurd h1 (by simp [Except.map])
    | ok r =>
      rw [hb] at h1
      have hacc : acc1 = acc ++ r := by
        have hmap : Except.map (acc ++ ·) (Except.ok r) = (Except.ok (acc ++ r) : Except Err _) :=
          rfl
        rw [hmap] at h1
        exact (Except.ok.inj h1).symm
      obtain ⟨suffix, hs⟩ := ih acc1 b h2
      exact ⟨r ++ suffix, by rw [hs, hacc, List.append_assoc]⟩

theorem emitBlob_head (st : St) (t : List Nat) (hl : st.live = 0 :: t) (b : List Nat)
    (h : emitBlob st = .ok b) :
    ∃ rec rest, binary st 0 = .ok rec ∧ b = rec ++ rest := by
  unfold emitBlob at h
  rw [hl, List.foldlM_cons] at h
  obtain ⟨acc1, h1, h2⟩ := except_bind_ok _ _ _ h
  cases hb : binary st 0 with
  | error e =>
    rw [hb] at h1
    exact absurd h1 (by simp [Except.map])
  | ok r =>
    rw [hb] at h1
    have hacc : acc1 = r := by
      have hmap : Except.map (([] : List Nat) ++ ·) (Except.ok r)
          = (Except.ok ([] ++ r) : Except Err _) := rfl
      rw [hmap] at h1
      have := (Except.ok.inj h1).symm
      simpa using this
    obtain ⟨suffix, hs⟩ := foldlM_emit_suffix st t acc1 b h2
    exact ⟨r, suffix, rfl, by rw [hs, hacc]⟩

theorem flatten_word16_length (cw : List Nat) :
    ((cw.map word16).flatten).length = 2 * cw.length := by
  induction cw with
  | nil => rfl
  | cons a rest ih =>
    rw [List.map_cons, List.flatten_cons, List.length_append, ih]
    simp [word16]
    omega

/-- The byte length of a successfully encoded record is `4 + 2k` with
`k` the number of emitted child address words. -/
theorem binary_ok_length (st : St) (nid : Nat) (r : List Nat) (h : binary st nid = .ok r) :
    r.length = 4 + 2 * (childWords st nid).length := by
  unfold binary at h
  split_ifs at h
  cases h
  rw [List.length_append, List.length_append, flatten_word16_length]
  rfl

/-- With the root at address 0, a slot pointing at the root contributes
a `set_child` bit and never a `has_child` bit. -/
theorem slot_root_bits (st : St) (nid i : Nat) (h0 : (getN st 0).addr = some 0)
    (hi : (getN st nid).children.getD i none = some 0) :
    i ∉ hasSlots st nid ∧ i ∈ zeroSlots st nid := by
  have hget : (getN st nid).children[i]? = some (some 0) := by
    rw [List.getD_eq_getElem?_getD] at hi
    cases hc : (getN st nid).children[i]? with
    | none => rw [hc] at hi; exact absurd hi (by simp)
    | some c =>
      rw [hc] at hi
      simp at hi
      rw [hi]
  constructor
  · intro hmem
    obtain ⟨pr, hpr, hfst⟩ := List.mem_map.mp hmem
    have hq := (List.mem_filter.mp hpr).2
    have hprenum := (List.mem_filter.mp hpr).1
    have hpr2 : pr.2 = some 0 := by
      have hh := List.mem_enum_iff_getElem?.mp hprenum
      rw [hfst, hget] at hh
      exact (Option.some.inj hh).symm
    rw [hpr2] at hq
    have hq' : decide (0 < ((getN st 0).addr).getD 0) = true := hq
    rw [h0] at hq'
    exact absurd hq' (by simp)
  · refine List.mem_map.mpr ⟨(i, some 0), List.mem_filter.mpr ⟨?_, ?_⟩, rfl⟩
    · exact List.mk_mem_enum_iff_getElem?.mpr hget
    · show ((getN st 0).addr == some 0) = true
      rw [h0]
      rfl

/-- Inversion of a successful `emit_bitdag` run into its stages. -/
theorem emit_bitdag_ok_inv (ranges : List (Nat × Nat)) (width : Nat) (st : St)
    (blob : List Nat) (h : emit_bitdag ranges width = .ok (st, blob)) :
    ∃ st1, build width ranges = .ok st1 ∧
      assign_addrs (dedupe st1) = .ok st ∧ emitBlob st = .ok blob := by
  unfold emit_bitdag at h
  obtain ⟨st1, hb, h⟩ := except_bind_ok _ _ _ h
  obtain ⟨st3, ha, h⟩ := except_bind_ok _ _ _ h
  obtain ⟨u, hv, h⟩ := except_bind_ok _ _ _ h
  obtain ⟨u', ht, h⟩ := except_bind_ok _ _ _ h
  obtain ⟨bl, he, h⟩ := except_bind_ok _ _ _ h
  have hp : st3 = st ∧ bl = blob := by
    have := Except.ok.inj h
    exact ⟨congrArg Prod.fst this, congrArg Prod.snd this⟩
  refine ⟨st1, hb, ?_, ?_⟩
  · rw [← hp.1]
    exact ha
  · rw [← hp.1, ← hp.2]
    exact he

/-- After a successful `assign_addrs`, the root (head of the `nodes`
list) holds address 0, the other live ids being positive and distinct
from it. -/
theorem assign_addrs_eq (st : St) : assign_addrs st =
    if (assignGo st 0 st.live).2 < 2 ^ 17 then .ok (assignGo st 0 st.live).1
    else .error .assertOverflow := rfl

theorem assign_addr_zero (st st' : St) (ext : List Nat) (hl : st.live = 0 :: ext)
    (hext : ∀ x ∈ ext, 1 ≤ x) (ha : 1 ≤ st.arena.length)
    (hok : assign_addrs st = .ok st') : (getN st' 0).addr = some 0 := by
  rw [assign_addrs_eq] at hok
  split_ifs at hok
  cases hok
  rw [hl, assignGo]
  rw [assignGo_untouched ext _ _ 0 (fun hmem => absurd (hext 0 hmem) (by omega))]
  rw [getN_setN_lt st 0 _ (by omega)]

/-- C6 amended.  Root is itself encoded: in every successful run the
first entry of the surviving node list is the root (id 0), the root is
assigned address 0 and its own record is the blob's record at byte
offset 0 (so Root does contribute encoded bytes, at least four of
them); what the claim gets right is the pointer representation — with
the root's address being the 0 sentinel, a slot pointing at Root always
sets the `set_child` bit and never the `has_child` bit, so no child
address word ever refers to Root. -/
theorem C6_amended_root_record_emitted (ranges : List (Nat × Nat)) (width : Nat)
    (st : St) (blob : List Nat) (h : emit_bitdag ranges width = .ok (st, blob)) :
    st.live.head? = some 0 ∧ (getN st 0).addr = some 0 ∧
      (∃ rec rest, binary st 0 = .ok rec ∧ blob = rec ++ rest ∧ 4 ≤ rec.length) ∧
      (∀ nid i, (getN st nid).children.getD i none = some 0 →
        i ∉ hasSlots st nid ∧ i ∈ zeroSlots st nid) := by
  obtain ⟨st1, hb, ha, he⟩ := emit_bitdag_ok_inv ranges width st blob h
  obtain ⟨ext1, hl1, hext1, harena1⟩ :=
    build_shape ranges width initSt st1 hb [] rfl (by simp) (by decide)
  obtain ⟨ext2, hl2, hext2⟩ := dedupeIter_live_shape st1.live.length st1 ext1 hl1 hext1
  have harena2 : 1 ≤ (dedupe st1).arena.length := by
    rw [dedupe, dedupeIter_arena_length]
    omega
  have haddr0 : (getN st 0).addr = some 0 :=
    assign_addr_zero (dedupe st1) st ext2 hl2 hext2 harena2 ha
  have hlive' : st.live = (dedupe st1).live := by
    rw [assign_addrs_eq] at ha
    split_ifs at ha
    cases ha
    rw [assignGo_live]
  refine ⟨?_, haddr0, ?_, ?_⟩
  · rw [hlive']
    show (dedupeIter st1.live.length st1).live.head? = some 0
    rw [hl2]
    rfl
  · have hlst : st.live = 0 :: ext2 := by
      rw [hlive']
      exact hl2
    obtain ⟨rec, rest, hbin, hblob⟩ := emitBlob_head st ext2 hlst blob he
    refine ⟨rec, rest, hbin, hblob, ?_⟩
    rw [binary_ok_length st 0 rec hbin]
    omega
  · intro nid i hi
    exact slot_root_bits st nid i haddr0 hi

theorem C6_witness :
    emit_bitdag [(16, 31)] 8 = .ok (emitW.1, emitW.2) ∧
      (emitW.1.live.head? = some 0 ∧ (getN emitW.1 0).addr = some 0 ∧
        (∃ rec rest, binary emitW.1 0 = .ok rec ∧ emitW.2 = rec ++ rest ∧ 4 ≤ rec.length) ∧
        (∀ nid i, (getN emitW.1 nid).children.getD i none = some 0 →
          i ∉ hasSlots emitW.1 nid ∧ i ∈ zeroSlots emitW.1 nid)) :=
  ⟨rfl, C6_amended_root_record_emitted [(16, 31)] 8 emitW.1 emitW.2 rfl⟩

/-- C6 counterexample.  For the input `[(16, 31)]` at width 8 the run
succeeds and the blob's first record (offset 0) is the root's own
4-byte record `[0x00, 0x00, 0x02, 0x00]` (`has_child = 0`,
`set_child = bit 1`): Root does contribute encoded bytes, and the record
at offset 0 is the trie's top level (the root), not a second-level
entry point. -/
theorem C6_counterexample_root_is_encoded :
    emit_bitdag [(16, 31)] 8 = .ok (emitW.1, emitW.2) ∧
      emitW.1.live.head? = some 0 ∧
      binary emitW.1 0 = .ok [0, 0, 2, 0] ∧
      emitW.2 = [0, 0, 2, 0] ++ [0, 0, 0, 0] ∧
      (getN emitW.1 0).addr = some 0 :=
  ⟨rfl, rfl, rfl, rfl, rfl⟩

theorem C3_witness :
    stW.live.Nodup ∧ (getN stW 0).parents = [] ∧ (∀ x ∈ stW.live, x < stW.arena.length) ∧
      (((assign_addrs stW).isOk = true ↔ totalSize stW < 2 ^ 17) ∧
      (∀ st', assign_addrs stW = .ok st' →
        ∀ (k : Nat) (hk : k < stW.live.length),
          (getN st' (stW.live.get ⟨k, hk⟩)).addr =
            some (((stW.live.take k).map (size stW)).sum)) ∧
      (∀ nid, size stW nid = 4 + 2 * ((getN stW nid).children.countP
          fun c => match c with
                   | some j => decide (j ≠ 0 ∧ (getN stW j).parents ≠ [])
                   | none => false)) ∧
      (∀ (ranges : List (Nat × Nat)) (width : Nat) (st1 : St),
        build width ranges = .ok st1 → dedupe st1 = stW → 2 ^ 17 ≤ totalSize stW →
        emit_bitdag ranges width = .error .assertOverflow)) :=
  ⟨by decide, by decide, by decide,
   C3_assign_addrs_running_totals stW (by decide) (by decide) (by decide)⟩

theorem size_even (st : St) (nid : Nat) : 2 ∣ size st nid := by
  unfold size
  refine Nat.dvd_add (by norm_num) ?_
  apply List.dvd_sum
  intro x hx
  obtain ⟨c, _, hfc⟩ := List.mem_map.mp hx
  cases c with
  | none =>
    rw [← hfc]
    simp
  | some j =>
    rw [← hfc]
    by_cases hp : (getN st j).parents = [] <;> simp [hp]

theorem size_ge_four (st : St) (nid : Nat) : 4 ≤ size st nid :=
  Nat.le_add_right 4 _

/-- C7.  For every surviving node after address assignment (in any state
satisfying the structural invariants of reachable states), the encoding
succeeds, the byte length of the encoded record equals the computed
size, the size is even, and consequently the assigned address is even so
that storing it right-shifted by one loses no information. -/
theorem C7_record_length_matches_size (st st' : St) (hok : StOk st)
    (ha : assign_addrs st = .ok st') :
    ∀ nid ∈ st'.live,
      (∃ bs, binary st' nid = .ok bs ∧ bs.length = size st' nid) ∧
      2 ∣ size st' nid ∧
      (∃ a, (getN st' nid).addr = some a ∧ 2 ∣ a ∧ 2 * (a / 2) = a) := by
  obtain ⟨hnd, hhead, hroot, hbound, hslots⟩ := hok
  have hst' : st' = (assignGo st 0 st.live).1 := by
    rw [assign_addrs_eq] at ha
    split_ifs at ha
    exact (Except.ok.inj ha).symm
  have hch : ∀ j, (getN st' j).children = (getN st j).children := by
    intro j
    rw [hst']
    exact assignGo_children _ _ _ _
  have hpar : ∀ j, (getN st' j).parents = (getN st j).parents := by
    intro j
    rw [hst']
    exact assignGo_parents _ _ _ _
  have hsz : ∀ m, size st' m = size st m := size_congr st st' hch hpar
  have hlive : st'.live = st.live := by
    rw [hst']
    exact assignGo_live _ _ _
  obtain ⟨t, hlt⟩ : ∃ t, st.live = 0 :: t := by
    cases hc : st.live with
    | nil =>
      rw [hc] at hhead
      exact absurd hhead (by simp)
    | cons a t =>
      rw [hc] at hhead
      have ha0 : a = 0 := by simpa using hhead
      exact ⟨t, by rw [ha0]⟩
  have hmem0 : (0 : Nat) ∈ st.live := by
    rw [hlt]
    exact List.mem_cons_self _ _
  have haddr : ∀ j ∈ st.live, ∃ a, (getN st' j).addr = some a ∧ 2 ∣ a ∧ (0 < a ↔ j ≠ 0) := by
    intro j hj
    obtain ⟨k, hget⟩ := List.mem_iff_get.mp hj
    have haddrk := assignGo_addr st.live st 0 hnd hbound k.1 k.2
    have hketa : st.live.get ⟨k.1, k.2⟩ = j := hget
    rw [hketa] at haddrk
    refine ⟨((st.live.take k.1).map (size st)).sum, ?_, ?_, ?_⟩
    · rw [hst']
      rw [haddrk]
      rw [Nat.zero_add]
    · apply List.dvd_sum
      intro x hx
      obtain ⟨y, _, hfy⟩ := List.mem_map.mp hx
      exact hfy ▸ size_even st y
    · have h0lt : 0 < st.live.length := by
        rw [hlt]
        simp
      have h0get : st.live.get ⟨0, h0lt⟩ = 0 := by
        have h1 : st.live[0]? = some 0 := by
          rw [← List.head?_eq_getElem?]
          exact hhead
        have h2 : st.live[0]? = some (st.live.get ⟨0, h0lt⟩) := by
          rw [List.getElem?_eq_getElem h0lt]
          rfl
        rw [h1] at h2
        exact (Option.some.inj h2).symm
      constructor
      · intro hpos hj0
        subst hj0
        have hkeq : k = (⟨0, h0lt⟩ : Fin st.live.length) := by
          apply hnd.get_inj_iff.mp
          rw [hget, h0get]
        rw [hkeq] at hpos
        simp at hpos
      · intro hjne
        cases hk1 : k.1 with
        | zero =>
          exfalso
          apply hjne
          rw [← hget]
          have hkeq : k = (⟨0, h0lt⟩ : Fin st.live.length) := by
            apply Fin.ext
            rw [hk1]
          rw [hkeq, h0get]
        | succ m =>
          have htake : st.live.take (m + 1) = 0 :: t.take m := by
            rw [hlt, List.take_succ_cons]
          rw [htake, List.map_cons, List.sum_cons]
          have := size_ge_four st 0
          omega
  intro nid hnid
  rw [hlive] at hnid
  have hguard : (getN st' nid).children.all
      (fun c => match c with
                | some j => ((getN st' j).addr).isSome
                | none => true) = true := by
    rw [List.all_eq_true]
    intro c hc
    cases c with
    | none => rfl
    | some j =>
      have hcst : (some j) ∈ (getN st nid).children := by
        rw [← hch]
        exact hc
      have hslot := hslots nid hnid (some j) hcst
      have hjmem : j ∈ st.live := by
        rcases hslot with hj0 | ⟨hjm, _⟩
        · rw [hj0]
          exact hmem0
        · exact hjm
      obtain ⟨a, haj, _, _⟩ := haddr j hjmem
      show ((getN st' j).addr).isSome = true
      rw [haj]
      rfl
  have hbinary : binary st' nid = .ok (word16 (bitsOf (hasSlots st' nid))
      ++ word16 (bitsOf (zeroSlots st' nid)) ++ ((childWords st' nid).map word16).flatten) := by
    rw [binary, if_pos hguard]
  refine ⟨⟨_, hbinary, ?_⟩, hsz nid ▸ size_even st nid, ?_⟩
  · rw [binary_ok_length st' nid _ hbinary]
    -- childWords count equals the size count
    rw [hsz]
    unfold childWords
    rw [hch, List.length_filterMap_eq_countP]
    unfold size
    have hpoint : ∀ c ∈ (getN st nid).children,
        (fun c => match c with
                  | some j => if (getN st j).parents = [] then 0 else 2
                  | none => 0) c =
        (fun c => if ((fun c => match c with
            | some j =>
              match (getN st' j).addr with
              | some a => if 0 < a then some (a / 2) else none
              | none => none
            | none => (none : Option Nat)) c).isSome = true then 2 else 0) c := by
      intro c hc
      cases c with
      | none => rfl
      | some j =>
        have hslot := hslots nid hnid (some j) hc
        rcases hslot with hj0 | ⟨hjm, hjp⟩
        · subst hj0
          obtain ⟨a, haj, _, hiff⟩ := haddr 0 hmem0
          have ha0 : a = 0 := by
            by_contra hne
            have h00 : (0 : Nat) ≠ 0 := hiff.mp (by omega)
            exact h00 rfl
          show (if (getN st 0).parents = [] then 0 else 2)
            = (if ((match (getN st' 0).addr with
                    | some a => if 0 < a then some (a / 2) else none
                    | none => (none : Option Nat)).isSome = true) then 2 else 0)
          rw [if_pos hroot, haj, ha0]
          rfl
        · obtain ⟨a, haj, _, hiff⟩ := haddr j hjm
          have hpos : 0 < a := hiff.mpr (by
            intro hj0
            rw [hj0] at hjp
            exact hjp hroot)
          show (if (getN st j).parents = [] then 0 else 2)
            = (if ((match (getN st' j).addr with
                    | some a => if 0 < a then some (a / 2) else none
                    | none => (none : Option Nat)).isSome = true) then 2 else 0)
          rw [if_neg hjp, haj]
          simp [hpos]
    rw [List.map_congr_left hpoint, sum_map_two_eq_countP]
    rfl
  · obtain ⟨a, haj, hdvd, _⟩ := haddr nid hnid
    exact ⟨a, haj, hdvd, Nat.mul_div_cancel' hdvd⟩

theorem C7_witness :
    StOk stW ∧ assign_addrs stW = .ok stW' ∧
      (∀ nid ∈ stW'.live,
        (∃ bs, binary stW' nid = .ok bs ∧ bs.length = size stW' nid) ∧
        2 ∣ size stW' nid ∧
        (∃ a, (getN stW' nid).addr = some a ∧ 2 ∣ a ∧ 2 * (a / 2) = a)) :=
  ⟨by decide, rfl, C7_record_length_matches_size stW stW' (by decide) rfl⟩

/-- Two multiples of `m` that are strictly ordered differ by at least `m`. -/
theorem dvd_lt_add {m u v : Nat} (hu : m ∣ u) (hv : m ∣ v) (h : u < v) :
    u + m ≤ v := by
  obtain ⟨p, rfl⟩ := hu
  obtain ⟨q, rfl⟩ := hv
  have hpq : p + 1 ≤ q := Nat.lt_of_mul_lt_mul_left h
  calc m * p + m = m * (p + 1) := by ring
  _ ≤ m * q := Nat.mul_le_mul (Nat.le_refl m) hpq

/-- An aligned range that meets an aligned block of at least its size lies
inside it. -/
theorem aligned_nest {a b s t x : Nat} (hsa : 2 ^ a ∣ s) (htb : 2 ^ b ∣ t)
    (hxs : s ≤ x) (hxs' : x < s + 2 ^ a) (hxt : t ≤ x) (hxt' : x < t + 2 ^ b)
    (hab : a ≤ b) : t ≤ s ∧ s + 2 ^ a ≤ t + 2 ^ b := by
  have hdvd : (2 : Nat) ^ a ∣ 2 ^ b := pow_dvd_pow 2 hab
  have hts : t ≤ s := by
    by_contra hlt
    have : s + 2 ^ a ≤ t := dvd_lt_add hsa (hdvd.trans htb) (by omega)
    omega
  refine ⟨hts, ?_⟩
  by_contra hlt
  have hu : (2 : Nat) ^ a ∣ t + 2 ^ b := Dvd.dvd.add (hdvd.trans htb) hdvd
  rcases Nat.lt_or_ge s (t + 2 ^ b) with h3 | h3
  · have := dvd_lt_add hsa hu h3
    omega
  · omega

/-- Every address of an aligned block covered by `R`'s union lies in a
single range of `R`: pairwise-collapsed aligned ranges cannot tile a
block without containing it whole (else a buddy pair would appear). -/
theorem cover_single (R : List (Nat × Nat)) (hal : ∀ r ∈ R, alignedRange r)
    (hnb : noBuddy R) :
    ∀ k q : Nat, (∀ x, q * 2 ^ k ≤ x → x < (q + 1) * 2 ^ k → inRanges R x) →
    ∃ r ∈ R, r.1 ≤ q * 2 ^ k ∧ (q + 1) * 2 ^ k ≤ r.2 + 1 := by
  intro k
  induction k with
  | zero =>
    intro q hcov
    obtain ⟨r, hr, h1, h2⟩ := hcov q (by omega) (by omega)
    exact ⟨r, hr, by omega, by omega⟩
  | succ k ih =>
    intro q hcov
    have hpow : (0 : Nat) < 2 ^ k := Nat.pos_pow_of_pos k (by omega)
    have e1 : q * 2 ^ (k + 1) = 2 * q * 2 ^ k := by rw [pow_succ]; ring
    have e2 : (q + 1) * 2 ^ (k + 1) = (2 * q + 2) * 2 ^ k := by rw [pow_succ]; ring
    have e3 : (2 * q + 1 + 1) * 2 ^ k = (2 * q + 2) * 2 ^ k := by ring
    have e4 : (2 * q + 1) * 2 ^ k = 2 * q * 2 ^ k + 2 ^ k := by ring
    have e5 : (2 * q + 2) * 2 ^ k = (2 * q + 1) * 2 ^ k + 2 ^ k := by ring
    -- the two half blocks are covered
    have hcov1 : ∀ x, 2 * q * 2 ^ k ≤ x → x < (2 * q + 1) * 2 ^ k → inRanges R x := by
      intro x h1 h2
      exact hcov x (by omega) (by omega)
    have hcov2 : ∀ x, (2 * q + 1) * 2 ^ k ≤ x → x < (2 * q + 1 + 1) * 2 ^ k → inRanges R x := by
      intro x h1 h2
      exact hcov x (by omega) (by omega)
    obtain ⟨r1, hr1, hr1a, hr1b⟩ := ih (2 * q) hcov1
    obtain ⟨r2, hr2, hr2a, hr2b⟩ := ih (2 * q + 1) hcov2
    -- if either covers the whole block, done
    by_cases hbig1 : (2 * q + 2) * 2 ^ k ≤ r1.2 + 1
    · exact ⟨r1, hr1, by omega, by omega⟩
    by_cases hbig2 : r2.1 ≤ 2 * q * 2 ^ k
    · exact ⟨r2, hr2, by omega, by omega⟩
    -- otherwise r1 is exactly the low half and r2 exactly the high half
    exfalso
    obtain ⟨j1, hj1d, hj1e⟩ := hal r1 hr1
    obtain ⟨j2, hj2d, hj2e⟩ := hal r2 hr2
    have hs1 : 2 ^ k ≤ 2 ^ j1 := by omega
    have hk1 : k ≤ j1 := by
      by_contra h
      have : (2 : Nat) ^ j1 < 2 ^ k := Nat.pow_lt_pow_right (by omega) (by omega)
      omega
    have hdk1 : (2 : Nat) ^ k ∣ r1.1 := (pow_dvd_pow 2 hk1).trans hj1d
    have hend1 : r1.2 + 1 = (2 * q + 1) * 2 ^ k := by
      have hd1 : (2 : Nat) ^ k ∣ r1.2 + 1 := by
        rw [hj1e]; exact Dvd.dvd.add hdk1 (pow_dvd_pow 2 hk1)
      have hdq : (2 : Nat) ^ k ∣ (2 * q + 1) * 2 ^ k := Dvd.intro_left _ rfl
      rcases Nat.eq_or_lt_of_le hr1b with h3 | h3
      · omega
      · have := dvd_lt_add hdq hd1 h3
        omega
    have hj1k : j1 = k := by
      by_contra hne
      have hk1' : k + 1 ≤ j1 := by omega
      have hdvd1 : (2 : Nat) ^ (k + 1) ∣ r1.1 := (pow_dvd_pow 2 hk1').trans hj1d
      have hdvd2 : (2 : Nat) ^ (k + 1) ∣ r1.2 + 1 := by
        rw [hj1e]; exact Dvd.dvd.add hdvd1 (pow_dvd_pow 2 hk1')
      rw [hend1] at hdvd2
      obtain ⟨w, hw⟩ := hdvd2
      have hodd : 2 * q + 1 = 2 * w := by
        have h2 : (2 * q + 1) * 2 ^ k = (2 * w) * 2 ^ k := by
          rw [hw, pow_succ]; ring
        exact Nat.eq_of_mul_eq_mul_right hpow h2
      omega
    have hstart1 : r1.1 = 2 * q * 2 ^ k := by
      rw [hj1k] at hj1e
      omega
    -- r2: starts above the low half start, is a multiple of 2^k
    have hs2 : 2 ^ k ≤ 2 ^ j2 := by omega
    have hk2 : k ≤ j2 := by
      by_contra h
      have : (2 : Nat) ^ j2 < 2 ^ k := Nat.pow_lt_pow_right (by omega) (by omega)
      omega
    have hdk2 : (2 : Nat) ^ k ∣ r2.1 := (pow_dvd_pow 2 hk2).trans hj2d
    have hstart2 : r2.1 = (2 * q + 1) * 2 ^ k := by
      have hdq : (2 : Nat) ^ k ∣ 2 * q * 2 ^ k := Dvd.intro_left _ rfl
      have := dvd_lt_add hdq hdk2 (by omega)
      omega
    have hj2k : j2 = k := by
      by_contra hne
      have hk2' : k + 1 ≤ j2 := by omega
      have hdvd1 : (2 : Nat) ^ (k + 1) ∣ r2.1 := (pow_dvd_pow 2 hk2').trans hj2d
      rw [hstart2] at hdvd1
      obtain ⟨w, hw⟩ := hdvd1
      have hodd : 2 * q + 1 = 2 * w := by
        have h2 : (2 * q + 1) * 2 ^ k = (2 * w) * 2 ^ k := by
          rw [hw, pow_succ]; ring
        exact Nat.eq_of_mul_eq_mul_right hpow h2
      omega
    -- (r1, r2) is a buddy pair, contradicting collapsedness
    have e6 : (2 : Nat) ^ (k + 1) = 2 ^ k + 2 ^ k := by rw [pow_succ]; omega
    refine hnb r1 hr1 r2 hr2 ⟨by omega, k + 1, ?_, ?_⟩
    · rw [hstart1]
      exact ⟨q, by rw [pow_succ]; ring⟩
    · show r2.2 + 1 = r1.1 + 2 ^ (k + 1)
      rw [hj2k] at hj2e
      omega




theorem pow16_pos (m : Nat) : 0 < 16 ^ m := Nat.pos_pow_of_pos m (by omega)

theorem pow16_succ (m : Nat) : (16 : Nat) ^ (m + 1) = 16 ^ m * 16 := pow_succ 16 m

/-- On a natural argument with a multiple-of-4 width, the source
`make_nibbles` is the pure arithmetic nibble list. -/
theorem make_nibbles_nat (N x : Nat) :
    make_nibbles (4 * N) ((x : Nat) : Int) = nibsFrom N 0 x := by
  unfold make_nibbles nibsFrom
  rw [Nat.mul_div_cancel_left N (by omega : 0 < 4), Nat.sub_zero]
  refine List.map_congr_left ?_
  intro i hi
  have hiN : i < N := List.mem_range.mp hi
  have hexp : 4 * N - 4 - 4 * i = 4 * (N - i - 1) := by omega
  have hpow : ((2 : Int) ^ (4 * N - 4 - 4 * i)) = ((16 ^ (N - i - 1) : Nat) : Int) := by
    rw [hexp]
    have h16 : (16 : Nat) ^ (N - i - 1) = 2 ^ (4 * (N - i - 1)) := by
      rw [show (16 : Nat) = 2 ^ 4 from rfl, ← pow_mul]
    rw [h16]
    push_cast
    ring
  rw [hpow, ← Int.ofNat_fdiv]
  show x / 16 ^ (N - i - 1) % 16 = nib N (0 + i) x
  unfold nib
  have h0 : N - (0 + i) - 1 = N - i - 1 := by omega
  rw [h0]

theorem nibsFrom_end (N x : Nat) : nibsFrom N N x = [] := by
  unfold nibsFrom
  rw [Nat.sub_self]
  rfl

theorem nibsFrom_cons (N d x : Nat) (h : d < N) :
    nibsFrom N d x = nib N d x :: nibsFrom N (d + 1) x := by
  unfold nibsFrom
  have h1 : N - d = (N - (d + 1)) + 1 := by omega
  rw [h1, List.range_succ_eq_map, List.map_cons, List.map_map]
  refine congrArg₂ _ (by rw [Nat.add_zero]) ?_
  refine List.map_congr_left ?_
  intro i _
  show nib N (d + (i + 1)) x = nib N (d + 1 + i) x
  have : d + (i + 1) = d + 1 + i := by omega
  rw [this]

theorem nib_lt (N d x : Nat) : nib N d x < 16 := Nat.mod_lt _ (by omega)

theorem blkOf_succ (N d x : Nat) (h : d < N) :
    blkOf N (d + 1) x = 16 * blkOf N d x + nib N d x := by
  unfold blkOf nib
  have h2 : N - (d + 1) = N - d - 1 := by omega
  rw [h2]
  have h3 : 16 ^ (N - d) = 16 ^ (N - d - 1) * 16 := by
    rw [← pow16_succ]
    refine congrArg _ ?_
    omega
  rw [h3, ← Nat.div_div_eq_div_mul]
  omega

theorem blk_succ_eq_iff (N d s e : Nat) (h : d < N) :
    blkOf N (d + 1) s = blkOf N (d + 1) e ↔
      blkOf N d s = blkOf N d e ∧ nib N d s = nib N d e := by
  have h1 := blkOf_succ N d s h
  have h2 := blkOf_succ N d e h
  have l1 := nib_lt N d s
  have l2 := nib_lt N d e
  omega

theorem nib_mono (N d s e : Nat) (h : d < N) (hse : s ≤ e)
    (hb : blkOf N d s = blkOf N d e) : nib N d s ≤ nib N d e := by
  have h1 := blkOf_succ N d s h
  have h2 := blkOf_succ N d e h
  have h3 : blkOf N (d + 1) s ≤ blkOf N (d + 1) e := Nat.div_le_div_right hse
  have l1 := nib_lt N d s
  have l2 := nib_lt N d e
  omega

theorem blk_mem (N d x : Nat) :
    blockLo N d (blkOf N d x) ≤ x ∧ x < blockLo N d (blkOf N d x) + 16 ^ (N - d) := by
  unfold blockLo blkOf
  have hd := Nat.div_add_mod x (16 ^ (N - d))
  have hm : x % 16 ^ (N - d) < 16 ^ (N - d) := Nat.mod_lt x (pow16_pos _)
  have hc : x / 16 ^ (N - d) * 16 ^ (N - d) = 16 ^ (N - d) * (x / 16 ^ (N - d)) :=
    Nat.mul_comm _ _
  omega

theorem blkOf_eq_of_mem (N d v x : Nat) (h1 : blockLo N d v ≤ x)
    (h2 : x < blockLo N d v + 16 ^ (N - d)) : blkOf N d x = v := by
  unfold blockLo at h1 h2
  unfold blkOf
  have hlt : x < (v + 1) * 16 ^ (N - d) := by
    have : (v + 1) * 16 ^ (N - d) = v * 16 ^ (N - d) + 16 ^ (N - d) := by ring
    omega
  exact Nat.div_eq_of_lt_le h1 hlt

theorem pow16_as_pow2 (m : Nat) : (16 : Nat) ^ m = 2 ^ (4 * m) := by
  rw [show (16 : Nat) = 2 ^ 4 from rfl, ← pow_mul]

/-- At the first differing nibble pair of an aligned range the range is a
whole union of depth-`d+1` blocks: the start sits at its block's first
address and the end at its block's last. -/
theorem branch_boundary (N d s e k : Nat) (hd : d < N)
    (hdvd : 2 ^ k ∣ s) (hsum : e + 1 = s + 2 ^ k)
    (hb : blkOf N d s = blkOf N d e) (hne : nib N d s ≠ nib N d e) :
    s = blkOf N (d + 1) s * 16 ^ (N - d - 1) ∧
    e + 1 = (blkOf N (d + 1) e + 1) * 16 ^ (N - d - 1) := by
  have hm1 : N - (d + 1) = N - d - 1 := by omega
  have hmain : (16 : Nat) ^ (N - d - 1) ∣ 2 ^ k := by
    rw [pow16_as_pow2]
    by_contra hnd
    have hk4 : k ≤ 4 * (N - d - 1) := by
      by_contra hgt
      exact hnd (pow_dvd_pow 2 (by omega))
    have hmem := blk_mem N (d + 1) s
    rw [hm1] at hmem
    have ht : (2 : Nat) ^ (4 * (N - d - 1)) ∣ blockLo N (d + 1) (blkOf N (d + 1) s) := by
      unfold blockLo
      rw [hm1, pow16_as_pow2]
      exact Dvd.intro_left _ rfl
    have hnest := aligned_nest hdvd ht (Nat.le_refl s)
      (by have := Nat.pos_pow_of_pos k (show 0 < 2 by omega); omega)
      hmem.1 (by rw [pow16_as_pow2] at hmem; omega) hk4
    rw [pow16_as_pow2 (N - d - 1)] at hmem
    have hemem : blkOf N (d + 1) e = blkOf N (d + 1) s := by
      refine blkOf_eq_of_mem N (d + 1) _ e ?_ ?_
      · omega
      · rw [hm1, pow16_as_pow2]
        omega
    have hemem' := hemem.symm
    rw [blk_succ_eq_iff N d s e hd] at hemem'
    exact hne hemem'.2
  have hds : (16 : Nat) ^ (N - d - 1) ∣ s := hmain.trans hdvd
  have hde : (16 : Nat) ^ (N - d - 1) ∣ e + 1 := by
    rw [hsum]
    exact Dvd.dvd.add hds hmain
  constructor
  · show s = blkOf N (d + 1) s * 16 ^ (N - d - 1)
    unfold blkOf
    rw [hm1]
    exact (Nat.div_mul_cancel hds).symm
  · obtain ⟨c, hc⟩ := hde
    have hc1 : 1 ≤ c := by
      have := pow16_pos (N - d - 1)
      by_contra h0
      have : c = 0 := by omega
      rw [this] at hc
      omega
    have hsub : (c - 1) * 16 ^ (N - d - 1) + 16 ^ (N - d - 1) = c * 16 ^ (N - d - 1) := by
      rw [Nat.sub_one_mul]
      have hle : 16 ^ (N - d - 1) ≤ c * 16 ^ (N - d - 1) := by
        calc 16 ^ (N - d - 1) = 1 * 16 ^ (N - d - 1) := by ring
        _ ≤ c * 16 ^ (N - d - 1) := Nat.mul_le_mul_right _ hc1
      omega
    have hcmul : e + 1 = c * 16 ^ (N - d - 1) := by rw [hc]; ring
    have hediv : blkOf N (d + 1) e = c - 1 := by
      unfold blkOf
      rw [hm1]
      refine Nat.div_eq_of_lt_le ?_ ?_
      · have := pow16_pos (N - d - 1)
        omega
      · have : (c - 1 + 1) * 16 ^ (N - d - 1) = (c - 1) * 16 ^ (N - d - 1) + 16 ^ (N - d - 1) := by
          ring
        omega
    rw [hediv]
    have : (c - 1 + 1) * 16 ^ (N - d - 1) = (c - 1) * 16 ^ (N - d - 1) + 16 ^ (N - d - 1) := by
      ring
    omega

theorem nib_head_zero (N : Nat) : nib N 0 0 = 0 := by
  unfold nib
  rw [Nat.zero_div]

theorem nib_head_top (N : Nat) (h : 0 < N) : nib N 0 (16 ^ N - 1) = 15 := by
  unfold nib
  have h1 : (16 : Nat) ^ N = 16 ^ (N - 0 - 1) * 16 := by
    rw [← pow16_succ]
    refine congrArg _ ?_
    omega
  have hp := pow16_pos (N - 0 - 1)
  have hdiv : (16 ^ N - 1) / 16 ^ (N - 0 - 1) = 15 := by
    refine Nat.div_eq_of_lt_le ?_ ?_
    · omega
    · omega
  rw [hdiv]

theorem blkOf_zero (N x : Nat) (h : x < 16 ^ N) : blkOf N 0 x = 0 := by
  unfold blkOf
  rw [Nat.sub_zero]
  exact Nat.div_eq_of_lt h


theorem getD_map_none {f : Option Nat → Option Nat} (hf : f none = none)
    (l : List (Option Nat)) (i : Nat) :
    (l.map f).getD i none = f (l.getD i none) := by
  rcases Nat.lt_or_ge i l.length with h | h
  · rw [List.getD_eq_getElem?_getD, List.getD_eq_getElem?_getD, List.getElem?_map,
      List.getElem?_eq_getElem h]
    rfl
  · rw [List.getD_eq_getElem?_getD, List.getD_eq_getElem?_getD,
      List.getElem?_eq_none (by simpa using h), List.getElem?_eq_none h]
    exact hf.symm

theorem getD_set (l : List (Option Nat)) (j : Nat) (v : Option Nat) (i : Nat) :
    (l.set j v).getD i none =
      if j = i ∧ j < l.length then v else l.getD i none := by
  by_cases hji : j = i
  · subst hji
    by_cases hl : j < l.length
    · rw [if_pos ⟨rfl, hl⟩, List.getD_eq_getElem?_getD, List.getElem?_set_self',
        List.getElem?_eq_getElem hl]
      rfl
    · rw [if_neg (fun hc => hl hc.2), List.set_eq_of_length_le (by omega)]
  · rw [if_neg (fun hc => hji hc.1), List.getD_eq_getElem?_getD,
      List.getD_eq_getElem?_getD, List.getElem?_set_ne hji]

theorem newNode_arena_len (st : St) (p : Option Nat) :
    (newNode st p).1.arena.length = st.arena.length + 1 := by
  unfold newNode
  simp

theorem newNode_live (st : St) (p : Option Nat) :
    (newNode st p).1.live = st.live ++ [st.arena.length] := rfl

theorem getN_newNode_old (st : St) (p : Option Nat) (j : Nat)
    (h : j < st.arena.length) :
    getN (newNode st p).1 j = getN st j := by
  unfold newNode getN
  simp only [List.getD_eq_getElem?_getD]
  rw [List.getElem?_append_left h]

theorem getN_newNode_new (st : St) (p : Option Nat) :
    getN (newNode st p).1 st.arena.length =
      ⟨List.replicate 16 none, p.toList, none⟩ := by
  unfold newNode getN
  simp only [List.getD_eq_getElem?_getD]
  rw [List.getElem?_append_right (Nat.le_refl _)]
  simp

theorem head?_append_ne {α : Type} (l t : List α) (x : α) (h : l.head? = some x) :
    (l ++ t).head? = some x := by
  cases l with
  | nil => simp at h
  | cons a l => simpa using h

theorem fill_foldl_getD (len : Nat) : ∀ (a : Nat) (cs : List (Option Nat)) (i : Nat),
    ((List.range' a len).foldl (fun cs n => cs.set n (some 0)) cs).getD i none =
      if a ≤ i ∧ i < a + len ∧ i < cs.length then some 0 else cs.getD i none := by
  induction len with
  | zero =>
    intro a cs i
    rw [if_neg (by omega)]
    rfl
  | succ len ih =>
    intro a cs i
    rw [List.range'_succ, List.foldl_cons, ih, List.length_set, getD_set]
    by_cases h2 : a + 1 ≤ i ∧ i < a + 1 + len ∧ i < cs.length
    · rw [if_pos h2, if_pos (by omega)]
    · rw [if_neg h2]
      by_cases h3 : a = i ∧ a < cs.length
      · rw [if_pos h3, if_pos (by omega)]
      · rw [if_neg h3]
        have hneg : ¬(a ≤ i ∧ i < a + (len + 1) ∧ i < cs.length) := by
          rintro ⟨hc1, hc2, hc3⟩
          rcases Nat.eq_or_lt_of_le hc1 with he | hlt
          · exact h3 ⟨he, by omega⟩
          · exact h2 ⟨by omega, by omega, hc3⟩
        rw [if_neg hneg]

theorem fill_foldl_length (len : Nat) : ∀ (a : Nat) (cs : List (Option Nat)),
    ((List.range' a len).foldl (fun cs n => cs.set n (some 0)) cs).length = cs.length := by
  induction len with
  | zero =>
    intro a cs
    rfl
  | succ len ih =>
    intro a cs
    rw [List.range'_succ, List.foldl_cons, ih, List.length_set]

theorem blkOf_agree (N t d s e : Nat) (ht : t ≤ d) (hd : d ≤ N)
    (h : blkOf N d s = blkOf N d e) : blkOf N t s = blkOf N t e := by
  unfold blkOf at h
  unfold blkOf
  have hx : ∀ x : Nat, x / 16 ^ (N - t) = x / 16 ^ (N - d) / 16 ^ (d - t) := by
    intro x
    rw [Nat.div_div_eq_div_mul, ← pow_add]
    refine congrArg _ (congrArg _ ?_)
    omega
  rw [hx s, hx e, h]

theorem full_block_nibs (N d s e v : Nat) (hd : d < N)
    (hs : s = blockLo N d v) (he : e + 1 = blockLo N d v + 16 ^ (N - d)) :
    nib N d s = 0 ∧ nib N d e = 15 := by
  have hp := pow16_pos (N - d - 1)
  have h16 : (16 : Nat) ^ (N - d) = 16 ^ (N - d - 1) * 16 := by
    rw [← pow16_succ]
    refine congrArg _ ?_
    omega
  unfold blockLo at hs he
  constructor
  · unfold nib
    have he0 : s = 16 * v * 16 ^ (N - d - 1) := by rw [hs, h16]; ring
    have hdiv : s / 16 ^ (N - d - 1) = 16 * v := by
      rw [he0]
      exact Nat.mul_div_cancel _ hp
    rw [hdiv, Nat.mul_mod_right]
  · unfold nib
    have he1 : e + 1 = (16 * v + 16) * 16 ^ (N - d - 1) := by
      rw [he, h16]; ring
    have hlink : (16 * v + 16) * 16 ^ (N - d - 1) =
        (16 * v + 15) * 16 ^ (N - d - 1) + 16 ^ (N - d - 1) := by ring
    have hdiv : e / 16 ^ (N - d - 1) = 16 * v + 15 := by
      refine Nat.div_eq_of_lt_le (by omega) ?_
      have : (16 * v + 15 + 1) * 16 ^ (N - d - 1) =
          (16 * v + 16) * 16 ^ (N - d - 1) := by ring
      omega
    rw [hdiv]
    have : 16 * v + 15 = 15 + v * 16 := by ring
    rw [this, Nat.add_mul_mod_self_right]

/-- In the full-subtree special case (nibbles 0 and 15) the remaining
range is exactly the current node's block. -/
theorem special_block_eq (N d s e k v : Nat) (hd : d < N)
    (hdvd : 2 ^ k ∣ s) (hsum : e + 1 = s + 2 ^ k)
    (hb : blkOf N d s = blkOf N d e) (hv : v = blkOf N d s)
    (h0 : nib N d s = 0) (h15 : nib N d e = 15) :
    s = blockLo N d v ∧ e + 1 = blockLo N d v + 16 ^ (N - d) := by
  have hbb := branch_boundary N d s e k hd hdvd hsum hb (by omega)
  have hs1 := blkOf_succ N d s hd
  have he1 := blkOf_succ N d e hd
  have h16 : (16 : Nat) ^ (N - d) = 16 ^ (N - d - 1) * 16 := by
    rw [← pow16_succ]
    refine congrArg _ ?_
    omega
  unfold blockLo
  constructor
  · rw [hbb.1, hs1, h0, hv, h16]
    ring
  · rw [hbb.2, he1, h15, ← hb, ← hv, h16]
    ring

/-- In the fill branch every filled slot's child block is inside the
range. -/
theorem fill_block_sub (N d s e k v c : Nat) (hd : d < N)
    (hdvd : 2 ^ k ∣ s) (hsum : e + 1 = s + 2 ^ k)
    (hb : blkOf N d s = blkOf N d e) (hv : v = blkOf N d s)
    (hne : nib N d s ≠ nib N d e)
    (hc1 : nib N d s ≤ c) (hc2 : c ≤ nib N d e) :
    s ≤ blockLo N (d + 1) (16 * v + c) ∧
    blockLo N (d + 1) (16 * v + c) + 16 ^ (N - (d + 1)) ≤ e + 1 := by
  have hbb := branch_boundary N d s e k hd hdvd hsum hb hne
  have hs1 := blkOf_succ N d s hd
  have he1 := blkOf_succ N d e hd
  have hm1 : N - (d + 1) = N - d - 1 := by omega
  unfold blockLo
  rw [hm1]
  constructor
  · rw [hbb.1, hs1, hv]
    exact Nat.mul_le_mul_right _ (by omega)
  · have : (16 * v + c) * 16 ^ (N - d - 1) + 16 ^ (N - d - 1) =
        (16 * v + c + 1) * 16 ^ (N - d - 1) := by ring
    rw [this, hbb.2, he1, ← hb, ← hv]
    exact Nat.mul_le_mul_right _ (by omega)

/-- The current range lies inside the depth-`d+1` block it descends into. -/
theorem desc_block_sup (N d s e : Nat) (hse : s ≤ e)
    (hb1 : blkOf N (d + 1) s = blkOf N (d + 1) e) :
    blockLo N (d + 1) (blkOf N (d + 1) s) ≤ s ∧
    e < blockLo N (d + 1) (blkOf N (d + 1) s) + 16 ^ (N - (d + 1)) := by
  have h1 := blk_mem N (d + 1) s
  have h2 := blk_mem N (d + 1) e
  rw [← hb1] at h2
  exact ⟨h1.1, h2.2⟩

/-- A node whose creation witness is an already processed range cannot
have its block inside the current range (ranges are disjoint). -/
theorem old_node_not_sup (N : Nat) (P : List (Nat × Nat)) (s e : Nat)
    (hwfP : ∀ p ∈ P, p.1 ≤ p.2) (hdisj : ∀ p ∈ P, p.2 < s ∨ e < p.1)
    (dv : Nat × Nat) (hwit : ∃ rr ∈ P, subOf N dv rr) :
    ¬supOf N dv (s, e) := by
  obtain ⟨rr, hrr, h1, h2⟩ := hwit
  rintro ⟨g1, g2⟩
  have hw := hwfP rr hrr
  have hdd := hdisj rr hrr
  omega

/-- A strictly shallower fresh node's block cannot be exactly the
current range: the range's addresses agree on all nibbles above the
branch depth, but a full block forces nibbles 0 and 15. -/
theorem fresh_node_not_sup (N d t v2 s e : Nat) (hdN : d ≤ N) (htd : t < d)
    (hagree : blkOf N d s = blkOf N d e)
    (hs : blockLo N t v2 ≤ s) (he : e < blockLo N t v2 + 16 ^ (N - t))
    (hsup : supOf N (t, v2) (s, e)) : False := by
  obtain ⟨g1, g2⟩ := hsup
  have g1' : s ≤ blockLo N t v2 := g1
  have g2' : blockLo N t v2 + 16 ^ (N - t) ≤ e + 1 := g2
  have hseq : s = blockLo N t v2 := by omega
  have heeq : e + 1 = blockLo N t v2 + 16 ^ (N - t) := by omega
  have hnibs := full_block_nibs N t s e v2 (by omega) hseq heeq
  have hag : blkOf N (t + 1) s = blkOf N (t + 1) e :=
    blkOf_agree N (t + 1) d s e (by omega) hdN hagree
  rw [blk_succ_eq_iff N t s e (by omega)] at hag
  omega

theorem slotV_setN_ne (st : St) (p : Nat) (nd : Node) (q j : Nat) (h : q ≠ p) :
    slotV (setN st p nd) q j = slotV st q j := by
  unfold slotV
  rw [getN_setN_ne st p nd (Ne.symm h)]

theorem slotV_setN_self (st : St) (p : Nat) (nd : Node) (j : Nat)
    (hp : p < st.arena.length) :
    slotV (setN st p nd) p j = nd.children.getD j none := by
  unfold slotV
  rw [getN_setN_lt st p nd hp]

theorem parents_setN_children (st : St) (p : Nat) (cs : List (Option Nat)) (x : Nat)
    (hp : p < st.arena.length) :
    (getN (setN st p { getN st p with children := cs }) x).parents =
      (getN st x).parents := by
  by_cases hx : x = p
  · subst hx
    rw [getN_setN_lt st x _ hp]
  · rw [getN_setN_ne st p _ (fun hh => hx hh.symm)]

set_option maxHeartbeats 1600000 in
/-- The fill branch of `set_range` (marking slots `a..b` of the branch
node with root pointers) re-establishes the construction invariant with
the current range appended. -/
theorem fill_preserve (N : Nat) (P : List (Nat × Nat)) (s e ka d : Nat)
    (hwfP : ∀ p ∈ P, p.1 ≤ p.2)
    (hdisj : ∀ p ∈ P, p.2 < s ∨ e < p.1)
    (hse : s ≤ e) (hka : 2 ^ ka ∣ s) (hke : e + 1 = s + 2 ^ ka)
    (hdlt : d < N)
    (st : St) (node : Nat) (blk : Nat → Nat × Nat) (fresh : List Nat)
    (hB : BInv N P (P ++ [(s, e)]) st blk)
    (hbde : blkOf N d s = blkOf N d e)
    (hblkn : blk node = (d, blkOf N d s))
    (hnl : node ∈ st.live)
    (hD3 : (node = 0 ∧ d = 0) ∨ (node ≠ 0 ∧ refBy st node))
    (hf0 : ∀ x ∈ st.live, x ∉ fresh → x = 0 ∨ ∃ rr ∈ P, subOf N (blk x) rr)
    (hf3 : ∀ x ∈ fresh, (blk x).1 ≤ d ∧ ((blk x).1 = d → x = node))
    (hf4 : ∀ x ∈ fresh, blockLo N (blk x).1 (blk x).2 ≤ s ∧
        e < blockLo N (blk x).1 (blk x).2 + 16 ^ (N - (blk x).1))
    (hab : ¬nib N d s = nib N d e)
    (h015 : ¬(nib N d s = 0 ∧ nib N d e = 15))
    (cs : List (Option Nat))
    (hcsl : cs.length = (getN st node).children.length)
    (hcs : ∀ j, cs.getD j none =
      if nib N d s ≤ j ∧ j ≤ nib N d e then some 0 else slotV st node j) :
    ∃ blk', BInv N (P ++ [(s, e)]) (P ++ [(s, e)])
      (setN st node { getN st node with children := cs }) blk' := by
  have hnode_lt : node < st.arena.length := hB.bounds node hnl
  have hchn : (getN st node).children.length = 16 := hB.chlen node hnl
  have hslot' : ∀ j, slotV (setN st node { getN st node with children := cs }) node j =
      if nib N d s ≤ j ∧ j ≤ nib N d e then some 0 else slotV st node j := by
    intro j
    rw [slotV_setN_self st node _ j hnode_lt]
    exact hcs j
  have hnoreal : ∀ j mm, nib N d s ≤ j → j ≤ nib N d e →
      slotV st node j = some mm → mm = 0 := by
    intro j mm hj1 hj2 hsl
    by_contra hmm
    have hedge := hB.edge node hnl j mm hsl hmm
    rw [hblkn] at hedge
    dsimp only at hedge
    have hmold : mm ∉ fresh := by
      intro hmf
      have h3 := (hf3 mm hmf).1
      rw [hedge.2.1] at h3
      dsimp only at h3
      omega
    rcases hf0 mm hedge.1 hmold with h0 | ⟨rr, hrr, hsub1, hsub2⟩
    · exact hmm h0
    · rw [hedge.2.1] at hsub1 hsub2
      dsimp only at hsub1 hsub2
      have hfb := fill_block_sub N d s e ka (blkOf N d s) j hdlt hka hke hbde rfl hab hj1 hj2
      have hwf := hwfP rr hrr
      have hdd := hdisj rr hrr
      omega
  have hrefEq : ∀ x, x ≠ 0 →
      (refBy (setN st node { getN st node with children := cs }) x ↔ refBy st x) := by
    intro x hx0
    constructor
    · rintro ⟨q, hq, j, hsl⟩
      by_cases hqn : node = q
      · subst hqn
        rw [hslot'] at hsl
        split at hsl
        · exact absurd (Option.some.inj hsl).symm hx0
        · exact ⟨node, hnl, j, hsl⟩
      · rw [slotV_setN_ne st node _ q j (Ne.symm hqn)] at hsl
        exact ⟨q, hq, j, hsl⟩
    · rintro ⟨q, hq, j, hsl⟩
      by_cases hqn : node = q
      · subst hqn
        refine ⟨node, hnl, j, ?_⟩
        rw [hslot']
        rw [if_neg ?_]
        · exact hsl
        · rintro ⟨hj1, hj2⟩
          exact hx0 (hnoreal j x hj1 hj2 hsl)
      · refine ⟨q, hq, j, ?_⟩
        rw [slotV_setN_ne st node _ q j (Ne.symm hqn)]
        exact hsl
  refine ⟨blk, hB.head0, hB.nodup, ?_, ?_, hB.blk0, ?_, ?_, ?_, ?_, ?_, ?_,
    (fun n hn hn0 => hB.wit n hn hn0), ?_, (fun n hn => hB.depthLe n hn)⟩
  · intro n hn
    rw [setN_arena_length]
    exact hB.bounds n hn
  · rw [parents_setN_children st node _ 0 hnode_lt]
    exact hB.rootPar
  · intro n hn
    by_cases hnn : node = n
    · subst hnn
      rw [getN_setN_lt st node _ hnode_lt]
      dsimp only
      rw [hcsl]
      exact hchn
    · rw [getN_setN_ne st node _ hnn]
      exact hB.chlen n hn
  · intro n hn i mm hsl hmm0
    by_cases hnn : node = n
    · subst hnn
      rw [hslot'] at hsl
      split at hsl
      · exact absurd (Option.some.inj hsl).symm hmm0
      · exact hB.edge node hnl i mm hsl hmm0
    · rw [slotV_setN_ne st node _ n i (Ne.symm hnn)] at hsl
      exact hB.edge n hn i mm hsl hmm0
  · intro n hn i hsl x hx1 hx2
    by_cases hnn : node = n
    · subst hnn
      rw [hslot'] at hsl
      split at hsl
      · rename_i hcond
        rw [hblkn] at hx1 hx2
        dsimp only at hx1 hx2
        have hfb := fill_block_sub N d s e ka (blkOf N d s) i hdlt hka hke hbde rfl hab
          hcond.1 hcond.2
        refine ⟨(s, e), List.mem_append_right _ (by simp), ?_, ?_⟩
        · show s ≤ x
          omega
        · show x ≤ e
          omega
      · obtain ⟨rr, hrr, hh⟩ := hB.sound node hnl i hsl x hx1 hx2
        exact ⟨rr, List.mem_append_left _ hrr, hh⟩
    · rw [slotV_setN_ne st node _ n i (Ne.symm hnn)] at hsl
      obtain ⟨rr, hrr, hh⟩ := hB.sound n hn i hsl x hx1 hx2
      exact ⟨rr, List.mem_append_left _ hrr, hh⟩
  · intro n hn hn0 hrf hdl
    have hrfold : refBy st n := (hrefEq n hn0).mp hrf
    rintro ⟨rr, hrrm, hsup⟩
    rcases List.mem_append.mp hrrm with hP | hr
    · exact hB.notCov n hn hn0 hrfold hdl ⟨rr, hP, hsup⟩
    · have hrr : rr = (s, e) := by simpa using hr
      subst hrr
      by_cases hnn : node = n
      · subst hnn
        rw [hblkn] at hsup
        obtain ⟨g1, g2⟩ := hsup
        dsimp only at g1 g2
        have hms := blk_mem N d s
        have hme := blk_mem N d e
        rw [← hbde] at hme
        have hnibs := full_block_nibs N d s e (blkOf N d s) hdlt (by omega) (by omega)
        exact h015 hnibs
      · by_cases hfr : n ∈ fresh
        · have h4 := hf4 n hfr
          have h3 := hf3 n hfr
          have htd : (blk n).1 < d := by
            rcases Nat.eq_or_lt_of_le h3.1 with he | hlt
            · exact absurd (h3.2 he).symm hnn
            · exact hlt
          exact fresh_node_not_sup N d (blk n).1 (blk n).2 s e (by omega) htd hbde
            h4.1 h4.2 hsup
        · rcases hf0 n hn hfr with h0 | hw
          · exact hn0 h0
          · exact old_node_not_sup N P s e hwfP hdisj (blk n) hw hsup
  · intro n hn hn0 hnrf
    have hnrfold : ¬refBy st n := fun h => hnrf ((hrefEq n hn0).mpr h)
    have hold := hB.unref n hn hn0 hnrfold
    by_cases hnn : node = n
    · subst hnn
      rcases hD3 with ⟨h0, _⟩ | ⟨_, hrfn⟩
      · exact absurd h0 hn0
      · exact absurd ((hrefEq node hn0).mpr hrfn) hnrf
    · rw [getN_setN_ne st node _ hnn]
      exact hold
  · intro n hn hn0
    obtain ⟨p, hp, huq⟩ := hB.uniqRef n hn hn0
    refine ⟨p, ?_, ?_⟩
    · rw [parents_setN_children st node _ n hnode_lt]
      exact hp
    · intro q hq j hsl
      by_cases hqn : node = q
      · subst hqn
        rw [hslot'] at hsl
        split at hsl
        · exact absurd (Option.some.inj hsl).symm hn0
        · exact huq node hnl j hsl
      · rw [slotV_setN_ne st node _ q j (Ne.symm hqn)] at hsl
        exact huq q hq j hsl
  · intro n hn hdn
    by_cases hnn : node = n
    · subst hnn
      rw [hblkn] at hdn
      dsimp only at hdn
      exact absurd hdn (by omega)
    · rw [getN_setN_ne st node _ hnn]
      exact hB.leafNone n hn hdn

theorem getD_replicate_none (n j : Nat) :
    (List.replicate n (none : Option Nat)).getD j none = none := by
  rw [List.getD_eq_getElem?_getD, List.getElem?_replicate]
  split <;> rfl

set_option maxHeartbeats 1600000 in
/-- The full-subtree special case of `set_range` (replacing the parent's
pointer to the branch node by a root pointer) re-establishes the
construction invariant with the current range appended. -/
theorem special_preserve (N : Nat) (P : List (Nat × Nat)) (s e ka d : Nat)
    (hwfP : ∀ p ∈ P, p.1 ≤ p.2)
    (hdisj : ∀ p ∈ P, p.2 < s ∨ e < p.1)
    (hse : s ≤ e) (hka : 2 ^ ka ∣ s) (hke : e + 1 = s + 2 ^ ka)
    (hdlt : d < N)
    (st : St) (node : Nat) (blk : Nat → Nat × Nat) (fresh : List Nat)
    (hB : BInv N P (P ++ [(s, e)]) st blk)
    (hbde : blkOf N d s = blkOf N d e)
    (hblkn : blk node = (d, blkOf N d s))
    (hnl : node ∈ st.live)
    (hD3 : (node = 0 ∧ d = 0) ∨ (node ≠ 0 ∧ refBy st node))
    (hf0 : ∀ x ∈ st.live, x ∉ fresh → x = 0 ∨ ∃ rr ∈ P, subOf N (blk x) rr)
    (hf3 : ∀ x ∈ fresh, (blk x).1 ≤ d ∧ ((blk x).1 = d → x = node))
    (hf4 : ∀ x ∈ fresh, blockLo N (blk x).1 (blk x).2 ≤ s ∧
        e < blockLo N (blk x).1 (blk x).2 + 16 ^ (N - (blk x).1))
    (hf1 : node ∈ fresh → (getN st node).children = List.replicate 16 none)
    (h0a : nib N d s = 0) (h0b : nib N d e = 15)
    (p : Nat) (ptail : List Nat)
    (hpar : (getN st node).parents = p :: ptail)
    (cs : List (Option Nat))
    (hcsl : cs.length = (getN st p).children.length)
    (hcs : ∀ j, cs.getD j none =
      if slotV st p j = some node then some 0 else slotV st p j) :
    ∃ blk', BInv N (P ++ [(s, e)]) (P ++ [(s, e)])
      (setN st p { getN st p with children := cs }) blk' := by
  have hnode0 : node ≠ 0 := by
    rintro rfl
    rw [hB.rootPar] at hpar
    exact List.noConfusion hpar
  have hrfn : refBy st node := by
    rcases hD3 with ⟨h00, _⟩ | ⟨_, h⟩
    · exact absurd h00 hnode0
    · exact h
  obtain ⟨p0, hp0, huq⟩ := hB.uniqRef node hnl hnode0
  rw [hpar] at hp0
  injection hp0 with hpe hte
  rw [← hpe] at huq
  obtain ⟨q0, hq0, j, hjslot⟩ := hrfn
  have hq0p : p = q0 := (huq q0 hq0 j hjslot).symm
  subst hq0p
  have hpl : p ∈ st.live := hq0
  have hp_lt : p < st.arena.length := hB.bounds p hpl
  have hsp := special_block_eq N d s e ka (blkOf N d s) hdlt hka hke hbde rfl h0a h0b
  have hnall : (getN st node).children = List.replicate 16 none := by
    by_cases hfr : node ∈ fresh
    · exact hf1 hfr
    · rcases hf0 node hnl hfr with h00 | ⟨rr, hrr, hsub1, hsub2⟩
      · exact absurd h00 hnode0
      · rw [hblkn] at hsub1 hsub2
        dsimp only at hsub1 hsub2
        have hwf := hwfP rr hrr
        have hdd := hdisj rr hrr
        omega
  have hpne : p ≠ node := by
    rintro rfl
    unfold slotV at hjslot
    rw [hnall, getD_replicate_none] at hjslot
    exact Option.noConfusion hjslot
  have hedge0 := hB.edge p hpl j node hjslot hnode0
  have hslot'p : ∀ jj, slotV (setN st p { getN st p with children := cs }) p jj =
      if slotV st p jj = some node then some 0 else slotV st p jj := by
    intro jj
    rw [slotV_setN_self st p _ jj hp_lt]
    exact hcs jj
  have hnoref' : ¬refBy (setN st p { getN st p with children := cs }) node := by
    rintro ⟨q, hq, jj, hsl⟩
    by_cases hqp : p = q
    · subst hqp
      rw [hslot'p] at hsl
      split at hsl
      · exact hnode0 (Option.some.inj hsl).symm
      · rename_i hc
        exact hc hsl
    · rw [slotV_setN_ne st p _ q jj (Ne.symm hqp)] at hsl
      exact hqp (huq q hq jj hsl).symm
  have hrefEq : ∀ x, x ≠ 0 → x ≠ node →
      (refBy (setN st p { getN st p with children := cs }) x ↔ refBy st x) := by
    intro x hx0 hxn
    constructor
    · rintro ⟨q, hq, jj, hsl⟩
      by_cases hqp : p = q
      · subst hqp
        rw [hslot'p] at hsl
        split at hsl
        · exact absurd (Option.some.inj hsl).symm hx0
        · exact ⟨p, hpl, jj, hsl⟩
      · rw [slotV_setN_ne st p _ q jj (Ne.symm hqp)] at hsl
        exact ⟨q, hq, jj, hsl⟩
    · rintro ⟨q, hq, jj, hsl⟩
      by_cases hqp : p = q
      · subst hqp
        refine ⟨p, hpl, jj, ?_⟩
        rw [hslot'p, if_neg ?_]
        · exact hsl
        · rw [hsl]
          exact fun hc => hxn (Option.some.inj hc)
      · refine ⟨q, hq, jj, ?_⟩
        rw [slotV_setN_ne st p _ q jj (Ne.symm hqp)]
        exact hsl
  refine ⟨blk, hB.head0, hB.nodup, ?_, ?_, hB.blk0, ?_, ?_, ?_, ?_, ?_, ?_,
    (fun n hn hn0 => hB.wit n hn hn0), ?_, (fun n hn => hB.depthLe n hn)⟩
  · intro n hn
    rw [setN_arena_length]
    exact hB.bounds n hn
  · rw [parents_setN_children st p _ 0 hp_lt]
    exact hB.rootPar
  · intro n hn
    by_cases hnn : p = n
    · subst hnn
      rw [getN_setN_lt st p _ hp_lt]
      dsimp only
      rw [hcsl]
      exact hB.chlen p hpl
    · rw [getN_setN_ne st p _ hnn]
      exact hB.chlen n hn
  · intro n hn i mm hsl hmm0
    by_cases hnn : p = n
    · subst hnn
      rw [hslot'p] at hsl
      split at hsl
      · exact absurd (Option.some.inj hsl).symm hmm0
      · exact hB.edge p hpl i mm hsl hmm0
    · rw [slotV_setN_ne st p _ n i (Ne.symm hnn)] at hsl
      exact hB.edge n hn i mm hsl hmm0
  · intro n hn i hsl x hx1 hx2
    by_cases hnn : p = n
    · subst hnn
      rw [hslot'p] at hsl
      split at hsl
      · rename_i hcond
        have hedge := hB.edge p hpl i node hcond hnode0
        have he2 := hedge.2.1
        rw [hblkn] at he2
        have hfst := congrArg Prod.fst he2
        have hsnd := congrArg Prod.snd he2
        dsimp only at hfst hsnd
        rw [← hfst, ← hsnd] at hx1 hx2
        refine ⟨(s, e), List.mem_append_right _ (by simp), ?_, ?_⟩
        · show s ≤ x
          omega
        · show x ≤ e
          omega
      · obtain ⟨rr, hrr, hh⟩ := hB.sound p hpl i hsl x hx1 hx2
        exact ⟨rr, List.mem_append_left _ hrr, hh⟩
    · rw [slotV_setN_ne st p _ n i (Ne.symm hnn)] at hsl
      obtain ⟨rr, hrr, hh⟩ := hB.sound n hn i hsl x hx1 hx2
      exact ⟨rr, List.mem_append_left _ hrr, hh⟩
  · intro n hn hn0 hrf hdl
    by_cases hnnode : n = node
    · subst hnnode
      exact absurd hrf hnoref'
    · have hrfold : refBy st n := (hrefEq n hn0 hnnode).mp hrf
      rintro ⟨rr, hrrm, hsup⟩
      rcases List.mem_append.mp hrrm with hP | hr
      · exact hB.notCov n hn hn0 hrfold hdl ⟨rr, hP, hsup⟩
      · have hrr : rr = (s, e) := by simpa using hr
        subst hrr
        by_cases hfr : n ∈ fresh
        · have h4 := hf4 n hfr
          have h3 := hf3 n hfr
          have htd : (blk n).1 < d := by
            rcases Nat.eq_or_lt_of_le h3.1 with he | hlt
            · exact absurd (h3.2 he) hnnode
            · exact hlt
          exact fresh_node_not_sup N d (blk n).1 (blk n).2 s e (by omega) htd hbde
            h4.1 h4.2 hsup
        · rcases hf0 n hn hfr with h00 | hw
          · exact hn0 h00
          · exact old_node_not_sup N P s e hwfP hdisj (blk n) hw hsup
  · intro n hn hn0 hnrf
    by_cases hnnode : n = node
    · subst hnnode
      rw [getN_setN_ne st p _ (fun hc => hpne hc)]
      exact hnall
    · by_cases hnp : p = n
      · subst hnp
        have hrfp : refBy st p := by
          by_contra hcon
          have hall := hB.unref p hpl hn0 hcon
          unfold slotV at hjslot
          rw [hall, getD_replicate_none] at hjslot
          exact Option.noConfusion hjslot
        exact absurd ((hrefEq p hn0 hnnode).mpr hrfp) hnrf
      · rw [getN_setN_ne st p _ hnp]
        have hnrfold : ¬refBy st n := fun h => hnrf ((hrefEq n hn0 hnnode).mpr h)
        exact hB.unref n hn hn0 hnrfold
  · intro n hn hn0
    obtain ⟨pn, hpn, huqn⟩ := hB.uniqRef n hn hn0
    refine ⟨pn, ?_, ?_⟩
    · rw [parents_setN_children st p _ n hp_lt]
      exact hpn
    · intro q hq jj hsl
      by_cases hqp : p = q
      · subst hqp
        rw [hslot'p] at hsl
        split at hsl
        · exact absurd (Option.some.inj hsl).symm hn0
        · exact huqn p hpl jj hsl
      · rw [slotV_setN_ne st p _ q jj (Ne.symm hqp)] at hsl
        exact huqn q hq jj hsl
  · intro n hn hdn
    by_cases hnp : p = n
    · subst hnp
      have := hedge0.2.2
      exact absurd hdn (by omega)
    · rw [getN_setN_ne st p _ hnp]
      exact hB.leafNone n hn hdn

theorem getN_ge (st : St) (x : Nat) (h : st.arena.length ≤ x) : getN st x = default := by
  unfold getN
  rw [List.getD_eq_getElem?_getD, List.getElem?_eq_none h]
  rfl

theorem zero_mem_live (st : St) (h : st.live.head? = some 0) : 0 ∈ st.live := by
  cases hl : st.live with
  | nil =>
    rw [hl] at h
    exact absurd h (by simp)
  | cons a t =>
    rw [hl] at h
    have ha : a = 0 := by simpa using h
    rw [ha]
    exact List.mem_cons_self _ _

set_option maxHeartbeats 1600000 in
/-- Creating a fresh child on the descent path preserves the
construction invariant, with ghost data extended at the new id. -/
theorem create_preserve (N : Nat) (P : List (Nat × Nat)) (s e ka d : Nat)
    (hwfP : ∀ p ∈ P, p.1 ≤ p.2)
    (hdisj : ∀ p ∈ P, p.2 < s ∨ e < p.1)
    (hse : s ≤ e) (hka : 2 ^ ka ∣ s) (hke : e + 1 = s + 2 ^ ka)
    (hdlt : d < N) (hd1N : d + 1 ≤ N)
    (st : St) (node : Nat) (blk : Nat → Nat × Nat)
    (hB : BInv N P (P ++ [(s, e)]) st blk)
    (hbde : blkOf N d s = blkOf N d e)
    (hb1 : blkOf N (d + 1) s = blkOf N (d + 1) e)
    (hblkn : blk node = (d, blkOf N d s))
    (hnl : node ∈ st.live)
    (hD3 : (node = 0 ∧ d = 0) ∨ (node ≠ 0 ∧ refBy st node))
    (hnone : slotV st node (nib N d s) = none)
    (st1 : St)
    (hlive1 : st1.live = st.live ++ [st.arena.length])
    (hlen1 : st1.arena.length = st.arena.length + 1)
    (hgetL : getN st1 st.arena.length = ⟨List.replicate 16 none, [node], none⟩)
    (hslotnode : ∀ j, slotV st1 node j =
      if nib N d s = j then some st.arena.length else slotV st node j)
    (hchnode : (getN st1 node).children.length = (getN st node).children.length)
    (hparents : ∀ x, x ≠ st.arena.length →
      (getN st1 x).parents = (getN st x).parents)
    (hgetold : ∀ x, x ≠ st.arena.length → x ≠ node → getN st1 x = getN st x) :
    BInv N P (P ++ [(s, e)]) st1
      (fun x => if x = st.arena.length then (d + 1, blkOf N (d + 1) s) else blk x) := by
  have h0mem : 0 ∈ st.live := by
    have h := hB.head0
    cases hl : st.live with
    | nil =>
      rw [hl] at h
      exact absurd h (by simp)
    | cons a t =>
      rw [hl] at h
      have ha : a = 0 := by simpa using h
      rw [ha]
      exact List.mem_cons_self _ _
  have hL0 : 0 < st.arena.length := hB.bounds 0 h0mem
  have hnodeL : node ≠ st.arena.length := by
    have := hB.bounds node hnl
    omega
  have hmemold : ∀ x ∈ st.live, x ≠ st.arena.length := by
    intro x hx
    have := hB.bounds x hx
    omega
  have hslotL : ∀ j, slotV st1 st.arena.length j = none := by
    intro j
    unfold slotV
    rw [hgetL]
    exact getD_replicate_none 16 j
  have hslotold : ∀ x, x ≠ st.arena.length → x ≠ node →
      ∀ j, slotV st1 x j = slotV st x j := by
    intro x h1 h2 j
    unfold slotV
    rw [hgetold x h1 h2]
  have hrefL : refBy st1 st.arena.length := by
    refine ⟨node, ?_, nib N d s, ?_⟩
    · rw [hlive1]
      exact List.mem_append_left _ hnl
    · rw [hslotnode, if_pos rfl]
  have hrefOld : ∀ x, x ≠ st.arena.length → refBy st1 x → refBy st x := by
    rintro x hxL ⟨q, hq, j, hsl⟩
    rw [hlive1] at hq
    rcases List.mem_append.mp hq with hq' | hq'
    · by_cases hqn : node = q
      · subst hqn
        rw [hslotnode] at hsl
        split at hsl
        · exact absurd (Option.some.inj hsl).symm hxL
        · exact ⟨node, hnl, j, hsl⟩
      · rw [hslotold q (hmemold q hq') (fun hc => hqn hc.symm)] at hsl
        exact ⟨q, hq', j, hsl⟩
    · have hqL : q = st.arena.length := by simpa using hq'
      subst hqL
      rw [hslotL] at hsl
      exact Option.noConfusion hsl
  have hrefOld2 : ∀ x, x ≠ st.arena.length → refBy st x → refBy st1 x := by
    rintro x hxL ⟨q, hq, j, hsl⟩
    refine ⟨q, by rw [hlive1]; exact List.mem_append_left _ hq, j, ?_⟩
    by_cases hqn : node = q
    · subst hqn
      rw [hslotnode]
      rw [if_neg ?_]
      · exact hsl
      · intro hc
        rw [← hc] at hsl
        rw [hnone] at hsl
        exact Option.noConfusion hsl
    · rw [hslotold q (hmemold q hq) (fun hc => hqn hc.symm)]
      exact hsl
  refine ⟨?_, ?_, ?_, ?_, ?_, ?_, ?_, ?_, ?_, ?_, ?_, ?_, ?_, ?_⟩
  · rw [hlive1]
    exact head?_append_ne _ _ _ hB.head0
  · rw [hlive1]
    rw [List.nodup_append]
    refine ⟨hB.nodup, List.nodup_singleton _, ?_⟩
    intro a ha hmem
    have : a = st.arena.length := by simpa using hmem
    exact hmemold a ha this
  · intro n hn
    rw [hlive1] at hn
    rw [hlen1]
    rcases List.mem_append.mp hn with h | h
    · have := hB.bounds n h
      omega
    · have : n = st.arena.length := by simpa using h
      omega
  · rw [hparents 0 (by omega)]
    exact hB.rootPar
  · rw [if_neg (by omega)]
    exact hB.blk0
  · intro n hn
    rw [hlive1] at hn
    rcases List.mem_append.mp hn with h | h
    · by_cases hnn : node = n
      · subst hnn
        rw [hchnode]
        exact hB.chlen node hnl
      · rw [hgetold n (hmemold n h) (fun hc => hnn hc.symm)]
        exact hB.chlen n h
    · have hnL : n = st.arena.length := by simpa using h
      subst hnL
      rw [hgetL]
      rfl
  · intro n hn i mm hsl hmm0
    rw [hlive1] at hn
    rcases List.mem_append.mp hn with h | h
    · by_cases hnn : node = n
      · subst hnn
        rw [hslotnode] at hsl
        split at hsl
        · rename_i hia
          have hmL : mm = st.arena.length := (Option.some.inj hsl).symm
          subst hmL
          refine ⟨?_, ?_, ?_⟩
          · rw [hlive1]
            exact List.mem_append_right _ (by simp)
          · rw [if_pos rfl, if_neg hnodeL, hblkn]
            dsimp only
            rw [← hia, blkOf_succ N d s hdlt]
          · rw [if_neg hnodeL, hblkn]
            dsimp only
            omega
        · have hold := hB.edge node hnl i mm hsl hmm0
          have hmmL := hmemold mm hold.1
          refine ⟨?_, ?_, ?_⟩
          · rw [hlive1]
            exact List.mem_append_left _ hold.1
          · rw [if_neg hmmL, if_neg hnodeL]
            exact hold.2.1
          · rw [if_neg hnodeL]
            exact hold.2.2
      · rw [hslotold n (hmemold n h) (fun hc => hnn hc.symm)] at hsl
        have hold := hB.edge n h i mm hsl hmm0
        have hmmL := hmemold mm hold.1
        refine ⟨?_, ?_, ?_⟩
        · rw [hlive1]
          exact List.mem_append_left _ hold.1
        · rw [if_neg hmmL, if_neg (hmemold n h)]
          exact hold.2.1
        · rw [if_neg (hmemold n h)]
          exact hold.2.2
    · have hnL : n = st.arena.length := by simpa using h
      subst hnL
      rw [hslotL] at hsl
      exact absurd hsl (by simp)
  · intro n hn i hsl x hx1 hx2
    rw [hlive1] at hn
    rcases List.mem_append.mp hn with h | h
    · by_cases hnn : node = n
      · subst hnn
        rw [hslotnode] at hsl
        split at hsl
        · exact absurd (Option.some.inj hsl).symm (by omega)
        · rw [if_neg hnodeL] at hx1 hx2
          exact hB.sound node hnl i hsl x hx1 hx2
      · rw [hslotold n (hmemold n h) (fun hc => hnn hc.symm)] at hsl
        rw [if_neg (hmemold n h)] at hx1 hx2
        exact hB.sound n h i hsl x hx1 hx2
    · have hnL : n = st.arena.length := by simpa using h
      subst hnL
      rw [hslotL] at hsl
      exact absurd hsl (by simp)
  · intro n hn hn0 hrf hdl
    rw [hlive1] at hn
    rcases List.mem_append.mp hn with h | h
    · have hnL := hmemold n h
      rw [if_neg hnL] at hdl
      rintro ⟨rr, hrrm, hsup⟩
      rw [if_neg hnL] at hsup
      exact hB.notCov n h hn0 (hrefOld n hnL hrf) hdl ⟨rr, hrrm, hsup⟩
    · have hnL : n = st.arena.length := by simpa using h
      subst hnL
      rintro ⟨rr, hrrm, hsup⟩
      rw [if_pos rfl] at hsup
      obtain ⟨g1, g2⟩ := hsup
      dsimp only at g1 g2
      have hds := desc_block_sup N d s e hse hb1
      have hwf := hwfP rr hrrm
      have hdd := hdisj rr hrrm
      omega
  · intro n hn hn0 hnrf
    rw [hlive1] at hn
    rcases List.mem_append.mp hn with h | h
    · have hnL := hmemold n h
      by_cases hnn : node = n
      · subst hnn
        rcases hD3 with ⟨h00, _⟩ | ⟨_, hrfn⟩
        · exact absurd h00 hn0
        · exact absurd (hrefOld2 node hnL hrfn) hnrf
      · rw [hgetold n hnL (fun hc => hnn hc.symm)]
        refine hB.unref n h hn0 ?_
        intro hcon
        exact hnrf (hrefOld2 n hnL hcon)
    · have hnL : n = st.arena.length := by simpa using h
      subst hnL
      exact absurd hrefL hnrf
  · intro n hn hn0
    rw [hlive1] at hn
    rcases List.mem_append.mp hn with h | h
    · have hnL := hmemold n h
      obtain ⟨pn, hpn, huqn⟩ := hB.uniqRef n h hn0
      refine ⟨pn, ?_, ?_⟩
      · rw [hparents n hnL]
        exact hpn
      · intro q hq j hsl
        rw [hlive1] at hq
        rcases List.mem_append.mp hq with hq' | hq'
        · by_cases hqn : node = q
          · subst hqn
            rw [hslotnode] at hsl
            split at hsl
            · exact absurd (Option.some.inj hsl).symm hnL
            · exact huqn node hnl j hsl
          · rw [hslotold q (hmemold q hq') (fun hc => hqn hc.symm)] at hsl
            exact huqn q hq' j hsl
        · have hqL : q = st.arena.length := by simpa using hq'
          subst hqL
          rw [hslotL] at hsl
          exact absurd hsl (by simp)
    · have hnL : n = st.arena.length := by simpa using h
      subst hnL
      refine ⟨node, ?_, ?_⟩
      · rw [hgetL]
      · intro q hq j hsl
        rw [hlive1] at hq
        rcases List.mem_append.mp hq with hq' | hq'
        · by_cases hqn : node = q
          · exact hqn.symm
          · rw [hslotold q (hmemold q hq') (fun hc => hqn hc.symm)] at hsl
            have hold := hB.edge q hq' j st.arena.length hsl (by omega)
            have := hB.bounds _ hold.1
            omega
        · have hqL : q = st.arena.length := by simpa using hq'
          subst hqL
          rw [hslotL] at hsl
          exact absurd hsl (by simp)
  · intro n hn hn0
    rw [hlive1] at hn
    rcases List.mem_append.mp hn with h | h
    · have hnL := hmemold n h
      rw [if_neg hnL]
      exact hB.wit n h hn0
    · have hnL : n = st.arena.length := by simpa using h
      subst hnL
      rw [if_pos rfl]
      refine ⟨(s, e), List.mem_append_right _ (by simp), ?_, ?_⟩
      · exact (desc_block_sup N d s e hse hb1).1
      · exact (desc_block_sup N d s e hse hb1).2
  · intro n hn hdn
    rw [hlive1] at hn
    rcases List.mem_append.mp hn with h | h
    · have hnL := hmemold n h
      rw [if_neg hnL] at hdn
      by_cases hnn : node = n
      · subst hnn
        rw [hblkn] at hdn
        dsimp only at hdn
        exact absurd hdn (by omega)
      · rw [hgetold n hnL (fun hc => hnn hc.symm)]
        exact hB.leafNone n h hdn
    · have hnL : n = st.arena.length := by simpa using h
      subst hnL
      rw [hgetL]
  · intro n hn
    rw [hlive1] at hn
    rcases List.mem_append.mp hn with h | h
    · rw [if_neg (hmemold n h)]
      exact hB.depthLe n h
    · have hnL : n = st.arena.length := by simpa using h
      subst hnL
      rw [if_pos rfl]
      exact hd1N

set_option maxHeartbeats 1600000 in
/-- One `set_range` walk preserves the construction invariant: from a
state satisfying `BInv` for the processed ranges `P`, a successful walk
for the disjoint aligned range `(s, e)` reaches a state satisfying
`BInv` for `P ++ [(s, e)]`. -/
theorem go_preserve (N : Nat) (P : List (Nat × Nat)) (s e ka : Nat)
    (hwfP : ∀ p ∈ P, p.1 ≤ p.2)
    (hdisj : ∀ p ∈ P, p.2 < s ∨ e < p.1)
    (hse : s ≤ e)
    (hka : 2 ^ ka ∣ s) (hke : e + 1 = s + 2 ^ ka) :
    ∀ m d : Nat, d + m = N →
    ∀ (st : St) (node : Nat) (blk : Nat → Nat × Nat) (fresh : List Nat),
    BInv N P (P ++ [(s, e)]) st blk →
    blkOf N d s = blkOf N d e →
    blk node = (d, blkOf N d s) →
    node ∈ st.live →
    ((node = 0 ∧ d = 0) ∨ (node ≠ 0 ∧ refBy st node)) →
    (∀ x ∈ st.live, x ∉ fresh → x = 0 ∨ ∃ rr ∈ P, subOf N (blk x) rr) →
    (∀ x ∈ fresh, (blk x).1 ≤ d ∧ ((blk x).1 = d → x = node)) →
    (∀ x ∈ fresh, blockLo N (blk x).1 (blk x).2 ≤ s ∧
        e < blockLo N (blk x).1 (blk x).2 + 16 ^ (N - (blk x).1)) →
    (∀ x ∈ fresh, x ∈ st.live) →
    (node ∈ fresh → (getN st node).children = List.replicate 16 none) →
    ∀ st', set_range_go st node ((nibsFrom N d s).zip (nibsFrom N d e)) = .ok st' →
    ∃ blk', BInv N (P ++ [(s, e)]) (P ++ [(s, e)]) st' blk' := by
  intro m
  induction m with
  | zero =>
    intro d hdN st node blk fresh hB hbde hblkn hnl hD3 hf0 hf3 hf4 hf5 hf1 st' hrun
    have hdeq : d = N := by omega
    subst hdeq
    rw [nibsFrom_end, nibsFrom_end] at hrun
    cases hrun
    refine ⟨blk, hB.head0, hB.nodup, hB.bounds, hB.rootPar, hB.blk0, hB.chlen,
      hB.edge, ?_, ?_, hB.unref, hB.uniqRef, hB.wit, hB.leafNone, hB.depthLe⟩
    · intro n hn i hs0 x h1 h2
      obtain ⟨rr, hrr, hx⟩ := hB.sound n hn i hs0 x h1 h2
      exact ⟨rr, List.mem_append_left _ hrr, hx⟩
    · intro n hn hn0 hrf hdl
      rintro ⟨rr, hrrm, hsup⟩
      rcases List.mem_append.mp hrrm with hP | hr
      · exact hB.notCov n hn hn0 hrf hdl ⟨rr, hP, hsup⟩
      · have hrr : rr = (s, e) := by simpa using hr
        subst hrr
        by_cases hfr : n ∈ fresh
        · have h4 := hf4 n hfr
          exact fresh_node_not_sup d d (blk n).1 (blk n).2 s e (by omega) hdl
            hbde h4.1 h4.2 hsup
        · rcases hf0 n hn hfr with h0 | hw
          · exact hn0 h0
          · exact old_node_not_sup d P s e hwfP hdisj (blk n) hw hsup
  | succ m ih =>
    intro d hdN st node blk fresh hB hbde hblkn hnl hD3 hf0 hf3 hf4 hf5 hf1 st' hrun
    have hdlt : d < N := by omega
    rw [nibsFrom_cons N d s hdlt, nibsFrom_cons N d e hdlt, List.zip_cons_cons,
      set_range_go] at hrun
    split at hrun
    · rename_i hab
      split at hrun
      · rename_i hnone
        have hb1 : blkOf N (d + 1) s = blkOf N (d + 1) e := by
          rw [blk_succ_eq_iff N d s e hdlt]
          exact ⟨hbde, hab⟩
        have hnlt := hB.bounds node hnl
        have hnode_lt_base : node < (newNode st (some node)).1.arena.length := by
          rw [newNode_arena_len]
          omega
        have hL0 : 0 < st.arena.length := hB.bounds 0 (zero_mem_live st hB.head0)
        have hnodeL : node ≠ st.arena.length := by omega
        have hlive1 : (setN (newNode st (some node)).1 node
            { getN (newNode st (some node)).1 node with
              children := (getN (newNode st (some node)).1 node).children.set
                (nib N d s) (some (newNode st (some node)).2) }).live =
            st.live ++ [st.arena.length] := rfl
        have hlen1 : (setN (newNode st (some node)).1 node
            { getN (newNode st (some node)).1 node with
              children := (getN (newNode st (some node)).1 node).children.set
                (nib N d s) (some (newNode st (some node)).2) }).arena.length =
            st.arena.length + 1 := by
          rw [setN_arena_length, newNode_arena_len]
        have hgetL : getN (setN (newNode st (some node)).1 node
            { getN (newNode st (some node)).1 node with
              children := (getN (newNode st (some node)).1 node).children.set
                (nib N d s) (some (newNode st (some node)).2) }) st.arena.length =
            ⟨List.replicate 16 none, [node], none⟩ := by
          rw [getN_setN_ne _ node _ hnodeL]
          exact getN_newNode_new st (some node)
        have hslotnode : ∀ j, slotV (setN (newNode st (some node)).1 node
            { getN (newNode st (some node)).1 node with
              children := (getN (newNode st (some node)).1 node).children.set
                (nib N d s) (some (newNode st (some node)).2) }) node j =
            if nib N d s = j then some st.arena.length else slotV st node j := by
          intro j
          rw [slotV_setN_self _ node _ j hnode_lt_base]
          dsimp only
          rw [getN_newNode_old st (some node) node hnlt, getD_set]
          have hchn := hB.chlen node hnl
          have hnib := nib_lt N d s
          by_cases hj : nib N d s = j
          · rw [if_pos ⟨hj, by omega⟩, if_pos hj]
            rfl
          · rw [if_neg (fun hc => hj hc.1), if_neg hj]
            rfl
        have hchnode : (getN (setN (newNode st (some node)).1 node
            { getN (newNode st (some node)).1 node with
              children := (getN (newNode st (some node)).1 node).children.set
                (nib N d s) (some (newNode st (some node)).2) }) node).children.length =
            (getN st node).children.length := by
          rw [getN_setN_lt _ node _ hnode_lt_base]
          dsimp only
          rw [List.length_set, getN_newNode_old st (some node) node hnlt]
        have hparents : ∀ x, x ≠ st.arena.length →
            (getN (setN (newNode st (some node)).1 node
              { getN (newNode st (some node)).1 node with
                children := (getN (newNode st (some node)).1 node).children.set
                  (nib N d s) (some (newNode st (some node)).2) }) x).parents =
            (getN st x).parents := by
          intro x hxL
          rw [parents_setN_children _ node _ x hnode_lt_base]
          by_cases hx : x < st.arena.length
          · rw [getN_newNode_old st (some node) x hx]
          · rw [getN_ge st x (by omega), getN_ge _ x (by rw [newNode_arena_len]; omega)]
        have hgetold : ∀ x, x ≠ st.arena.length → x ≠ node →
            getN (setN (newNode st (some node)).1 node
              { getN (newNode st (some node)).1 node with
                children := (getN (newNode st (some node)).1 node).children.set
                  (nib N d s) (some (newNode st (some node)).2) }) x = getN st x := by
          intro x hxL hxn
          rw [getN_setN_ne _ node _ (fun hc => hxn hc.symm)]
          by_cases hx : x < st.arena.length
          · exact getN_newNode_old st (some node) x hx
          · rw [getN_ge st x (by omega), getN_ge _ x (by rw [newNode_arena_len]; omega)]
        have hBnew := create_preserve N P s e ka d hwfP hdisj hse hka hke hdlt
          (by omega) st node blk hB hbde hb1 hblkn hnl hD3 hnone _
          hlive1 hlen1 hgetL hslotnode hchnode hparents hgetold
        refine ih (d + 1) (by omega) _ st.arena.length
          (fun x => if x = st.arena.length then (d + 1, blkOf N (d + 1) s) else blk x)
          (fresh ++ [st.arena.length]) hBnew hb1 (by dsimp only; exact if_pos rfl)
          ?_ ?_ ?_ ?_ ?_ ?_ ?_ st' hrun
        · rw [hlive1]
          exact List.mem_append_right _ (by simp)
        · refine Or.inr ⟨by omega, node, ?_, nib N d s, ?_⟩
          · rw [hlive1]
            exact List.mem_append_left _ hnl
          · rw [hslotnode, if_pos rfl]
        · intro x hx hxf
          rw [hlive1] at hx
          dsimp only
          rcases List.mem_append.mp hx with h | h
          · have hxL : x ≠ st.arena.length := by
              have := hB.bounds x h
              omega
            have hxfr : x ∉ fresh := fun hc => hxf (List.mem_append_left _ hc)
            rcases hf0 x h hxfr with h0 | ⟨rr, hrr, hsub⟩
            · exact Or.inl h0
            · refine Or.inr ⟨rr, hrr, ?_⟩
              rw [if_neg hxL]
              exact hsub
          · exfalso
            have hxL : x = st.arena.length := by simpa using h
            exact hxf (List.mem_append_right _ (by rw [hxL]; simp))
        · intro x hx
          dsimp only
          rcases List.mem_append.mp hx with h | h
          · have hxL : x ≠ st.arena.length := by
              have := hB.bounds x (hf5 x h)
              omega
            rw [if_neg hxL]
            have h3 := hf3 x h
            exact ⟨by omega, fun hc => absurd hc (by omega)⟩
          · have hxL : x = st.arena.length := by simpa using h
            subst hxL
            rw [if_pos rfl]
            exact ⟨Nat.le_refl _, fun _ => rfl⟩
        · intro x hx
          dsimp only
          rcases List.mem_append.mp hx with h | h
          · have hxL : x ≠ st.arena.length := by
              have := hB.bounds x (hf5 x h)
              omega
            rw [if_neg hxL]
            exact hf4 x h
          · have hxL : x = st.arena.length := by simpa using h
            subst hxL
            rw [if_pos rfl]
            dsimp only
            have hds := desc_block_sup N d s e hse hb1
            exact ⟨hds.1, hds.2⟩
        · intro x hx
          rw [hlive1]
          rcases List.mem_append.mp hx with h | h
          · exact List.mem_append_left _ (hf5 x h)
          · exact List.mem_append_right _ h
        · intro hLf
          rw [hgetL]
      · rename_i c hsome
        have hslot : slotV st node (nib N d s) = some c := hsome
        have hsucc_s := blkOf_succ N d s hdlt
        have hb1 : blkOf N (d + 1) s = blkOf N (d + 1) e := by
          rw [blk_succ_eq_iff N d s e hdlt]
          exact ⟨hbde, hab⟩
        have hc0 : c ≠ 0 := by
          rintro rfl
          have hsnd := hB.sound node hnl (nib N d s) hslot
          rw [hblkn] at hsnd
          dsimp only at hsnd
          rw [← hsucc_s] at hsnd
          have hms := blk_mem N (d + 1) s
          obtain ⟨rr, hrr, hx1, hx2⟩ := hsnd s hms.1 hms.2
          have := hdisj rr hrr
          omega
        have hedge := hB.edge node hnl (nib N d s) c hslot hc0
        rw [hblkn] at hedge
        dsimp only at hedge
        rw [← hsucc_s] at hedge
        refine ih (d + 1) (by omega) st c blk fresh hB hb1 hedge.2.1 hedge.1
          (Or.inr ⟨hc0, node, hnl, nib N d s, hslot⟩) hf0 ?_ hf4 hf5 ?_ st' hrun
        · intro x hx
          have h3 := hf3 x hx
          exact ⟨by omega, fun hxd => by omega⟩
        · intro hcf
          have h3 := hf3 c hcf
          rw [hedge.2.1] at h3
          dsimp only at h3
          exact absurd h3.1 (by omega)
    · rename_i hab
      split at hrun
      · rename_i h015
        split at hrun
        · exact absurd hrun (by simp)
        · rename_i p ptail hpar
          cases hrun
          refine special_preserve N P s e ka d hwfP hdisj hse hka hke hdlt st node blk
            fresh hB hbde hblkn hnl hD3 hf0 hf3 hf4 hf1 h015.1 h015.2 p ptail hpar _
            (by simp) ?_
          intro j
          rw [getD_map_none (by rfl) _ j]
          rfl
      · rename_i h015
        cases hrun
        refine fill_preserve N P s e ka d hwfP hdisj hse hka hke hdlt st node blk fresh
          hB hbde hblkn hnl hD3 hf0 hf3 hf4 hab h015 _ (fill_foldl_length _ _ _) ?_
        intro j
        rw [fill_foldl_getD]
        have hleab := nib_mono N d s e hdlt hse hbde
        have hblt := nib_lt N d e
        have hchn := hB.chlen node hnl
        by_cases hj : nib N d s ≤ j ∧ j ≤ nib N d e
        · rw [if_pos ⟨hj.1, by omega, by omega⟩, if_pos hj]
        · have hneg : ¬(nib N d s ≤ j ∧
              j < nib N d s + (nib N d e + 1 - nib N d s) ∧
              j < (getN st node).children.length) := by
            rintro ⟨hc1, hc2, hc3⟩
            exact hj ⟨hc1, by omega⟩
          rw [if_neg hneg, if_neg hj]
          rfl

theorem BInv_wit_append (N : Nat) (P : List (Nat × Nat)) (r : Nat × Nat) (st : St)
    (blk : Nat → Nat × Nat) (h : BInv N P P st blk) : BInv N P (P ++ [r]) st blk :=
  ⟨h.head0, h.nodup, h.bounds, h.rootPar, h.blk0, h.chlen, h.edge, h.sound, h.notCov,
   h.unref, h.uniqRef,
   fun n hn hn0 => by
     obtain ⟨rr, hrr, hs⟩ := h.wit n hn hn0
     exact ⟨rr, List.mem_append_left _ hrr, hs⟩,
   h.leafNone, h.depthLe⟩

/-- The fresh root-only state satisfies the construction invariant for
an empty processed list. -/
theorem BInv_init (N : Nat) : BInv N [] [] initSt (fun _ => (0, 0)) := by
  have hmem : ∀ n, n ∈ initSt.live → n = 0 := by
    intro n hn
    simpa [initSt] using hn
  have hslot : ∀ i, slotV initSt 0 i = none := by
    intro i
    show (List.replicate 16 (none : Option Nat)).getD i none = none
    exact getD_replicate_none 16 i
  refine ⟨rfl, ?_, ?_, rfl, rfl, ?_, ?_, ?_, ?_, ?_, ?_, ?_, ?_, ?_⟩
  · exact List.nodup_singleton 0
  · intro n hn
    rw [hmem n hn]
    decide
  · intro n hn
    rw [hmem n hn]
    rfl
  · intro n hn i m hs hm0
    rw [hmem n hn, hslot i] at hs
    exact absurd hs (by simp)
  · intro n hn i hs
    rw [hmem n hn, hslot i] at hs
    exact absurd hs (by simp)
  · intro n hn hn0
    exact absurd (hmem n hn) hn0
  · intro n hn hn0
    exact absurd (hmem n hn) hn0
  · intro n hn hn0
    exact absurd (hmem n hn) hn0
  · intro n hn hn0
    exact absurd (hmem n hn) hn0
  · intro n hn hd
    rw [hmem n hn]
    rfl
  · intro n hn
    exact Nat.zero_le N

set_option maxHeartbeats 800000 in
/-- One whole `set_range` call preserves the boundary invariant. -/
theorem set_range_preserve (N : Nat) (P : List (Nat × Nat)) (s e : Nat)
    (hwfP : ∀ p ∈ P, p.1 ≤ p.2)
    (hdisj : ∀ p ∈ P, p.2 < s ∨ e < p.1)
    (hwf : s ≤ e) (hbnd : e < 16 ^ N) (hal : alignedRange (s, e))
    (st : St) (blk : Nat → Nat × Nat) (hB : BInv N P P st blk) :
    ∀ st', set_range (4 * N) st s e = .ok st' →
    ∃ blk', BInv N (P ++ [(s, e)]) (P ++ [(s, e)]) st' blk' := by
  intro st' h
  unfold set_range at h
  rw [if_pos hwf] at h
  split at h
  · rw [make_nibbles_nat, make_nibbles_nat] at h
    obtain ⟨ka, hka, hke⟩ := hal
    have hs16 : s < 16 ^ N := by omega
    have hbz : blkOf N 0 s = blkOf N 0 e := by
      rw [blkOf_zero N s hs16, blkOf_zero N e hbnd]
    have hblk0 : (fun _ => ((0 : Nat), (0 : Nat))) 0 = (0, blkOf N 0 s) := by
      rw [blkOf_zero N s hs16]
    refine go_preserve N P s e ka hwfP hdisj hwf hka hke N 0 (by omega) st 0 blk []
      (BInv_wit_append N P (s, e) st blk hB) hbz ?_ (zero_mem_live st hB.head0)
      (Or.inl ⟨rfl, rfl⟩) ?_
      (fun x hx => absurd hx (List.not_mem_nil x))
      (fun x hx => absurd hx (List.not_mem_nil x))
      (fun x hx => absurd hx (List.not_mem_nil x))
      (fun hc => absurd hc (List.not_mem_nil 0)) st' h
    · rw [hB.blk0, blkOf_zero N s hs16]
    · intro x hx hnf
      by_cases hx0 : x = 0
      · exact Or.inl hx0
      · obtain ⟨rr, hrr, hsub⟩ := hB.wit x hx hx0
        exact Or.inr ⟨rr, hrr, hsub⟩
  · exact absurd h (by simp)

/-- The whole construction loop establishes the invariant for the full
range list. -/
theorem build_inv_go (N : Nat) : ∀ (Rr P : List (Nat × Nat)) (st : St)
    (blk : Nat → Nat × Nat),
    BInv N P P st blk →
    (∀ r ∈ Rr, r.1 ≤ r.2 ∧ r.2 < 16 ^ N ∧ alignedRange r) →
    (∀ p ∈ P, p.1 ≤ p.2) →
    (∀ p ∈ P, ∀ r ∈ Rr, p.2 < r.1) →
    List.Pairwise (fun a b => a.2 < b.1) Rr →
    ∀ st', Rr.foldlM (fun st r => set_range (4 * N) st r.1 r.2) st = .ok st' →
    ∃ blk', BInv N (P ++ Rr) (P ++ Rr) st' blk' := by
  intro Rr
  induction Rr with
  | nil =>
    intro P st blk hB hR hwfP hPR hpw st' h
    cases h
    rw [List.append_nil]
    exact ⟨blk, hB⟩
  | cons r Rr ih =>
    intro P st blk hB hR hwfP hPR hpw st' h
    rw [List.foldlM_cons] at h
    obtain ⟨st1, h1, h2⟩ := except_bind_ok _ _ _ h
    obtain ⟨hr1, hr2, hr3⟩ := hR r (List.mem_cons_self r Rr)
    obtain ⟨blk1, hB1⟩ := set_range_preserve N P r.1 r.2 hwfP
      (fun p hp => Or.inl (hPR p hp r (List.mem_cons_self r Rr))) hr1 hr2 hr3
      st blk hB st1 h1
    have hpw' := (List.pairwise_cons.mp hpw)
    have hres := ih (P ++ [(r.1, r.2)]) st1 blk1 hB1
      (fun r' hr' => hR r' (List.mem_cons_of_mem r hr'))
      ?_ ?_ hpw'.2 st' h2
    · obtain ⟨blk', hB'⟩ := hres
      refine ⟨blk', ?_⟩
      have hassoc : P ++ [(r.1, r.2)] ++ Rr = P ++ r :: Rr := by
        rw [List.append_assoc]
        rfl
      rw [hassoc] at hB'
      exact hB'
    · intro p hp
      rcases List.mem_append.mp hp with h | h
      · exact hwfP p h
      · have : p = (r.1, r.2) := by simpa using h
        rw [this]
        exact hr1
    · intro p hp r' hr'
      rcases List.mem_append.mp hp with h | h
      · exact hPR p h r' (List.mem_cons_of_mem r hr')
      · have hpe : p = (r.1, r.2) := by simpa using h
        rw [hpe]
        exact hpw'.1 r' hr'

/-- After a successful `build`, the construction invariant holds for the
whole input list. -/
theorem build_inv (N : Nat) (R : List (Nat × Nat))
    (hR : ∀ r ∈ R, r.1 ≤ r.2 ∧ r.2 < 16 ^ N ∧ alignedRange r)
    (hpw : List.Pairwise (fun a b => a.2 < b.1) R)
    (st' : St) (h : build (4 * N) R = .ok st') :
    ∃ blk, BInv N R R st' blk := by
  have := build_inv_go N R [] initSt (fun _ => (0, 0)) (BInv_init N) hR
    (fun p hp => absurd hp (List.not_mem_nil p))
    (fun p hp => absurd hp (List.not_mem_nil p)) hpw st' h
  simpa using this

theorem getD_replicate {α : Type} (n : Nat) (a d : α) (i : Nat) :
    (List.replicate n a).getD i d = if i < n then a else d := by
  rw [List.getD_eq_getElem?_getD, List.getElem?_replicate]
  split <;> rfl

/-- Inserting the full address space crashes `set_range`: the special
case fires at the parentless root (`parents[0]` raises IndexError). -/
theorem set_range_full_err (N : Nat) (hN : 0 < N) (st : St)
    (hroot : (getN st 0).parents = []) (st' : St)
    (h : set_range (4 * N) st 0 (16 ^ N - 1) = .ok st') : False := by
  unfold set_range at h
  rw [if_pos (Nat.zero_le _)] at h
  split at h
  · rw [make_nibbles_nat, make_nibbles_nat,
      nibsFrom_cons N 0 0 hN, nibsFrom_cons N 0 (16 ^ N - 1) hN,
      List.zip_cons_cons, nib_head_zero, nib_head_top N hN, set_range_go] at h
    rw [if_neg (by omega), if_pos ⟨rfl, rfl⟩, hroot] at h
    have h2 : (Except.error Err.indexError : Except Err St) = .ok st' := h
    exact absurd h2 (by simp)
  · exact absurd h (by simp)

/-- A successful build never processed the full-space range. -/
theorem build_not_full_go (N : Nat) (hN : 0 < N) : ∀ (Rr P : List (Nat × Nat))
    (st : St) (blk : Nat → Nat × Nat),
    BInv N P P st blk →
    (∀ r ∈ Rr, r.1 ≤ r.2 ∧ r.2 < 16 ^ N ∧ alignedRange r) →
    (∀ p ∈ P, p.1 ≤ p.2) →
    (∀ p ∈ P, ∀ r ∈ Rr, p.2 < r.1) →
    List.Pairwise (fun a b => a.2 < b.1) Rr →
    ∀ st', Rr.foldlM (fun st r => set_range (4 * N) st r.1 r.2) st = .ok st' →
    (0, 16 ^ N - 1) ∉ Rr := by
  intro Rr
  induction Rr with
  | nil =>
    intro P st blk hB hR hwfP hPR hpw st' h
    exact List.not_mem_nil _
  | cons r Rr ih =>
    intro P st blk hB hR hwfP hPR hpw st' h
    rw [List.foldlM_cons] at h
    obtain ⟨st1, h1, h2⟩ := except_bind_ok _ _ _ h
    obtain ⟨hr1, hr2, hr3⟩ := hR r (List.mem_cons_self r Rr)
    intro hmem
    rcases List.mem_cons.mp hmem with hflat | htail
    · rw [← hflat] at h1
      exact set_range_full_err N hN st hB.rootPar st1 h1
    · obtain ⟨blk1, hB1⟩ := set_range_preserve N P r.1 r.2 hwfP
        (fun p hp => Or.inl (hPR p hp r (List.mem_cons_self r Rr))) hr1 hr2 hr3
        st blk hB st1 h1
      have hpw' := (List.pairwise_cons.mp hpw)
      refine ih (P ++ [(r.1, r.2)]) st1 blk1 hB1
        (fun r' hr' => hR r' (List.mem_cons_of_mem r hr')) ?_ ?_ hpw'.2 st' h2 htail
      · intro p hp
        rcases List.mem_append.mp hp with hh | hh
        · exact hwfP p hh
        · have : p = (r.1, r.2) := by simpa using hh
          rw [this]
          exact hr1
      · intro p hp r' hr'
        rcases List.mem_append.mp hp with hh | hh
        · exact hPR p hh r' (List.mem_cons_of_mem r hr')
        · have hpe : p = (r.1, r.2) := by simpa using hh
          rw [hpe]
          exact hpw'.1 r' hr'

set_option maxHeartbeats 800000 in
/-- After a successful build of collapsed ranges, no live node has all
16 slots pointing at the root: its block would be covered by a single
input range, which either is the impossible full space (for the root)
or contradicts the not-covered invariant (for any other node). -/
theorem build_no_all_root (N : Nat) (R : List (Nat × Nat)) (st : St)
    (blk : Nat → Nat × Nat) (hB : BInv N R R st blk)
    (hR : ∀ r ∈ R, r.1 ≤ r.2 ∧ r.2 < 16 ^ N ∧ alignedRange r)
    (hnb : noBuddy R) (hfull : (0, 16 ^ N - 1) ∉ R) :
    ∀ n ∈ st.live, (getN st n).children ≠ List.replicate 16 (some 0) := by
  intro n hn hall
  have hslot : ∀ i, i < 16 → slotV st n i = some 0 := by
    intro i hi
    unfold slotV
    rw [hall, getD_replicate, if_pos hi]
  -- the node's whole block is covered by the union of the ranges
  have hcov : ∀ x, (blk n).2 * 2 ^ (4 * (N - (blk n).1)) ≤ x →
      x < ((blk n).2 + 1) * 2 ^ (4 * (N - (blk n).1)) → inRanges R x := by
    intro x hx1 hx2
    rw [← pow16_as_pow2] at hx1 hx2
    have hxb : blkOf N (blk n).1 x = (blk n).2 := by
      refine blkOf_eq_of_mem N (blk n).1 (blk n).2 x ?_ ?_
      · exact hx1
      · have : ((blk n).2 + 1) * 16 ^ (N - (blk n).1) =
            (blk n).2 * 16 ^ (N - (blk n).1) + 16 ^ (N - (blk n).1) := by ring
        unfold blockLo
        omega
    have hdn : (blk n).1 < N := by
      have hle := hB.depthLe n hn
      rcases Nat.eq_or_lt_of_le hle with he | hlt
      · have := hB.leafNone n hn he
        rw [this] at hall
        have h0 : (List.replicate 16 (none : Option Nat)).getD 0 none =
            (List.replicate 16 (some 0 : Option Nat)).getD 0 none := by rw [hall]
        rw [getD_replicate, getD_replicate] at h0
        simp at h0
      · exact hlt
    have hnib := nib_lt N (blk n).1 x
    have hsnd := hB.sound n hn (nib N (blk n).1 x)
      (hslot (nib N (blk n).1 x) hnib) x
    have hx16 : blkOf N ((blk n).1 + 1) x = 16 * (blk n).2 + nib N (blk n).1 x := by
      rw [blkOf_succ N (blk n).1 x hdn, hxb]
    have hm := blk_mem N ((blk n).1 + 1) x
    rw [hx16] at hm
    exact hsnd hm.1 hm.2
  have hal : ∀ r ∈ R, alignedRange r := fun r hr => (hR r hr).2.2
  obtain ⟨rr, hrrm, hrr1, hrr2⟩ :=
    cover_single R hal hnb (4 * (N - (blk n).1)) (blk n).2 hcov
  rw [← pow16_as_pow2] at hrr1 hrr2
  by_cases hn0 : n = 0
  · subst hn0
    rw [hB.blk0] at hrr1 hrr2
    dsimp only at hrr1 hrr2
    have hrb := (hR rr hrrm).2.1
    have hrw := (hR rr hrrm).1
    have hp16 := pow16_pos N
    obtain ⟨a1, a2⟩ := rr
    dsimp only at hrr1 hrr2 hrb hrw
    have ha1 : a1 = 0 := by omega
    have ha2 : a2 = 16 ^ N - 1 := by
      have : (0 + 1) * 16 ^ (N - 0) = 16 ^ N := by
        rw [Nat.one_mul, Nat.sub_zero]
      omega
    rw [ha1, ha2] at hrrm
    exact hfull hrrm
  · have hrf : refBy st n := by
      by_contra hcon
      have := hB.unref n hn hn0 hcon
      rw [this] at hall
      have h0 : (List.replicate 16 (none : Option Nat)).getD 0 none =
          (List.replicate 16 (some 0 : Option Nat)).getD 0 none := by rw [hall]
      rw [getD_replicate, getD_replicate] at h0
      simp at h0
    have hdn : (blk n).1 < N := by
      have hle := hB.depthLe n hn
      rcases Nat.eq_or_lt_of_le hle with he | hlt
      · have := hB.leafNone n hn he
        rw [this] at hall
        have h0 : (List.replicate 16 (none : Option Nat)).getD 0 none =
            (List.replicate 16 (some 0 : Option Nat)).getD 0 none := by rw [hall]
        rw [getD_replicate, getD_replicate] at h0
        simp at h0
      · exact hlt
    refine hB.notCov n hn hn0 hrf hdn ⟨rr, hrrm, ?_, ?_⟩
    · exact hrr1
    · have : ((blk n).2 + 1) * 16 ^ (N - (blk n).1) =
          (blk n).2 * 16 ^ (N - (blk n).1) + 16 ^ (N - (blk n).1) := by ring
      unfold blockLo
      omega

theorem childHt_congr (f g : Nat → Nat) (cs : List (Option Nat))
    (h : ∀ j, some j ∈ cs → j ≠ 0 → f j = g j) : childHt f cs = childHt g cs := by
  induction cs with
  | nil => rfl
  | cons c cs ih =>
    unfold childHt
    rw [List.foldr_cons, List.foldr_cons]
    have ih' := ih (fun j hj hj0 => h j (List.mem_cons_of_mem c hj) hj0)
    unfold childHt at ih'
    rw [ih']
    cases c with
    | none => rfl
    | some j =>
      by_cases hj : j = 0
      · rw [hj]
        rfl
      · dsimp only
        rw [if_neg hj, if_neg hj, h j (List.mem_cons_self _ _) hj]

theorem childHt_ge (f : Nat → Nat) (cs : List (Option Nat)) (j : Nat)
    (hm : some j ∈ cs) (hj : j ≠ 0) : f j + 1 ≤ childHt f cs := by
  induction cs with
  | nil => exact absurd hm (List.not_mem_nil _)
  | cons c cs ih =>
    unfold childHt
    rw [List.foldr_cons]
    rcases List.mem_cons.mp hm with he | hm'
    · rw [← he]
      dsimp only
      rw [if_neg hj]
      exact Nat.le_max_left _ _
    · have := ih hm'
      unfold childHt at this
      cases c with
      | none => exact this
      | some j' =>
        dsimp only
        by_cases hj' : j' = 0
        · rw [if_pos hj']
          exact this
        · rw [if_neg hj']
          exact le_trans this (Nat.le_max_right _ _)

theorem mem_of_slotV (st : St) (n j i : Nat) (h : slotV st n i = some j) :
    some j ∈ (getN st n).children := by
  unfold slotV at h
  rw [List.getD_eq_getElem?_getD] at h
  cases hg : (getN st n).children[i]? with
  | none => rw [hg] at h; exact absurd h (by simp)
  | some c =>
    rw [hg] at h
    have hc : c = some j := h
    obtain ⟨hlt, he⟩ := List.getElem?_eq_some.mp hg
    rw [← hc, ← he]
    exact List.getElem_mem hlt

theorem mem_children_slotV (st : St) (n j : Nat)
    (h : some j ∈ (getN st n).children) : ∃ i, slotV st n i = some j := by
  obtain ⟨i, hlt, he⟩ := List.getElem_of_mem h
  refine ⟨i, ?_⟩
  unfold slotV
  rw [List.getD_eq_getElem?_getD, List.getElem?_eq_getElem hlt, he]
  rfl

theorem htF_stable (st : St) (rk : Nat → Nat)
    (hrk : ∀ u ∈ st.live, ∀ i v, slotV st u i = some v → v ≠ 0 →
      rk v < rk u ∧ v ∈ st.live) :
    ∀ b n, n ∈ st.live → rk n < b →
    ∀ f1 f2, rk n < f1 → rk n < f2 → htF st f1 n = htF st f2 n := by
  intro b
  induction b with
  | zero => omega
  | succ b ih =>
    intro n hn hb f1 f2 h1 h2
    obtain ⟨f1', rfl⟩ : ∃ f, f1 = f + 1 := ⟨f1 - 1, by omega⟩
    obtain ⟨f2', rfl⟩ : ∃ f, f2 = f + 1 := ⟨f2 - 1, by omega⟩
    show childHt (htF st f1') (getN st n).children =
      childHt (htF st f2') (getN st n).children
    refine childHt_congr _ _ _ ?_
    intro j hj hj0
    obtain ⟨i, hi⟩ := mem_children_slotV st n j hj
    obtain ⟨hlt, hjl⟩ := hrk n hn i j hi hj0
    by_cases hf1 : rk j < f1'
    · by_cases hf2 : rk j < f2'
      · exact ih j hjl (by omega) f1' f2' hf1 hf2
      · omega
    · omega

theorem childHt_congr2 (f : Nat → Nat) : ∀ (cs cs' : List (Option Nat)),
    List.Forall₂ (fun c c' =>
      (c = none ∧ c' = none) ∨ (c = some 0 ∧ c' = some 0) ∨
      (∃ a b, c = some a ∧ c' = some b ∧ a ≠ 0 ∧ b ≠ 0 ∧ f a = f b)) cs cs' →
    childHt f cs = childHt f cs' := by
  intro cs cs' h
  induction h with
  | nil => rfl
  | cons hr _ ih =>
    rename_i c c' l l' hl
    unfold childHt
    rw [List.foldr_cons, List.foldr_cons]
    unfold childHt at ih
    rw [ih]
    rcases hr with ⟨h1, h2⟩ | ⟨h1, h2⟩ | ⟨a, b, h1, h2, ha, hb, hf⟩
    · rw [h1, h2]
    · rw [h1, h2]
    · rw [h1, h2]
      dsimp only
      rw [if_neg ha, if_neg hb, hf]

theorem forall2_of_getD {R : Option Nat → Option Nat → Prop} :
    ∀ (cs cs' : List (Option Nat)), cs.length = cs'.length →
    (∀ i, i < cs.length → R (cs.getD i none) (cs'.getD i none)) →
    List.Forall₂ R cs cs' := by
  intro cs
  induction cs with
  | nil =>
    intro cs' hl h
    cases cs' with
    | nil => exact List.Forall₂.nil
    | cons c' l' => exact absurd hl (by simp)
  | cons c l ih =>
    intro cs' hl h
    cases cs' with
    | nil => exact absurd hl (by simp)
    | cons c' l' =>
      refine List.Forall₂.cons ?_ ?_
      · have := h 0 (by simp)
        simpa using this
      · refine ih l' (by simpa using hl) ?_
        intro i hi
        have := h (i + 1) (by simpa using Nat.succ_lt_succ hi)
        simpa using this

theorem setN_out (st : St) (p : Nat) (nd : Node) (h : st.arena.length ≤ p) :
    setN st p nd = st := by
  unfold setN
  rw [List.set_eq_of_length_le h]

theorem mtM_not_dup (M : List (Nat × Nat)) (y : Nat) (h : y ∉ M.map Prod.fst) :
    mtM M y = y := by
  induction M with
  | nil => rfl
  | cons p M ih =>
    simp only [List.map_cons, List.mem_cons, not_or] at h
    unfold mtM
    rw [List.find?_cons_of_neg]
    · exact ih h.2
    · simp only [beq_iff_eq]
      exact fun he => h.1 he.symm

theorem mtM_dup (M : List (Nat × Nat)) (d c : Nat) (hm : (d, c) ∈ M)
    (hnd : (M.map Prod.fst).Nodup) : mtM M d = c := by
  induction M with
  | nil => exact absurd hm (List.not_mem_nil _)
  | cons p M ih =>
    rw [List.map_cons] at hnd
    rcases List.mem_cons.mp hm with he | hm'
    · unfold mtM
      rw [List.find?_cons_of_pos]
      · rw [← he]
      · simp only [beq_iff_eq]
        rw [← he]
    · unfold mtM
      rw [List.find?_cons_of_neg]
      · exact ih hm' (List.Nodup.of_cons hnd)
      · simp only [beq_iff_eq]
        intro he
        have hd : d ∈ M.map Prod.fst := List.mem_map_of_mem Prod.fst hm'
        rw [he] at hnd
        exact (List.nodup_cons.mp hnd).1 hd

theorem mtM_out_not_dup (M : List (Nat × Nat)) (y : Nat)
    (hcd : ∀ p ∈ M, p.2 ∉ M.map Prod.fst) : mtM M y ∉ M.map Prod.fst := by
  unfold mtM
  cases hf : M.find? (fun p => p.1 == y) with
  | none =>
    intro hy
    obtain ⟨p, hp, hp1⟩ := List.mem_map.mp hy
    have := List.find?_eq_none.mp hf p hp
    simp only [beq_iff_eq] at this
    exact this hp1
  | some p =>
    exact hcd p (List.mem_of_find?_eq_some hf)

theorem mtM_eq_iff (M : List (Nat × Nat)) (D y : Nat)
    (hD : D ∉ M.map Prod.fst) (hDc : ∀ p ∈ M, p.2 ≠ D) :
    mtM M y = D ↔ y = D := by
  constructor
  · intro h
    unfold mtM at h
    cases hf : M.find? (fun p => p.1 == y) with
    | none => rw [hf] at h; exact h
    | some p =>
      rw [hf] at h
      exact absurd h (hDc p (List.mem_of_find?_eq_some hf))
  · intro h
    rw [h, mtM_not_dup M D hD]

theorem mtM_append_ne (M : List (Nat × Nat)) (d c y : Nat) (h : y ≠ d) :
    mtM (M ++ [(d, c)]) y = mtM M y := by
  induction M with
  | nil =>
    show mtM [(d, c)] y = y
    unfold mtM
    rw [List.find?_cons_of_neg]
    · rfl
    · simp only [beq_iff_eq]
      exact fun he => h he.symm
  | cons p M ih =>
    by_cases hp : p.1 = y
    · rw [List.cons_append]
      unfold mtM
      rw [List.find?_cons_of_pos, List.find?_cons_of_pos]
      · simp only [beq_iff_eq]
        exact hp
      · simp only [beq_iff_eq]
        exact hp
    · rw [List.cons_append]
      unfold mtM
      rw [List.find?_cons_of_neg, List.find?_cons_of_neg]
      · exact ih
      · simp only [beq_iff_eq]
        exact hp
      · simp only [beq_iff_eq]
        exact hp

theorem mtM_append_self (M : List (Nat × Nat)) (d c : Nat) (h : d ∉ M.map Prod.fst) :
    mtM (M ++ [(d, c)]) d = c := by
  induction M with
  | nil =>
    unfold mtM
    rw [List.nil_append, List.find?_cons_of_pos]
    simp
  | cons p M ih =>
    simp only [List.map_cons, List.mem_cons, not_or] at h
    rw [List.cons_append]
    unfold mtM
    rw [List.find?_cons_of_neg]
    · exact ih h.2
    · simp only [beq_iff_eq]
      exact fun he => h.1 he.symm

theorem mtM_prefix (M' M : List (Nat × Nat)) (hpre : M' <+: M)
    (hnd : (M.map Prod.fst).Nodup) (y : Nat) :
    mtM M' y = mtM M y ∨
      (mtM M' y = y ∧ y ∈ M.map Prod.fst ∧ y ∉ M'.map Prod.fst) := by
  by_cases hy : y ∈ M'.map Prod.fst
  · left
    obtain ⟨p, hp, hp1⟩ := List.mem_map.mp hy
    have hnd' : (M'.map Prod.fst).Nodup := ((hpre.sublist).map Prod.fst).nodup hnd
    have hp' : (y, p.2) ∈ M' := by
      rw [← hp1]
      exact hp
    rw [mtM_dup M' y p.2 hp' hnd', mtM_dup M y p.2 (hpre.sublist.subset hp') hnd]
  · by_cases hyM : y ∈ M.map Prod.fst
    · right
      exact ⟨mtM_not_dup M' y hy, hyM, hy⟩
    · left
      rw [mtM_not_dup M' y hy, mtM_not_dup M y hyM]

theorem rewireParent_slot (D C p : Nat) (st : St) (u i : Nat) :
    slotV (rewireParent D C st p) u i =
      if u = p ∧ slotV st u i = some D then some C else slotV st u i := by
  by_cases hu : u = p
  · subst hu
    by_cases hlt : u < st.arena.length
    · unfold rewireParent
      rw [slotV_setN_self st u _ i hlt]
      dsimp only
      rw [getD_map_none (by simp)]
      by_cases hD : slotV st u i = some D
      · unfold slotV at hD
        rw [hD, if_pos rfl, if_pos ⟨rfl, hD⟩]
      · unfold slotV at hD
        rw [if_neg hD, if_neg (fun hc => hD hc.2)]
        rfl
    · unfold rewireParent
      rw [setN_out st u _ (le_of_not_lt hlt)]
      have hnone : slotV st u i = none := by
        unfold slotV
        rw [getN_ge st u (le_of_not_lt hlt)]
        exact getD_replicate_none 16 i
      rw [if_neg]
      intro hc
      rw [hnone] at hc
      exact absurd hc.2 (by simp)
  · unfold rewireParent
    rw [slotV_setN_ne st p _ u i hu]
    rw [if_neg (fun hc => hu hc.1)]

theorem rewire_foldl_slot (D C : Nat) (hDC : C ≠ D) (ps : List Nat) :
    ∀ (st : St) (u i : Nat),
    slotV (ps.foldl (rewireParent D C) st) u i =
      if u ∈ ps ∧ slotV st u i = some D then some C else slotV st u i := by
  induction ps with
  | nil =>
    intro st u i
    rw [List.foldl_nil, if_neg (fun hc => List.not_mem_nil u hc.1)]
  | cons p ps ih =>
    intro st u i
    rw [List.foldl_cons, ih (rewireParent D C st p) u i,
      rewireParent_slot D C p st u i]
    by_cases h12 : u = p ∧ slotV st u i = some D
    · rw [if_pos h12]
      have hn : ¬(u ∈ ps ∧ (some C : Option Nat) = some D) := by
        intro hc
        exact hDC (Option.some.inj hc.2)
      rw [if_neg hn]
      have hp2 : u ∈ p :: ps ∧ slotV st u i = some D :=
        ⟨by rw [h12.1]; exact List.mem_cons_self p ps, h12.2⟩
      rw [if_pos hp2]
    · rw [if_neg h12]
      by_cases h3 : u ∈ ps ∧ slotV st u i = some D
      · rw [if_pos h3]
        have hp2 : u ∈ p :: ps ∧ slotV st u i = some D :=
          ⟨List.mem_cons_of_mem p h3.1, h3.2⟩
        rw [if_pos hp2]
      · rw [if_neg h3]
        have hn : ¬(u ∈ p :: ps ∧ slotV st u i = some D) := by
          intro hc
          rcases List.mem_cons.mp hc.1 with he | hm
          · exact h12 ⟨he, hc.2⟩
          · exact h3 ⟨hm, hc.2⟩
        rw [if_neg hn]

theorem parents_rewire (D C p : Nat) (st : St) (x : Nat) :
    (getN (rewireParent D C st p) x).parents = (getN st x).parents := by
  by_cases hlt : p < st.arena.length
  · exact parents_setN_children st p _ x hlt
  · unfold rewireParent
    rw [setN_out st p _ (le_of_not_lt hlt)]

theorem rewire_foldl_parents (D C : Nat) (ps : List Nat) :
    ∀ (st : St) (x : Nat),
    (getN (ps.foldl (rewireParent D C) st) x).parents = (getN st x).parents := by
  induction ps with
  | nil =>
    intro st x
    rfl
  | cons p ps ih =>
    intro st x
    rw [List.foldl_cons, ih, parents_rewire]

theorem setN_live (st : St) (p : Nat) (nd : Node) : (setN st p nd).live = st.live := rfl

theorem setN_len (st : St) (p : Nat) (nd : Node) :
    (setN st p nd).arena.length = st.arena.length := by
  unfold setN
  exact List.length_set st.arena p nd

theorem rewire_foldl_live (D C : Nat) (ps : List Nat) :
    ∀ (st : St), (ps.foldl (rewireParent D C) st).live = st.live := by
  induction ps with
  | nil =>
    intro st
    rfl
  | cons p ps ih =>
    intro st
    rw [List.foldl_cons, ih]
    rfl

theorem rewire_foldl_len (D C : Nat) (ps : List Nat) :
    ∀ (st : St), (ps.foldl (rewireParent D C) st).arena.length = st.arena.length := by
  induction ps with
  | nil =>
    intro st
    rfl
  | cons p ps ih =>
    intro st
    rw [List.foldl_cons, ih]
    exact setN_len st p _

theorem children_len_rewire (D C p : Nat) (st : St) (x : Nat) :
    (getN (rewireParent D C st p) x).children.length = (getN st x).children.length := by
  by_cases hlt : p < st.arena.length
  · by_cases hx : x = p
    · subst hx
      unfold rewireParent
      rw [getN_setN_lt st x _ hlt]
      exact List.length_map _ _
    · unfold rewireParent
      rw [getN_setN_ne st p _ (fun hh => hx hh.symm)]
  · unfold rewireParent
    rw [setN_out st p _ (le_of_not_lt hlt)]

theorem children_len_rewire_foldl (D C : Nat) (ps : List Nat) :
    ∀ (st : St) (x : Nat),
    (getN (ps.foldl (rewireParent D C) st) x).children.length =
      (getN st x).children.length := by
  induction ps with
  | nil =>
    intro st x
    rfl
  | cons p ps ih =>
    intro st x
    rw [List.foldl_cons, ih, children_len_rewire]

theorem children_setN_parents (st : St) (p : Nat) (ps : List Nat) (x : Nat) :
    (getN (setN st p { getN st p with parents := ps }) x).children =
      (getN st x).children := by
  by_cases hlt : p < st.arena.length
  · by_cases hx : x = p
    · subst hx
      rw [getN_setN_lt st x _ hlt]
    · rw [getN_setN_ne st p _ (fun hh => hx hh.symm)]
  · rw [setN_out st p _ (le_of_not_lt hlt)]

theorem childHt_replicate_none (f : Nat → Nat) (n : Nat) :
    childHt f (List.replicate n none) = 0 := by
  induction n with
  | zero => rfl
  | succ n ih =>
    unfold childHt
    rw [List.replicate_succ, List.foldr_cons]
    exact ih

theorem htB_unfold (st : St) (rk : Nat → Nat)
    (hrk : ∀ u ∈ st.live, ∀ i v, slotV st u i = some v → v ≠ 0 →
      rk v < rk u ∧ v ∈ st.live)
    (hmax : ∀ u ∈ st.live, rk u ≤ rk 0)
    (n : Nat) (hn : n ∈ st.live) :
    htF st (rk 0 + 1) n = childHt (htF st (rk 0 + 1)) (getN st n).children := by
  show childHt (htF st (rk 0)) (getN st n).children = _
  refine childHt_congr _ _ _ ?_
  intro j hj hj0
  obtain ⟨i, hi⟩ := mem_children_slotV st n j hj
  obtain ⟨hlt, hjl⟩ := hrk n hn i j hi hj0
  have h1 : rk j < rk 0 := lt_of_lt_of_le hlt (hmax n hn)
  exact htF_stable st rk hrk (rk j + 1) j hjl (by omega) (rk 0) (rk 0 + 1)
    (by omega) (by omega)

theorem htB_edge (st : St) (rk : Nat → Nat)
    (hrk : ∀ u ∈ st.live, ∀ i v, slotV st u i = some v → v ≠ 0 →
      rk v < rk u ∧ v ∈ st.live)
    (hmax : ∀ u ∈ st.live, rk u ≤ rk 0)
    (u v i : Nat) (hu : u ∈ st.live) (hs : slotV st u i = some v) (hv : v ≠ 0) :
    htF st (rk 0 + 1) v < htF st (rk 0 + 1) u := by
  rw [htB_unfold st rk hrk hmax u hu]
  have hm := mem_of_slotV st u v i hs
  have := childHt_ge (htF st (rk 0 + 1)) (getN st u).children v hm hv
  omega

theorem climb (st : St) (rk : Nat → Nat)
    (hrk : ∀ u ∈ st.live, ∀ i v, slotV st u i = some v → v ≠ 0 →
      rk v < rk u ∧ v ∈ st.live)
    (hunref : ∀ u ∈ st.live, u ≠ 0 → ¬refBy st u →
      (getN st u).children = List.replicate 16 none)
    (hmax : ∀ u ∈ st.live, rk u ≤ rk 0) :
    ∀ g u, rk 0 + 1 - rk u ≤ g → u ∈ st.live → u ≠ 0 → refBy st u →
    ∃ w i, slotV st 0 i = some w ∧ w ≠ 0 ∧ w ∈ st.live ∧
      (w = u ∨ htF st (rk 0 + 1) u < htF st (rk 0 + 1) w) := by
  intro g
  induction g with
  | zero =>
    intro u hg hu hu0 _
    have := hmax u hu
    omega
  | succ g ih =>
    intro u hg hu hu0 href
    obtain ⟨h, hh, i, hslot⟩ := href
    by_cases h0 : h = 0
    · subst h0
      exact ⟨u, i, hslot, hu0, hu, Or.inl rfl⟩
    · obtain ⟨hhu, _⟩ := hrk h hh i u hslot hu0
      have hrefh : refBy st h := by
        by_contra hnr
        have hch := hunref h hh h0 hnr
        unfold slotV at hslot
        rw [hch, getD_replicate_none] at hslot
        exact absurd hslot (by simp)
      have hmh := hmax h hh
      obtain ⟨w, j, hw1, hw2, hw3, hw4⟩ := ih h (by omega) hh h0 hrefh
      have hedge : htF st (rk 0 + 1) u < htF st (rk 0 + 1) h :=
        htB_edge st rk hrk hmax h u i hh hslot hu0
      refine ⟨w, j, hw1, hw2, hw3, Or.inr ?_⟩
      rcases hw4 with he | hlt
      · rw [← he] at hedge
        exact hedge
      · exact lt_trans hedge hlt

theorem htB_max (st : St) (rk : Nat → Nat)
    (hrk : ∀ u ∈ st.live, ∀ i v, slotV st u i = some v → v ≠ 0 →
      rk v < rk u ∧ v ∈ st.live)
    (hunref : ∀ u ∈ st.live, u ≠ 0 → ¬refBy st u →
      (getN st u).children = List.replicate 16 none)
    (hmax : ∀ u ∈ st.live, rk u ≤ rk 0)
    (hz : 0 ∈ st.live)
    (u : Nat) (hu : u ∈ st.live) :
    htF st (rk 0 + 1) u ≤ htF st (rk 0 + 1) 0 := by
  by_cases hu0 : u = 0
  · exact le_of_eq (by rw [hu0])
  · by_cases href : refBy st u
    · obtain ⟨w, j, hw1, hw2, _, hw4⟩ :=
        climb st rk hrk hunref hmax (rk 0 + 1 - rk u) u (le_refl _) hu hu0 href
      have hedge : htF st (rk 0 + 1) w < htF st (rk 0 + 1) 0 :=
        htB_edge st rk hrk hmax 0 w j hz hw1 hw2
      rcases hw4 with he | hlt
      · rw [← he]
        exact le_of_lt hedge
      · exact le_of_lt (lt_trans hlt hedge)
    · have hch := hunref u hu hu0 href
      rw [htB_unfold st rk hrk hmax u hu, hch, childHt_replicate_none]
      exact Nat.zero_le _

theorem lookup_mem (m : List (List (Option Nat) × Nat)) (k : List (Option Nat))
    (c : Nat) (h : lookupKey m k = some c) : (k, c) ∈ m := by
  induction m with
  | nil => exact absurd h (by simp [lookupKey])
  | cons e m ih =>
    unfold lookupKey at h
    by_cases he : e.1 = k
    · rw [if_pos he] at h
      have hc : e.2 = c := Option.some.inj h
      have : e = (k, c) := by
        rw [← he, ← hc]
      rw [← this]
      exact List.mem_cons_self e m
    · rw [if_neg he] at h
      exact List.mem_cons_of_mem e (ih h)

theorem map_key_unique (m : List (List (Option Nat) × Nat))
    (hnd : (m.map Prod.snd).Nodup) (k k' : List (Option Nat)) (c : Nat)
    (h1 : (k, c) ∈ m) (h2 : (k', c) ∈ m) : k = k' := by
  induction m with
  | nil => exact absurd h1 (List.not_mem_nil _)
  | cons e m ih =>
    rw [List.map_cons] at hnd
    have hnd1 := (List.nodup_cons.mp hnd).1
    have hnd2 := (List.nodup_cons.mp hnd).2
    rcases List.mem_cons.mp h1 with he1 | hm1
    · rcases List.mem_cons.mp h2 with he2 | hm2
      · have h12 : (k', c) = (k, c) := he2.trans he1.symm
        exact (((Prod.mk.injEq k' c k c).mp h12).1).symm
      · exfalso
        apply hnd1
        rw [← he1]
        show c ∈ m.map Prod.snd
        exact List.mem_map_of_mem Prod.snd hm2
    · rcases List.mem_cons.mp h2 with he2 | hm2
      · exfalso
        apply hnd1
        rw [← he2]
        show c ∈ m.map Prod.snd
        exact List.mem_map_of_mem Prod.snd hm1
      · exact ih hnd2 hm1 hm2

theorem children_eq_map (st1 st0 : St) (u : Nat) (f : Option Nat → Option Nat)
    (hlen : (getN st1 u).children.length = (getN st0 u).children.length)
    (hsl : ∀ i, slotV st1 u i = f (slotV st0 u i)) :
    (getN st1 u).children = (getN st0 u).children.map f := by
  apply List.ext_getElem
  · rw [hlen, List.length_map]
  · intro i hi1 hi2
    have hi0 : i < (getN st0 u).children.length := by
      rw [List.length_map] at hi2
      exact hi2
    have h1 : (getN st1 u).children[i] = slotV st1 u i := by
      unfold slotV
      rw [List.getD_eq_getElem?_getD, List.getElem?_eq_getElem hi1]
      rfl
    have h0 : (getN st0 u).children[i] = slotV st0 u i := by
      unfold slotV
      rw [List.getD_eq_getElem?_getD, List.getElem?_eq_getElem hi0]
      rfl
    rw [List.getElem_map, h1, h0, hsl i]

theorem mtM_ht (st0 : St) (rk : Nat → Nat) (M : List (Nat × Nat))
    (hnd : (M.map Prod.fst).Nodup)
    (hml : ∀ p ∈ M, p.2 = 0 → ¬refBy st0 p.1)
    (heq : ∀ p ∈ M, p.2 ≠ 0 → htF st0 (rk 0 + 1) p.1 = htF st0 (rk 0 + 1) p.2)
    (y : Nat) (hy : refBy st0 y) (hy0 : y ≠ 0) :
    mtM M y ≠ 0 ∧ htF st0 (rk 0 + 1) (mtM M y) = htF st0 (rk 0 + 1) y := by
  by_cases hd : y ∈ M.map Prod.fst
  · obtain ⟨p, hp, hp1⟩ := List.mem_map.mp hd
    have hp' : (y, p.2) ∈ M := by
      rw [← hp1]
      exact hp
    have hmv : mtM M y = p.2 := mtM_dup M y p.2 hp' hnd
    have hpnz : p.2 ≠ 0 := by
      intro h0
      exact hml (y, p.2) hp' h0 hy
    rw [hmv]
    exact ⟨hpnz, (heq (y, p.2) hp' hpnz).symm⟩
  · rw [mtM_not_dup M y hd]
    exact ⟨hy0, rfl⟩

theorem mid_init (st0 : St) (rk : Nat → Nat) :
    Mid st0 rk [] ⟨st0, [], [], []⟩ := by
  refine ⟨rfl, rfl, ?_, List.nodup_nil, ?_, ?_, ?_, ?_, ?_, rfl, ?_, ?_, ?_, ?_, ?_, ?_⟩
  · intro p hp
    exact absurd hp (List.not_mem_nil _)
  · intro p hp
    exact absurd hp (List.not_mem_nil _)
  · intro u _ i
    cases slotV st0 u i <;> rfl
  · intro u _
    rfl
  · intro x q hq
    exact hq
  · intro p hp
    exact absurd hp (List.not_mem_nil _)
  · intro e he
    exact absurd he (List.not_mem_nil _)
  · intro p hp
    exact absurd hp (List.not_mem_nil _)
  · intro p hp
    exact absurd hp (List.not_mem_nil _)
  · intro p hp
    exact absurd hp (List.not_mem_nil _)
  · intro k hk
    exact absurd hk (List.not_mem_nil _)
  · intro idx x _ h
    exact absurd h (by simp)

theorem not_mem_dups_of_not_L1 (st0 : St) (rk : Nat → Nat) (L1 : List Nat)
    (acc : PassAcc) (hmid : Mid st0 rk L1 acc) (v : Nat) (hv : v ∉ L1) :
    v ∉ acc.pairs.map Prod.fst := by
  intro h
  obtain ⟨p, hp, hp1⟩ := List.mem_map.mp h
  exact hv (hp1 ▸ (hmid.dup_mem p hp).1)

theorem mid_step_insert (st0 : St) (rk : Nat → Nat)
    (L1 L2 : List Nat) (v : Nat) (hsplit : st0.live = L1 ++ v :: L2)
    (hnodup : st0.live.Nodup)
    (acc : PassAcc) (hmid : Mid st0 rk L1 acc) :
    Mid st0 rk (L1 ++ [v])
      { acc with map := acc.map ++ [((getN acc.st v).children, v)] } := by
  have hvlive : v ∈ st0.live := by
    rw [hsplit]
    exact List.mem_append_right L1 (List.mem_cons_self v L2)
  have hvL1 : v ∉ L1 := by
    rw [hsplit] at hnodup
    have hd := (List.nodup_append.mp hnodup).2.2
    intro hc
    exact hd hc (List.mem_cons_self v L2)
  have hvd : v ∉ acc.pairs.map Prod.fst := not_mem_dups_of_not_L1 st0 rk L1 acc hmid v hvL1
  refine ⟨hmid.live_eq, hmid.len_eq, ?_, hmid.dup_nodup, hmid.can_not_dup,
    hmid.slots, hmid.chlen, hmid.par_grow, hmid.dup_par, ?_, ?_,
    hmid.harmless, hmid.hteq, hmid.dup_slots, ?_, ?_⟩
  · intro p hp
    obtain ⟨h1, h2, h3⟩ := hmid.dup_mem p hp
    exact ⟨List.mem_append_left _ h1, h2, List.mem_append_left _ h3⟩
  · show (acc.map ++ [((getN acc.st v).children, v)]).map Prod.snd = _
    rw [List.map_append, hmid.map_ids, List.filter_append]
    have hone : [v].filter (fun x => !((acc.pairs.map Prod.fst).contains x)) = [v] := by
      rw [List.filter_cons_of_pos]
      · rfl
      · simpa using hvd
    rw [hone]
    rfl
  · intro e he
    rcases List.mem_append.mp he with hm | hm
    · exact hmid.map_keys e hm
    · have he' : e = ((getN acc.st v).children, v) := List.mem_singleton.mp hm
      refine ⟨acc.pairs, List.prefix_refl _, ?_⟩
      rw [he']
      exact children_eq_map acc.st st0 v _ (hmid.chlen v hvlive) (hmid.slots v hvlive)
  · intro k hk
    have := hmid.merged_lt k hk
    rw [List.length_append]
    omega
  · intro idx x hx hidx
    rw [List.length_append, List.length_singleton] at hidx
    by_cases hlt : idx < L1.length
    · exact hmid.merged_iff idx x hx hlt
    · have hix : idx = L1.length := by omega
      have hxv : x = v := by
        rw [hsplit, hix] at hx
        rw [List.getElem?_append_right (le_refl L1.length)] at hx
        simp at hx
        exact hx.symm
      constructor
      · intro hc
        have := hmid.merged_lt idx hc
        omega
      · intro hc
        rw [hxv] at hc
        exact absurd hc hvd

theorem hit_canonical (st0 : St) (rk : Nat → Nat) (L1 : List Nat) (v C : Nat)
    (acc : PassAcc) (hmid : Mid st0 rk L1 acc)
    (hlk : lookupKey acc.map (getN acc.st v).children = some C) :
    C ∈ L1 ∧ C ∉ acc.pairs.map Prod.fst ∧
    ∃ M2, M2 <+: acc.pairs ∧
      ∀ i, slotV acc.st v i = Option.map (mtM M2) (slotV st0 C i) := by
  have hmem := lookup_mem _ _ _ hlk
  have hCid : C ∈ acc.map.map Prod.snd := by
    have := List.mem_map_of_mem Prod.snd hmem
    exact this
  rw [hmid.map_ids] at hCid
  have hCL1 : C ∈ L1 := List.mem_of_mem_filter hCid
  have hCpred := List.of_mem_filter hCid
  have hCd : C ∉ acc.pairs.map Prod.fst := by simpa using hCpred
  obtain ⟨M2, hpre, hkey⟩ := hmid.map_keys _ hmem
  dsimp only at hkey
  refine ⟨hCL1, hCd, M2, hpre, ?_⟩
  intro i
  show (getN acc.st v).children.getD i none = _
  rw [hkey]
  exact getD_map_none rfl _ i

theorem merge_classify (st0 : St) (rk : Nat → Nat) (L1 : List Nat) (v C : Nat)
    (acc : PassAcc) (hmid : Mid st0 rk L1 acc)
    (hvlive : v ∈ st0.live) (hClive : C ∈ st0.live) (hC0 : C ≠ 0)
    (M2 : List (Nat × Nat)) (hpre : M2 <+: acc.pairs)
    (hkeyed : ∀ i, Option.map (mtM acc.pairs) (slotV st0 v i) =
      Option.map (mtM M2) (slotV st0 C i)) :
    ∀ i,
      (slotV st0 v i = none ∧ slotV st0 C i = none) ∨
      (slotV st0 v i = some 0 ∧ slotV st0 C i = some 0) ∨
      (∃ y z, slotV st0 v i = some y ∧ slotV st0 C i = some z ∧ y ≠ 0 ∧ z ≠ 0 ∧
        mtM acc.pairs y = mtM acc.pairs z ∧ mtM acc.pairs y ≠ 0 ∧
        htF st0 (rk 0 + 1) y = htF st0 (rk 0 + 1) z) := by
  have h0nd : (0 : Nat) ∉ acc.pairs.map Prod.fst := by
    intro hm
    obtain ⟨p, hp, hp1⟩ := List.mem_map.mp hm
    exact (hmid.dup_mem p hp).2.1 hp1
  have h0nd2 : (0 : Nat) ∉ M2.map Prod.fst := by
    intro hm
    exact h0nd ((hpre.sublist.map Prod.fst).subset hm)
  have hndM2 : (M2.map Prod.fst).Nodup := ((hpre.sublist).map Prod.fst).nodup hmid.dup_nodup
  intro i
  have hk := hkeyed i
  cases hv1 : slotV st0 v i with
  | none =>
    cases hc1 : slotV st0 C i with
    | none => exact Or.inl ⟨rfl, rfl⟩
    | some z =>
      rw [hv1, hc1] at hk
      exact absurd hk (by simp)
  | some y =>
    cases hc1 : slotV st0 C i with
    | none =>
      rw [hv1, hc1] at hk
      exact absurd hk (by simp)
    | some z =>
      rw [hv1, hc1] at hk
      have he : mtM acc.pairs y = mtM M2 z := by simpa using hk
      have hry : refBy st0 y := ⟨v, hvlive, i, hv1⟩
      have hrz : refBy st0 z := ⟨C, hClive, i, hc1⟩
      by_cases hy0 : y = 0
      · subst hy0
        rw [mtM_not_dup _ _ h0nd] at he
        by_cases hz0 : z = 0
        · subst hz0
          exact Or.inr (Or.inl ⟨rfl, rfl⟩)
        · exfalso
          by_cases hzd : z ∈ M2.map Prod.fst
          · obtain ⟨p, hp, hp1⟩ := List.mem_map.mp hzd
            have hp' : (z, p.2) ∈ M2 := by
              rw [← hp1]
              exact hp
            have hmv : mtM M2 z = p.2 := mtM_dup M2 z p.2 hp' hndM2
            rw [hmv] at he
            exact hmid.harmless (z, p.2) (hpre.sublist.subset hp') he.symm hrz
          · rw [mtM_not_dup M2 z hzd] at he
            exact hz0 he.symm
      · by_cases hz0 : z = 0
        · exfalso
          subst hz0
          rw [mtM_not_dup _ _ h0nd2] at he
          by_cases hyd : y ∈ acc.pairs.map Prod.fst
          · obtain ⟨p, hp, hp1⟩ := List.mem_map.mp hyd
            have hp' : (y, p.2) ∈ acc.pairs := by
              rw [← hp1]
              exact hp
            have hmv : mtM acc.pairs y = p.2 := mtM_dup _ y p.2 hp' hmid.dup_nodup
            rw [hmv] at he
            exact hmid.harmless (y, p.2) hp' he hry
          · rw [mtM_not_dup _ y hyd] at he
            exact hy0 he
        · obtain ⟨hwn0, hyht⟩ :=
            mtM_ht st0 rk acc.pairs hmid.dup_nodup hmid.harmless hmid.hteq y hry hy0
          have hwz : mtM acc.pairs z = mtM acc.pairs y := by
            rcases mtM_prefix M2 acc.pairs hpre hmid.dup_nodup z with hpz | ⟨hpz, hzd, _⟩
            · rw [← hpz, ← he]
            · exfalso
              have : mtM acc.pairs y ∉ acc.pairs.map Prod.fst :=
                mtM_out_not_dup acc.pairs y hmid.can_not_dup
              rw [he, hpz] at this
              exact this hzd
          obtain ⟨_, hzht⟩ :=
            mtM_ht st0 rk acc.pairs hmid.dup_nodup hmid.harmless hmid.hteq z hrz hz0
          refine Or.inr (Or.inr ⟨y, z, rfl, rfl, hy0, hz0, hwz.symm, hwn0, ?_⟩)
          rw [← hyht, ← hwz, hzht]

theorem harmful_excluded (st0 : St) (rk : Nat → Nat)
    (hrk : ∀ u ∈ st0.live, ∀ i x, slotV st0 u i = some x → x ≠ 0 →
      rk x < rk u ∧ x ∈ st0.live)
    (hrmax : ∀ u ∈ st0.live, rk u ≤ rk 0)
    (hunref : ∀ u ∈ st0.live, u ≠ 0 → ¬refBy st0 u →
      (getN st0 u).children = List.replicate 16 none)
    (hz : 0 ∈ st0.live)
    (L1 : List Nat) (v : Nat) (hvlive : v ∈ st0.live) (hv0 : v ≠ 0)
    (acc : PassAcc) (hmid : Mid st0 rk L1 acc)
    (M2 : List (Nat × Nat)) (hpre : M2 <+: acc.pairs)
    (hkeyed : ∀ i, Option.map (mtM acc.pairs) (slotV st0 v i) =
      Option.map (mtM M2) (slotV st0 0 i)) :
    ¬refBy st0 v := by
  intro href
  obtain ⟨w, i1, hw1, hw2, _, hw4⟩ :=
    climb st0 rk hrk hunref hrmax (rk 0 + 1 - rk v) v (le_refl _) hvlive hv0 href
  have hk := hkeyed i1
  rw [hw1] at hk
  cases hv1 : slotV st0 v i1 with
  | none =>
    rw [hv1] at hk
    exact absurd hk (by simp)
  | some y =>
    rw [hv1] at hk
    have he : mtM acc.pairs y = mtM M2 w := by simpa using hk
    have hrw : refBy st0 w := ⟨0, hz, i1, hw1⟩
    have hndM2 : (M2.map Prod.fst).Nodup := ((hpre.sublist).map Prod.fst).nodup hmid.dup_nodup
    have hmlM2 : ∀ p ∈ M2, p.2 = 0 → ¬refBy st0 p.1 :=
      fun p hp => hmid.harmless p (hpre.sublist.subset hp)
    have heqM2 : ∀ p ∈ M2, p.2 ≠ 0 →
        htF st0 (rk 0 + 1) p.1 = htF st0 (rk 0 + 1) p.2 :=
      fun p hp => hmid.hteq p (hpre.sublist.subset hp)
    obtain ⟨hwn0, hwht⟩ := mtM_ht st0 rk M2 hndM2 hmlM2 heqM2 w hrw hw2
    have hy0 : y ≠ 0 := by
      intro h0
      rw [h0] at he
      have h00 : mtM acc.pairs 0 = 0 := by
        refine mtM_not_dup _ _ ?_
        intro hm
        obtain ⟨p, hp, hp1⟩ := List.mem_map.mp hm
        exact (hmid.dup_mem p hp).2.1 hp1
      rw [h00] at he
      exact hwn0 he.symm
    have hry : refBy st0 y := ⟨v, hvlive, i1, hv1⟩
    obtain ⟨_, hyht⟩ :=
      mtM_ht st0 rk acc.pairs hmid.dup_nodup hmid.harmless hmid.hteq y hry hy0
    have hhy : htF st0 (rk 0 + 1) y = htF st0 (rk 0 + 1) w := by
      rw [← hyht, he, hwht]
    have hedge : htF st0 (rk 0 + 1) y < htF st0 (rk 0 + 1) v :=
      htB_edge st0 rk hrk hrmax v y i1 hvlive hv1 hy0
    rcases hw4 with hev | hlt
    · rw [hev] at hhy
      omega
    · omega

theorem contains_append_single (l : List Nat) (a x : Nat) (h : x ≠ a) :
    (l ++ [a]).contains x = l.contains x := by
  cases hc : l.contains x with
  | true =>
    have hm : x ∈ l := List.elem_iff.mp hc
    exact List.elem_iff.mpr (List.mem_append_left _ hm)
  | false =>
    cases hc2 : (l ++ [a]).contains x with
    | false => rfl
    | true =>
      exfalso
      have hm : x ∈ l ++ [a] := List.elem_iff.mp hc2
      rcases List.mem_append.mp hm with h1 | h1
      · have : l.contains x = true := List.elem_iff.mpr h1
        rw [hc] at this
        exact absurd this (by simp)
      · exact h (List.mem_singleton.mp h1)

theorem slotV_setN_parents (st : St) (p : Nat) (ps : List Nat) (u i : Nat) :
    slotV (setN st p { getN st p with parents := ps }) u i = slotV st u i := by
  unfold slotV
  rw [children_setN_parents]

theorem merge_hteq (st0 : St) (rk : Nat → Nat)
    (hrk : ∀ u ∈ st0.live, ∀ i x, slotV st0 u i = some x → x ≠ 0 →
      rk x < rk u ∧ x ∈ st0.live)
    (hrmax : ∀ u ∈ st0.live, rk u ≤ rk 0)
    (hchlen : ∀ n ∈ st0.live, (getN st0 n).children.length = 16)
    (v C : Nat) (hvlive : v ∈ st0.live) (hClive : C ∈ st0.live)
    (M : List (Nat × Nat))
    (hclass : ∀ i,
      (slotV st0 v i = none ∧ slotV st0 C i = none) ∨
      (slotV st0 v i = some 0 ∧ slotV st0 C i = some 0) ∨
      (∃ y z, slotV st0 v i = some y ∧ slotV st0 C i = some z ∧ y ≠ 0 ∧ z ≠ 0 ∧
        mtM M y = mtM M z ∧ mtM M y ≠ 0 ∧
        htF st0 (rk 0 + 1) y = htF st0 (rk 0 + 1) z)) :
    htF st0 (rk 0 + 1) v = htF st0 (rk 0 + 1) C := by
  rw [htB_unfold st0 rk hrk hrmax v hvlive, htB_unfold st0 rk hrk hrmax C hClive]
  refine childHt_congr2 (htF st0 (rk 0 + 1)) _ _ ?_
  refine forall2_of_getD _ _ (by rw [hchlen v hvlive, hchlen C hClive]) ?_
  intro i _
  rcases hclass i with ⟨h1, h2⟩ | ⟨h1, h2⟩ | ⟨y, z, h1, h2, hy0, hz0, _, _, hht⟩
  · exact Or.inl ⟨h1, h2⟩
  · exact Or.inr (Or.inl ⟨h1, h2⟩)
  · exact Or.inr (Or.inr ⟨y, z, h1, h2, hy0, hz0, hht⟩)

set_option maxHeartbeats 1600000 in
theorem mid_step_merge_abs (st0 : St) (rk : Nat → Nat)
    (hrk : ∀ u ∈ st0.live, ∀ i x, slotV st0 u i = some x → x ≠ 0 →
      rk x < rk u ∧ x ∈ st0.live)
    (hrmax : ∀ u ∈ st0.live, rk u ≤ rk 0)
    (hP : PInv st0)
    (L1 L2 : List Nat) (v C : Nat) (hsplit : st0.live = L1 ++ v :: L2)
    (acc : PassAcc) (hmid : Mid st0 rk L1 acc)
    (hlk : lookupKey acc.map (getN acc.st v).children = some C)
    (st2 : St)
    (h2live : st2.live = acc.st.live)
    (h2len : st2.arena.length = acc.st.arena.length)
    (h2slot : ∀ u i, slotV st2 u i =
      if u ∈ (getN acc.st v).parents ∧ slotV acc.st u i = some v then some C
      else slotV acc.st u i)
    (h2chlen : ∀ u, (getN st2 u).children.length = (getN acc.st u).children.length)
    (h2parC : ∀ q, q ∈ (getN acc.st C).parents ∨ q ∈ (getN acc.st v).parents →
      q ∈ (getN st2 C).parents)
    (h2par : ∀ x, x ≠ C → (getN st2 x).parents = (getN acc.st x).parents) :
    Mid st0 rk (L1 ++ [v])
      ⟨st2, acc.map, acc.merged ++ [L1.length], acc.pairs ++ [(v, C)]⟩ := by
  have hvlive : v ∈ st0.live := by
    rw [hsplit]
    exact List.mem_append_right L1 (List.mem_cons_self v L2)
  have hvL1 : v ∉ L1 := by
    have hnodup := hP.nodup
    rw [hsplit] at hnodup
    have hd := (List.nodup_append.mp hnodup).2.2
    intro hc
    exact hd hc (List.mem_cons_self v L2)
  have hvd : v ∉ acc.pairs.map Prod.fst := not_mem_dups_of_not_L1 st0 rk L1 acc hmid v hvL1
  have hvcan : ∀ p ∈ acc.pairs, p.2 ≠ v := by
    intro p hp h
    exact hvL1 (h ▸ (hmid.dup_mem p hp).2.2)
  obtain ⟨hCL1, hCd, M2, hpre, hkeyed0⟩ := hit_canonical st0 rk L1 v C acc hmid hlk
  have hL1sub : ∀ x ∈ L1, x ∈ st0.live := by
    intro x hx
    rw [hsplit]
    exact List.mem_append_left _ hx
  have hClive : C ∈ st0.live := hL1sub C hCL1
  have hCv : C ≠ v := fun h => hvL1 (h ▸ hCL1)
  have hmapne : acc.map ≠ [] := by
    intro h
    rw [h] at hlk
    exact absurd hlk (by simp [lookupKey])
  have hL1ne : L1 ≠ [] := by
    intro h
    apply hmapne
    have hids := hmid.map_ids
    rw [h] at hids
    exact List.map_eq_nil.mp hids
  have h0L1 : 0 ∈ L1 := by
    obtain ⟨a, t, hat⟩ : ∃ a t, L1 = a :: t := by
      cases hL : L1 with
      | nil => exact absurd hL hL1ne
      | cons a t => exact ⟨a, t, rfl⟩
    have hh := hP.head0
    rw [hsplit, hat] at hh
    have ha0 : a = 0 := by simpa using hh
    rw [hat, ← ha0]
    exact List.mem_cons_self a t
  have hv0 : v ≠ 0 := fun h => hvL1 (h ▸ h0L1)
  have hzlive : 0 ∈ st0.live := hL1sub 0 h0L1
  have hkeyed : ∀ i, Option.map (mtM acc.pairs) (slotV st0 v i) =
      Option.map (mtM M2) (slotV st0 C i) := by
    intro i
    rw [← hmid.slots v hvlive i]
    exact hkeyed0 i
  have hdups' : (acc.pairs ++ [(v, C)]).map Prod.fst = acc.pairs.map Prod.fst ++ [v] := by
    rw [List.map_append]
    rfl
  have hharm : C = 0 → ¬refBy st0 v := by
    intro hC0
    refine harmful_excluded st0 rk hrk hrmax hP.unref hzlive L1 v hvlive hv0 acc hmid
      M2 hpre ?_
    intro i
    rw [← hC0]
    exact hkeyed i
  have hclass := fun (hC0 : C ≠ 0) =>
    merge_classify st0 rk L1 v C acc hmid hvlive hClive hC0 M2 hpre hkeyed
  have hholder : ∀ u ∈ st0.live, ∀ i, slotV acc.st u i = some v →
      u ∈ (getN acc.st v).parents ∧ slotV st0 u i = some v := by
    intro u hu i hs
    have hsl := hmid.slots u hu i
    rw [hs] at hsl
    cases h0 : slotV st0 u i with
    | none =>
      rw [h0] at hsl
      exact absurd hsl (by simp)
    | some y =>
      rw [h0] at hsl
      have hy : mtM acc.pairs y = v := (Option.some.inj hsl).symm
      have hyv : y = v := (mtM_eq_iff acc.pairs v y hvd hvcan).mp hy
      rw [hyv] at h0
      have hpc := (hP.pc u hu i v h0 hv0).2
      exact ⟨hmid.par_grow v u hpc, by rw [hyv]⟩
  refine ⟨?_, ?_, ?_, ?_, ?_, ?_, ?_, ?_, ?_, ?_, ?_, ?_, ?_, ?_, ?_, ?_⟩
  · show st2.live = st0.live
    rw [h2live, hmid.live_eq]
  · show st2.arena.length = st0.arena.length
    rw [h2len, hmid.len_eq]
  · intro p hp
    rcases List.mem_append.mp hp with hp1 | hp1
    · obtain ⟨h1, h2, h3⟩ := hmid.dup_mem p hp1
      exact ⟨List.mem_append_left _ h1, h2, List.mem_append_left _ h3⟩
    · have hp' : p = (v, C) := List.mem_singleton.mp hp1
      rw [hp']
      exact ⟨List.mem_append_right _ (List.mem_cons_self v []), hv0,
        List.mem_append_left _ hCL1⟩
  · show ((acc.pairs ++ [(v, C)]).map Prod.fst).Nodup
    rw [hdups']
    refine List.Nodup.append hmid.dup_nodup (List.nodup_singleton v) ?_
    intro a ha hb
    exact hvd ((List.mem_singleton.mp hb) ▸ ha)
  · intro p hp
    rw [hdups']
    intro hc
    rcases List.mem_append.mp hc with hc1 | hc1
    · rcases List.mem_append.mp hp with hp1 | hp1
      · exact hmid.can_not_dup p hp1 hc1
      · have hp' : p = (v, C) := List.mem_singleton.mp hp1
        rw [hp'] at hc1
        exact hCd hc1
    · have hpv : p.2 = v := List.mem_singleton.mp hc1
      rcases List.mem_append.mp hp with hp1 | hp1
      · exact hvcan p hp1 hpv
      · have hp' : p = (v, C) := List.mem_singleton.mp hp1
        rw [hp'] at hpv
        exact hCv hpv
  · intro u hu i
    rw [h2slot u i]
    by_cases hcase : u ∈ (getN acc.st v).parents ∧ slotV acc.st u i = some v
    · rw [if_pos hcase]
      obtain ⟨hpar, h0⟩ := hholder u hu i hcase.2
      rw [h0]
      show some C = some (mtM (acc.pairs ++ [(v, C)]) v)
      rw [mtM_append_self acc.pairs v C hvd]
    · rw [if_neg hcase]
      rw [hmid.slots u hu i]
      cases h0 : slotV st0 u i with
      | none => rfl
      | some y =>
        by_cases hyv : y = v
        · exfalso
          apply hcase
          have hsl := hmid.slots u hu i
          rw [h0, hyv] at hsl
          have hsl' : slotV acc.st u i = some (mtM acc.pairs v) := hsl
          rw [mtM_not_dup _ _ hvd] at hsl'
          obtain ⟨hpar, _⟩ := hholder u hu i hsl'
          exact ⟨hpar, hsl'⟩
        · show some (mtM acc.pairs y) = some (mtM (acc.pairs ++ [(v, C)]) y)
          rw [mtM_append_ne acc.pairs v C y hyv]
  · intro u hu
    rw [h2chlen u, hmid.chlen u hu]
  · intro x q hq
    have hq1 : q ∈ (getN acc.st x).parents := hmid.par_grow x q hq
    by_cases hx : x = C
    · subst hx
      exact h2parC q (Or.inl hq1)
    · rw [h2par x hx]
      exact hq1
  · intro p hp q hq
    rcases List.mem_append.mp hp with hp1 | hp1
    · have hq1 : q ∈ (getN acc.st p.2).parents := hmid.dup_par p hp1 q hq
      by_cases hx : p.2 = C
      · rw [hx]
        rw [hx] at hq1
        exact h2parC q (Or.inl hq1)
      · rw [h2par p.2 hx]
        exact hq1
    · have hp' : p = (v, C) := List.mem_singleton.mp hp1
      rw [hp'] at hq ⊢
      have hq1 : q ∈ (getN acc.st v).parents := hmid.par_grow v q hq
      exact h2parC q (Or.inr hq1)
  · show acc.map.map Prod.snd = _
    rw [hmid.map_ids, List.filter_append]
    have hvin : v ∈ (acc.pairs ++ [(v, C)]).map Prod.fst := by
      rw [hdups']
      exact List.mem_append_right _ (List.mem_cons_self v [])
    have hfv : [v].filter
        (fun x => !(((acc.pairs ++ [(v, C)]).map Prod.fst).contains x)) = [] := by
      rw [List.filter_cons_of_neg]
      · rfl
      · simpa using hvin
    rw [hfv, List.append_nil]
    refine List.filter_congr ?_
    intro x hx
    have hxv : x ≠ v := fun h => hvL1 (h ▸ hx)
    show (!((acc.pairs.map Prod.fst).contains x)) =
      (!(((acc.pairs ++ [(v, C)]).map Prod.fst).contains x))
    rw [hdups', contains_append_single _ v x hxv]
  · intro e he
    obtain ⟨M2', hpre', hkey'⟩ := hmid.map_keys e he
    exact ⟨M2', hpre'.trans (List.prefix_append _ _), hkey'⟩
  · intro p hp h0
    rcases List.mem_append.mp hp with hp1 | hp1
    · exact hmid.harmless p hp1 h0
    · have hp' : p = (v, C) := List.mem_singleton.mp hp1
      rw [hp'] at h0 ⊢
      exact hharm h0
  · intro p hp hp0
    rcases List.mem_append.mp hp with hp1 | hp1
    · exact hmid.hteq p hp1 hp0
    · have hp' : p = (v, C) := List.mem_singleton.mp hp1
      rw [hp'] at hp0 ⊢
      have hC0 : C ≠ 0 := hp0
      exact merge_hteq st0 rk hrk hrmax hP.chlen v C hvlive hClive acc.pairs (hclass hC0)
  · intro p hp hp0 i
    rcases List.mem_append.mp hp with hp1 | hp1
    · obtain ⟨o1, o2, o3⟩ := hmid.dup_slots p hp1 hp0 i
      refine ⟨o1, o2, ?_⟩
      intro y hy hy0
      obtain ⟨z, hz, hz0, hmm⟩ := o3 y hy hy0
      refine ⟨z, hz, hz0, ?_⟩
      by_cases hyv : y = v
      · by_cases hzv : z = v
        · rw [hyv, hzv]
        · exfalso
          rw [hyv, mtM_not_dup _ _ hvd] at hmm
          exact hzv ((mtM_eq_iff acc.pairs v z hvd hvcan).mp hmm.symm)
      · by_cases hzv : z = v
        · exfalso
          rw [hzv, mtM_not_dup _ _ hvd] at hmm
          exact hyv ((mtM_eq_iff acc.pairs v y hvd hvcan).mp hmm)
        · rw [mtM_append_ne acc.pairs v C y hyv, mtM_append_ne acc.pairs v C z hzv]
          exact hmm
    · have hp' : p = (v, C) := List.mem_singleton.mp hp1
      rw [hp'] at hp0 ⊢
      dsimp only at hp0 ⊢
      have hC0 : C ≠ 0 := hp0
      rcases hclass hC0 i with ⟨h1, h2⟩ | ⟨h1, h2⟩ | ⟨y, z, h1, h2, hy0, hz0, hmm, hmm0, _⟩
      · refine ⟨by rw [h1, h2], ?_, ?_⟩
        · rw [h1, h2]
        · intro y' hy' _
          rw [h1] at hy'
          exact absurd hy' (by simp)
      · refine ⟨?_, by rw [h1, h2], ?_⟩
        · rw [h1, h2]
        · intro y' hy' hy'0
          rw [h1] at hy'
          exact absurd (Option.some.inj hy').symm hy'0
      · refine ⟨?_, ?_, ?_⟩
        · rw [h1, h2]
          constructor
          · intro h
            exact absurd h (by simp)
          · intro h
            exact absurd h (by simp)
        · rw [h1, h2]
          constructor
          · intro h
            exact absurd (Option.some.inj h) hy0
          · intro h
            exact absurd (Option.some.inj h) hz0
        · intro y' hy' hy'0
          rw [h1] at hy'
          have hyy : y = y' := Option.some.inj hy'
          subst hyy
          have hyv : y ≠ v := by
            intro h
            rw [h] at h1
            have := hrk v hvlive i v h1 hv0
            omega
          have hzv : z ≠ v := by
            intro h
            rw [h] at hmm
            rw [mtM_not_dup _ _ hvd] at hmm
            exact hyv ((mtM_eq_iff acc.pairs v y hvd hvcan).mp hmm)
          refine ⟨z, h2, hz0, ?_⟩
          rw [mtM_append_ne acc.pairs v C y hyv, mtM_append_ne acc.pairs v C z hzv]
          exact hmm
  · intro k hk
    rw [List.length_append, List.length_singleton]
    rcases List.mem_append.mp hk with hk1 | hk1
    · have := hmid.merged_lt k hk1
      omega
    · have : k = L1.length := List.mem_singleton.mp hk1
      omega
  · intro idx x hx hidx
    rw [List.length_append, List.length_singleton] at hidx
    by_cases hlt : idx < L1.length
    · have hold := hmid.merged_iff idx x hx hlt
      have hxL1 : x ∈ L1 := by
        rw [hsplit] at hx
        rw [List.getElem?_append, if_pos hlt] at hx
        obtain ⟨h1, h2⟩ := List.getElem?_eq_some.mp hx
        rw [← h2]
        exact List.getElem_mem h1
      have hxv : x ≠ v := fun h => hvL1 (h ▸ hxL1)
      constructor
      · intro hc
        rcases List.mem_append.mp hc with hc1 | hc1
        · rw [hdups']
          exact List.mem_append_left _ (hold.mp hc1)
        · have := List.mem_singleton.mp hc1
          omega
      · intro hc
        rw [hdups'] at hc
        rcases List.mem_append.mp hc with hc1 | hc1
        · exact List.mem_append_left _ (hold.mpr hc1)
        · exact absurd (List.mem_singleton.mp hc1) hxv
    · have hix : idx = L1.length := by omega
      have hxv : x = v := by
        rw [hsplit, hix] at hx
        rw [List.getElem?_append_right (le_refl L1.length)] at hx
        simp at hx
        exact hx.symm
      constructor
      · intro _
        rw [hdups', hxv]
        exact List.mem_append_right _ (List.mem_cons_self v [])
      · intro _
        rw [hix]
        exact List.mem_append_right _ (List.mem_cons_self L1.length [])

theorem mid_step (st0 : St) (rk : Nat → Nat)
    (hrk : ∀ u ∈ st0.live, ∀ i x, slotV st0 u i = some x → x ≠ 0 →
      rk x < rk u ∧ x ∈ st0.live)
    (hrmax : ∀ u ∈ st0.live, rk u ≤ rk 0)
    (hP : PInv st0)
    (L1 L2 : List Nat) (v : Nat) (hsplit : st0.live = L1 ++ v :: L2)
    (acc : PassAcc) (hmid : Mid st0 rk L1 acc) :
    Mid st0 rk (L1 ++ [v]) (passStep acc (L1.length, v)) := by
  cases hlk : lookupKey acc.map (getN acc.st v).children with
  | none =>
    have hstep : passStep acc (L1.length, v) =
        { acc with map := acc.map ++ [((getN acc.st v).children, v)] } := by
      simp only [passStep]
      rw [hlk]
    rw [hstep]
    exact mid_step_insert st0 rk L1 L2 v hsplit hP.nodup acc hmid
  | some C =>
    have hstep : passStep acc (L1.length, v) =
        { acc with
          st := setN ((getN acc.st v).parents.foldl (rewireParent v C) acc.st) C
            { getN ((getN acc.st v).parents.foldl (rewireParent v C) acc.st) C with
                parents :=
                  (getN ((getN acc.st v).parents.foldl (rewireParent v C) acc.st) C).parents
                    ++ (getN acc.st v).parents },
          merged := acc.merged ++ [L1.length],
          pairs := acc.pairs ++ [(v, C)] } := by
      simp only [passStep]
      rw [hlk]
    rw [hstep]
    obtain ⟨hCL1, _, _⟩ := hit_canonical st0 rk L1 v C acc hmid hlk
    have hvL1 : v ∉ L1 := by
      have hnodup := hP.nodup
      rw [hsplit] at hnodup
      have hd := (List.nodup_append.mp hnodup).2.2
      intro hc
      exact hd hc (List.mem_cons_self v L2)
    have hCv : C ≠ v := fun h => hvL1 (h ▸ hCL1)
    have hClive : C ∈ st0.live := by
      rw [hsplit]
      exact List.mem_append_left _ hCL1
    have hCb1 : C <
        ((getN acc.st v).parents.foldl (rewireParent v C) acc.st).arena.length := by
      rw [rewire_foldl_len, hmid.len_eq]
      exact hP.bounds C hClive
    refine mid_step_merge_abs st0 rk hrk hrmax hP L1 L2 v C hsplit acc hmid hlk _
      ?_ ?_ ?_ ?_ ?_ ?_
    · rw [setN_live, rewire_foldl_live]
    · rw [setN_len, rewire_foldl_len]
    · intro u i
      rw [slotV_setN_parents, rewire_foldl_slot v C hCv]
    · intro u
      rw [children_setN_parents, children_len_rewire_foldl]
    · intro q hq
      rw [getN_setN_lt _ C _ hCb1]
      rcases hq with hq | hq
      · refine List.mem_append_left _ ?_
        rw [rewire_foldl_parents]
        exact hq
      · exact List.mem_append_right _ hq
    · intro x hx
      rw [getN_setN_ne _ C _ (fun h => hx h.symm), rewire_foldl_parents]

theorem mid_fold (st0 : St) (rk : Nat → Nat)
    (hrk : ∀ u ∈ st0.live, ∀ i x, slotV st0 u i = some x → x ≠ 0 →
      rk x < rk u ∧ x ∈ st0.live)
    (hrmax : ∀ u ∈ st0.live, rk u ≤ rk 0)
    (hP : PInv st0) :
    ∀ (L2 L1 : List Nat) (acc : PassAcc), st0.live = L1 ++ L2 → Mid st0 rk L1 acc →
    Mid st0 rk (L1 ++ L2) ((L2.enumFrom L1.length).foldl passStep acc) := by
  intro L2
  induction L2 with
  | nil =>
    intro L1 acc hs hm
    rw [List.append_nil]
    exact hm
  | cons v L2 ih =>
    intro L1 acc hs hm
    have hstep := mid_step st0 rk hrk hrmax hP L1 L2 v hs acc hm
    have hrec := ih (L1 ++ [v]) (passStep acc (L1.length, v))
      (by rw [hs, List.append_assoc]; rfl) hstep
    show Mid st0 rk (L1 ++ v :: L2)
      (((L1.length, v) :: L2.enumFrom (L1.length + 1)).foldl passStep acc)
    rw [List.foldl_cons]
    have hlen : (L1 ++ [v]).length = L1.length + 1 := by
      rw [List.length_append, List.length_singleton]
    rw [← hlen]
    rw [show L1 ++ v :: L2 = (L1 ++ [v]) ++ L2 from by rw [List.append_assoc]; rfl]
    exact hrec

theorem mid_pass (st0 : St) (rk : Nat → Nat)
    (hrk : ∀ u ∈ st0.live, ∀ i x, slotV st0 u i = some x → x ≠ 0 →
      rk x < rk u ∧ x ∈ st0.live)
    (hrmax : ∀ u ∈ st0.live, rk u ≤ rk 0)
    (hP : PInv st0) :
    Mid st0 rk st0.live (dedupePass st0) := by
  have h := mid_fold st0 rk hrk hrmax hP st0.live [] ⟨st0, [], [], []⟩ rfl
    (mid_init st0 rk)
  rw [List.nil_append] at h
  exact h

theorem enum_filter_by_values (mg dp : List Nat) :
    ∀ (l : List Nat) (n : Nat),
    (∀ j x, l[j]? = some x → ((n + j) ∈ mg ↔ x ∈ dp)) →
    ((l.enumFrom n).filter (fun p => !mg.contains p.1)).map Prod.snd =
      l.filter (fun x => !dp.contains x) := by
  intro l
  induction l with
  | nil =>
    intro n _
    rfl
  | cons a l ih =>
    intro n h
    have hiff : (n ∈ mg ↔ a ∈ dp) := by
      have := h 0 a (by simp)
      rwa [Nat.add_zero] at this
    have hshift : ∀ j x, l[j]? = some x → ((n + 1 + j) ∈ mg ↔ x ∈ dp) := by
      intro j x hj
      have := h (j + 1) x (by simpa using hj)
      have he : n + (j + 1) = n + 1 + j := by omega
      rwa [he] at this
    show ((( n, a) :: l.enumFrom (n + 1)).filter (fun p => !mg.contains p.1)).map
      Prod.snd = _
    by_cases hada : a ∈ dp
    · have hn : n ∈ mg := hiff.mpr hada
      rw [List.filter_cons_of_neg, List.filter_cons_of_neg]
      · exact ih (n + 1) hshift
      · simpa using hada
      · simpa using hn
    · have hn : n ∉ mg := fun hc => hada (hiff.mp hc)
      have hcm : mg.contains n = false := by
        cases hc : mg.contains n with
        | false => rfl
        | true => exact absurd (List.elem_iff.mp hc) hn
      have hcd : dp.contains a = false := by
        cases hc : dp.contains a with
        | false => rfl
        | true => exact absurd (List.elem_iff.mp hc) hada
      rw [List.filter_cons_of_pos, List.filter_cons_of_pos, List.map_cons]
      · exact congrArg (List.cons a) (ih (n + 1) hshift)
      · rw [hcd]
        rfl
      · show (!mg.contains n) = true
        rw [hcm]
        rfl

theorem pass_live (st0 : St) (rk : Nat → Nat)
    (hmid : Mid st0 rk st0.live (dedupePass st0)) :
    (passResult st0).1.live = st0.live.filter
      (fun x => !(((dedupePass st0).pairs.map Prod.fst).contains x)) := by
  show ((st0.live.enumFrom 0).filter
    (fun p => !(dedupePass st0).merged.contains p.1)).map Prod.snd = _
  refine enum_filter_by_values _ _ st0.live 0 ?_
  intro j x hj
  have hjlt : j < st0.live.length := (List.getElem?_eq_some.mp hj).1
  have := hmid.merged_iff j x hj hjlt
  rwa [Nat.zero_add]

theorem not_contains_of_not_mem (l : List Nat) (a : Nat) (h : a ∉ l) :
    (!l.contains a) = true := by
  cases hc : l.contains a with
  | false => rfl
  | true => exact absurd (List.elem_iff.mp hc) h

set_option maxHeartbeats 1600000 in
theorem pass_exit (st0 : St) (rk : Nat → Nat)
    (hrk : ∀ u ∈ st0.live, ∀ i x, slotV st0 u i = some x → x ≠ 0 →
      rk x < rk u ∧ x ∈ st0.live)
    (hrmax : ∀ u ∈ st0.live, rk u ≤ rk 0)
    (hP : PInv st0) (hnar : noAllRoot st0) :
    PInv (passResult st0).1 ∧ noAllRoot (passResult st0).1 := by
  have hmid := mid_pass st0 rk hrk hrmax hP
  have hlive' := pass_live st0 rk hmid
  have hzlive : 0 ∈ st0.live := zero_mem_live st0 hP.head0
  have h0nd : (0 : Nat) ∉ (dedupePass st0).pairs.map Prod.fst := by
    intro hm
    obtain ⟨p, hp, hp1⟩ := List.mem_map.mp hm
    exact (hmid.dup_mem p hp).2.1 hp1
  have hget : ∀ x, getN (passResult st0).1 x = getN (dedupePass st0).st x :=
    fun x => rfl
  have hslot : ∀ u i, slotV (passResult st0).1 u i = slotV (dedupePass st0).st u i :=
    fun u i => rfl
  have hmem : ∀ u, u ∈ (passResult st0).1.live ↔
      (u ∈ st0.live ∧ u ∉ (dedupePass st0).pairs.map Prod.fst) := by
    intro u
    rw [hlive', List.mem_filter]
    constructor
    · rintro ⟨h1, h2⟩
      refine ⟨h1, fun hc => ?_⟩
      have hc' : ((dedupePass st0).pairs.map Prod.fst).contains u = true :=
        List.elem_iff.mpr hc
      rw [hc'] at h2
      exact absurd h2 (by simp)
    · rintro ⟨h1, h2⟩
      exact ⟨h1, not_contains_of_not_mem _ u h2⟩
  have himg : ∀ u ∈ st0.live, ∀ i y, slotV st0 u i = some y → y ≠ 0 →
      mtM (dedupePass st0).pairs y ≠ 0 ∧
      htF st0 (rk 0 + 1) (mtM (dedupePass st0).pairs y) = htF st0 (rk 0 + 1) y ∧
      mtM (dedupePass st0).pairs y ∈ st0.live ∧
      mtM (dedupePass st0).pairs y ∉ (dedupePass st0).pairs.map Prod.fst := by
    intro u hu i y hs hy0
    have hry : refBy st0 y := ⟨u, hu, i, hs⟩
    obtain ⟨hn0, hht⟩ := mtM_ht st0 rk (dedupePass st0).pairs hmid.dup_nodup
      hmid.harmless hmid.hteq y hry hy0
    have hout := mtM_out_not_dup (dedupePass st0).pairs y hmid.can_not_dup
    refine ⟨hn0, hht, ?_, hout⟩
    by_cases hyd : y ∈ (dedupePass st0).pairs.map Prod.fst
    · obtain ⟨p, hp, hp1⟩ := List.mem_map.mp hyd
      have hp' : (y, p.2) ∈ (dedupePass st0).pairs := by
        rw [← hp1]
        exact hp
      have hmv : mtM (dedupePass st0).pairs y = p.2 :=
        mtM_dup _ y p.2 hp' hmid.dup_nodup
      rw [hmv]
      exact (hmid.dup_mem (y, p.2) hp').2.2
    · rw [mtM_not_dup _ y hyd]
      exact (hrk u hu i y hs hy0).2
  have hrefT : ∀ u, u ∈ (passResult st0).1.live → u ≠ 0 → refBy st0 u →
      refBy (passResult st0).1 u := by
    intro u hu hu0 href
    obtain ⟨h, hh, i, hs⟩ := href
    have hud : u ∉ (dedupePass st0).pairs.map Prod.fst := ((hmem u).mp hu).2
    have hmu : mtM (dedupePass st0).pairs u = u := mtM_not_dup _ u hud
    by_cases hhd : h ∈ (dedupePass st0).pairs.map Prod.fst
    · obtain ⟨p, hp, hp1⟩ := List.mem_map.mp hhd
      have hp' : (h, p.2) ∈ (dedupePass st0).pairs := by
        rw [← hp1]
        exact hp
      have hh0 : h ≠ 0 := (hmid.dup_mem (h, p.2) hp').2.1
      have hch0 : p.2 ≠ 0 := by
        intro h0
        have hnr := hmid.harmless (h, p.2) hp' h0
        have hch := hP.unref h hh hh0 hnr
        unfold slotV at hs
        rw [hch, getD_replicate_none] at hs
        exact absurd hs (by simp)
      obtain ⟨_, _, o3⟩ := hmid.dup_slots (h, p.2) hp' hch0 i
      obtain ⟨z, hz, hz0, hmtm⟩ := o3 u hs hu0
      rw [hmu] at hmtm
      have hp2live : p.2 ∈ st0.live := (hmid.dup_mem (h, p.2) hp').2.2
      have hp2d : p.2 ∉ (dedupePass st0).pairs.map Prod.fst :=
        hmid.can_not_dup (h, p.2) hp'
      refine ⟨p.2, (hmem p.2).mpr ⟨hp2live, hp2d⟩, i, ?_⟩
      rw [hslot, hmid.slots p.2 hp2live i, hz]
      show some (mtM (dedupePass st0).pairs z) = some u
      rw [← hmtm]
    · refine ⟨h, (hmem h).mpr ⟨hh, hhd⟩, i, ?_⟩
      rw [hslot, hmid.slots h hh i, hs]
      show some (mtM (dedupePass st0).pairs u) = some u
      rw [hmu]
  have hlive0 : ∃ t, st0.live = 0 :: t := by
    cases hl : st0.live with
    | nil =>
      have hh := hP.head0
      rw [hl] at hh
      exact absurd hh (by simp)
    | cons a t =>
      have hh := hP.head0
      rw [hl] at hh
      have ha : a = 0 := by simpa using hh
      exact ⟨t, by rw [ha]⟩
  constructor
  · refine ⟨?_, ?_, ?_, ?_, ?_, ?_, ?_⟩
    · obtain ⟨t, ht⟩ := hlive0
      rw [hlive', ht, List.filter_cons_of_pos]
      · rfl
      · exact not_contains_of_not_mem _ 0 h0nd
    · rw [hlive']
      exact hP.nodup.filter _
    · intro n hn
      have h1 := ((hmem n).mp hn).1
      show n < (dedupePass st0).st.arena.length
      rw [hmid.len_eq]
      exact hP.bounds n h1
    · intro n hn
      have h1 := ((hmem n).mp hn).1
      show (getN (dedupePass st0).st n).children.length = 16
      rw [hmid.chlen n h1]
      exact hP.chlen n h1
    · intro u hu i w hs hw0
      obtain ⟨hu1, _⟩ := (hmem u).mp hu
      have hs' : slotV (dedupePass st0).st u i = some w := hs
      rw [hmid.slots u hu1 i] at hs'
      cases h0 : slotV st0 u i with
      | none =>
        rw [h0] at hs'
        exact absurd hs' (by simp)
      | some y =>
        rw [h0] at hs'
        have hw : mtM (dedupePass st0).pairs y = w := Option.some.inj hs'
        have hy0 : y ≠ 0 := by
          intro h
          rw [h, mtM_not_dup _ _ h0nd] at hw
          exact hw0 hw.symm
        obtain ⟨_, _, hwl, hwd⟩ := himg u hu1 i y h0 hy0
        rw [hw] at hwl hwd
        refine ⟨(hmem w).mpr ⟨hwl, hwd⟩, ?_⟩
        rw [hget w]
        have hupar : u ∈ (getN st0 y).parents := (hP.pc u hu1 i y h0 hy0).2
        by_cases hyd : y ∈ (dedupePass st0).pairs.map Prod.fst
        · obtain ⟨p, hp, hp1⟩ := List.mem_map.mp hyd
          have hp' : (y, p.2) ∈ (dedupePass st0).pairs := by
            rw [← hp1]
            exact hp
          have hmv : mtM (dedupePass st0).pairs y = p.2 :=
            mtM_dup _ y p.2 hp' hmid.dup_nodup
          rw [hmv] at hw
          rw [← hw]
          exact hmid.dup_par (y, p.2) hp' u hupar
        · have hmv : mtM (dedupePass st0).pairs y = y := mtM_not_dup _ y hyd
          rw [hmv] at hw
          rw [← hw]
          exact hmid.par_grow y u hupar
    · intro u hu hu0 hnr
      obtain ⟨hu1, _⟩ := (hmem u).mp hu
      have hnr0 : ¬refBy st0 u := fun hr => hnr (hrefT u hu hu0 hr)
      have hch := hP.unref u hu1 hu0 hnr0
      show (getN (dedupePass st0).st u).children = List.replicate 16 none
      have hcm := children_eq_map (dedupePass st0).st st0 u
        (Option.map (mtM (dedupePass st0).pairs)) (hmid.chlen u hu1) (hmid.slots u hu1)
      rw [hcm, hch, List.map_replicate]
      rfl
    · refine ⟨htF st0 (rk 0 + 1), ?_, ?_⟩
      · intro u hu i w hs hw0
        obtain ⟨hu1, _⟩ := (hmem u).mp hu
        have hs' : slotV (dedupePass st0).st u i = some w := hs
        rw [hmid.slots u hu1 i] at hs'
        cases h0 : slotV st0 u i with
        | none =>
          rw [h0] at hs'
          exact absurd hs' (by simp)
        | some y =>
          rw [h0] at hs'
          have hw : mtM (dedupePass st0).pairs y = w := Option.some.inj hs'
          have hy0 : y ≠ 0 := by
            intro h
            rw [h, mtM_not_dup _ _ h0nd] at hw
            exact hw0 hw.symm
          obtain ⟨_, hht, _, _⟩ := himg u hu1 i y h0 hy0
          rw [hw] at hht
          have hedge := htB_edge st0 rk hrk hrmax u y i hu1 h0 hy0
          omega
      · intro u hu
        obtain ⟨hu1, _⟩ := (hmem u).mp hu
        exact htB_max st0 rk hrk hP.unref hrmax hzlive u hu1
  · intro n hn hall
    obtain ⟨hn1, _⟩ := (hmem n).mp hn
    apply hnar n hn1
    have h16 : (getN st0 n).children.length = 16 := hP.chlen n hn1
    apply List.ext_getElem
    · rw [h16, List.length_replicate]
    · intro i hi1 hi2
      have hi16 : i < 16 := by
        rw [h16] at hi1
        exact hi1
      have hsl : slotV (dedupePass st0).st n i = some 0 := by
        show (getN (dedupePass st0).st n).children.getD i none = some 0
        rw [← hget n, hall, getD_replicate]
        rw [if_pos hi16]
      have hs' := hsl
      rw [hmid.slots n hn1 i] at hs'
      cases h0 : slotV st0 n i with
      | none =>
        rw [h0] at hs'
        exact absurd hs' (by simp)
      | some y =>
        rw [h0] at hs'
        have hy : mtM (dedupePass st0).pairs y = 0 := Option.some.inj hs'
        have hy0 : y = 0 := by
          by_contra hy0
          obtain ⟨hn0, _, _, _⟩ := himg n hn1 i y h0 hy0
          exact hn0 hy
        have hg : (getN st0 n).children[i] = some y := by
          have hgd : (getN st0 n).children.getD i none = some y := h0
          rw [List.getD_eq_getElem?_getD, List.getElem?_eq_getElem hi1] at hgd
          exact hgd
        rw [hg, hy0, List.getElem_replicate]

theorem iter_nar : ∀ fuel st, PInv st → noAllRoot st → noAllRoot (dedupeIter fuel st) := by
  intro fuel
  induction fuel with
  | zero =>
    intro st _ h
    exact h
  | succ fuel ih =>
    intro st hP hnar
    obtain ⟨rk, hdec, hmax⟩ := hP.rank
    have hrk : ∀ u ∈ st.live, ∀ i x, slotV st u i = some x → x ≠ 0 →
        rk x < rk u ∧ x ∈ st.live :=
      fun u hu i x hs hx => ⟨hdec u hu i x hs hx, (hP.pc u hu i x hs hx).1⟩
    obtain ⟨hP1, hnar1⟩ := pass_exit st rk hrk hmax hP hnar
    show noAllRoot (if (passResult st).2 then dedupeIter fuel (passResult st).1
      else (passResult st).1)
    by_cases hflag : (passResult st).2
    · rw [if_pos hflag]
      exact ih (passResult st).1 hP1 hnar1
    · rw [if_neg hflag]
      exact hnar1

theorem dedupe_preserves_no_all_root (st : St) (hP : PInv st) (hnar : noAllRoot st) :
    noAllRoot (dedupe st) :=
  iter_nar st.live.length st hP hnar

theorem BInv_to_PInv (N : Nat) (Ps Pw : List (Nat × Nat)) (st : St)
    (blk : Nat → Nat × Nat) (hb : BInv N Ps Pw st blk) : PInv st := by
  refine ⟨hb.head0, hb.nodup, hb.bounds, hb.chlen, ?_, hb.unref, ?_⟩
  · intro u hu i w hs hw
    obtain ⟨hwl, _, _⟩ := hb.edge u hu i w hs hw
    obtain ⟨p, hp, huniq⟩ := hb.uniqRef w hwl hw
    refine ⟨hwl, ?_⟩
    rw [hp, huniq u hu i hs]
    exact List.mem_cons_self p []
  · refine ⟨fun n => N - (blk n).1, ?_, ?_⟩
    · intro u hu i w hs hw
      obtain ⟨hwl, hbw, hle⟩ := hb.edge u hu i w hs hw
      show N - (blk w).1 < N - (blk u).1
      rw [hbw]
      dsimp only
      omega
    · intro u hu
      have hd := hb.depthLe u hu
      show N - (blk u).1 ≤ N - (blk 0).1
      rw [hb.blk0]
      dsimp only
      omega

theorem validate_ok_of_nar (st : St) (h : noAllRoot st) :
    validateNodes st = .ok () := by
  unfold validateNodes
  have hc : st.live.all
      (fun nid => decide ((getN st nid).children ≠ List.replicate 16 (some 0))) = true := by
    rw [List.all_eq_true]
    intro nid hn
    exact decide_eq_true (h nid hn)
  rw [if_pos hc]

theorem build_not_full (N : Nat) (hN : 0 < N) (R : List (Nat × Nat))
    (hR : ∀ r ∈ R, r.1 ≤ r.2 ∧ r.2 < 16 ^ N ∧ alignedRange r)
    (hpw : List.Pairwise (fun a b => a.2 < b.1) R)
    (st' : St) (h : build (4 * N) R = .ok st') : (0, 16 ^ N - 1) ∉ R :=
  build_not_full_go N hN R [] initSt (fun _ => (0, 0)) (BInv_init N) hR
    (fun p hp => absurd hp (List.not_mem_nil p))
    (fun p hp _ hr => absurd hp (List.not_mem_nil p)) hpw st' h

/-- **C8.**  For every sorted, non-overlapping, canonically collapsed
(buddy-free) sequence of well-formed aligned ranges on which the
construction succeeds, after `dedupe` no surviving node has all 16
children pointing at Root, so the fatal structural-invariant check in
`validate` (`assert node.children != [root] * 16`) never fires. -/
theorem C8_no_all_root_after_dedupe (N : Nat) (hN : 0 < N)
    (R : List (Nat × Nat))
    (hR : ∀ r ∈ R, r.1 ≤ r.2 ∧ r.2 < 16 ^ N ∧ alignedRange r)
    (hpw : List.Pairwise (fun a b => a.2 < b.1) R)
    (hnb : noBuddy R)
    (st : St) (h : build (4 * N) R = .ok st) :
    noAllRoot (dedupe st) ∧ validateNodes (dedupe st) = .ok () := by
  obtain ⟨blk, hB⟩ := build_inv N R hR hpw st h
  have hfull := build_not_full N hN R hR hpw st h
  have hnar : noAllRoot st := build_no_all_root N R st blk hB hR hnb hfull
  have hP : PInv st := BInv_to_PInv N R R st blk hB
  have hd := dedupe_preserves_no_all_root st hP hnar
  exact ⟨hd, validate_ok_of_nar (dedupe st) hd⟩

/-- Witness for C8 at the concrete input `ranges = [(16, 31)]`, width 8:
the construction succeeds, and after reduction no node is all-root and
the validator check passes. -/
theorem C8_witness :
    build (4 * 2) [((16 : Nat), 31)] = .ok
      ⟨[⟨[none, some 0, none, none, none, none, none, none,
          none, none, none, none, none, none, none, none], [], none⟩,
        ⟨List.replicate 16 none, [0], none⟩], [0, 1]⟩ ∧
    (noAllRoot (dedupe
      ⟨[⟨[none, some 0, none, none, none, none, none, none,
          none, none, none, none, none, none, none, none], [], none⟩,
        ⟨List.replicate 16 none, [0], none⟩], [0, 1]⟩) ∧
    validateNodes (dedupe
      ⟨[⟨[none, some 0, none, none, none, none, none, none,
          none, none, none, none, none, none, none, none], [], none⟩,
        ⟨List.replicate 16 none, [0], none⟩], [0, 1]⟩) = .ok ()) := by
  refine ⟨by rfl, ?_⟩
  refine C8_no_all_root_after_dedupe 2 (by decide) [(16, 31)] ?_ ?_ ?_ _ (by rfl)
  · intro r hr
    rw [List.mem_singleton] at hr
    subst hr
    exact ⟨by decide, by decide, 4, by decide, by decide⟩
  · refine List.Pairwise.cons ?_ List.Pairwise.nil
    intro b hb
    exact absurd hb (List.not_mem_nil b)
  · intro r hr r' hr'
    rw [List.mem_singleton] at hr hr'
    subst hr
    subst hr'
    intro hc
    exact absurd hc.1 (by decide)

end Eurip
